import Mathlib

/-!
# QSettingsJson: a JSON backend for QSettings

Shallow embedding of `src/qsettings_json.hpp`.

* The *encoder* (`parseJsonValue`, `parseJsonArray`, `parseJsonObject`,
  `readSettingsJson`) flattens a JSON document into a `QSettings::SettingsMap`,
  a `QMap<QString, QVariant>` whose keys are `/`-joined paths.
* The *decoder* (`restoreJsonValue`, `restoreJsonObject`, `restoreJsonArray`,
  `restoreJsonSimpleValue`, `writeSettingsJson`) rebuilds a JSON document from
  the ascending key list of such a map.

Qt library types are modelled as follows.

* `QString` is a list of characters; `QString::operator<` is the
  lexicographic order on code units (`qstrLt`).
* `QVariant` is a tagged value: invalid, null, Bool, number, string, or a list
  or map of variants; numbers carry an `Int` payload which `toVariant` /
  `fromVariant` pass through unchanged.
* `QJsonValue` is the JSON tree.  A `QJsonObject` keeps its members in
  ascending key order with unique keys, a `QJsonArray` is a list.
* `QMap<QString, QVariant>` is an association list in ascending key order.
* `qWarning()` output is collected in a log of `Diagnostic`s.
* The decoder's loops are bounded by a fuel argument; running out of fuel is
  reported as `DecError.outOfFuel`, a failed `Q_ASSERT` of a `QList` accessor
  as `DecError.indexOutOfRange`.
-/

namespace QSettingsJson

/-! ## Strings -/

/-- A `QString`, as its sequence of characters. -/
abbrev QString := List Char

/-- The `QString::operator<` comparison: lexicographic on the characters. -/
def qstrLt : QString → QString → Bool
  | [], [] => false
  | [], _ :: _ => true
  | _ :: _, [] => false
  | a :: as, b :: bs =>
    if a < b then true else if b < a then false else qstrLt as bs

/-- The `QString::split('/')` list (empty parts are kept). -/
def split : QString → List QString
  | [] => [[]]
  | c :: cs =>
    if c = '/' then [] :: split cs
    else
      match split cs with
      | [] => [[c]]
      | s :: ss => (c :: s) :: ss

/-- Decimal value of a list of digit characters (most significant first). -/
def digitsValue (ds : List Char) : Nat :=
  ds.foldl (fun acc c => 10 * acc + (c.toNat - '0'.toNat)) 0

/-- The `QChar::isSpace` test on the ASCII range and U+0085, U+00A0. -/
def isSpace (c : Char) : Bool :=
  c = ' ' || c = '\t' || c = '\n' || c = '\x0b' || c = '\x0c' || c = '\r'
    || c = '\x85' || c = '\xa0'

/-- An optional leading sign: whether it is `'-'`, and the text after it. -/
def signSplit : List Char → Bool × List Char
  | '-' :: r => (true, r)
  | '+' :: r => (false, r)
  | r => (false, r)

/-- The `toInt(bool *ok, 10)` conversion of `QString` / `QStringRef`:
surrounding white space is skipped, an optional sign is followed by at least
one decimal digit and nothing else, and the value has to fit an `int`.
`none` stands for `*ok == false`. -/
def toInt (s : QString) : Option Int :=
  let t := ((s.dropWhile isSpace).reverse.dropWhile isSpace).reverse
  let body : Bool × List Char := signSplit t
  if body.2.isEmpty || !(body.2.all Char.isDigit) then none
  else
    let v : Int := if body.1 then -(digitsValue body.2 : Int) else (digitsValue body.2 : Int)
    if -2147483648 ≤ v ∧ v ≤ 2147483647 then some v else none

/-- The function `getArrayIndex(section, &ok)`: the returned index and `*ok`. -/
def getArrayIndex (sect : QString) : Int × Bool :=
  match sect with
  | '#' :: rest =>
    match toInt rest with
    | some i => (i, true)
    | none => (0, false)
  | _ => (-1, false)

/-- Decimal digits of `n`, most significant first (`fuel` bounds the length). -/
def decimalDigits : Nat → Nat → List Char
  | 0, _ => []
  | fuel + 1, n =>
    if n < 10 then [Nat.digitChar n]
    else decimalDigits fuel (n / 10) ++ [Nat.digitChar (n % 10)]

/-- The text of `QString("%1").arg(n, 5, 10, QChar('0'))`: the decimal digits of
`n`, padded on the left with `'0'` up to width 5. -/
def zeroPad5 (n : Nat) : QString :=
  let ds := decimalDigits (n + 1) n
  List.replicate (5 - ds.length) '0' ++ ds

/-- The array item key `QString("#%1").arg(arr_ctr, 5, 10, QChar('0'))`. -/
def arrItemkey (arr_ctr : Nat) : QString := '#' :: zeroPad5 arr_ctr

/-! ## Values -/

/-- A `QVariant` holding a settings value: invalid, null, a Bool, a number, a
string, or a container variant.  `list` carries the items of a `QVariantList`
(a `QStringList` is the list of its strings), `map` the entries of a
`QVariantMap` in ascending key order. -/
inductive QVariant where
  | invalid : QVariant
  | nullptr : QVariant
  | bool : Bool → QVariant
  | double : Int → QVariant
  | string : QString → QVariant
  | list : List QVariant → QVariant
  | map : List (QString × QVariant) → QVariant
  deriving Repr, Inhabited

mutual
/-- Equality of two `QVariant`s is decidable. -/
def QVariant.decEq : (a b : QVariant) → Decidable (a = b)
  | .invalid, .invalid => isTrue rfl
  | .invalid, .nullptr => isFalse (fun e => QVariant.noConfusion e)
  | .invalid, .bool _ => isFalse (fun e => QVariant.noConfusion e)
  | .invalid, .double _ => isFalse (fun e => QVariant.noConfusion e)
  | .invalid, .string _ => isFalse (fun e => QVariant.noConfusion e)
  | .invalid, .list _ => isFalse (fun e => QVariant.noConfusion e)
  | .invalid, .map _ => isFalse (fun e => QVariant.noConfusion e)
  | .nullptr, .invalid => isFalse (fun e => QVariant.noConfusion e)
  | .nullptr, .nullptr => isTrue rfl
  | .nullptr, .bool _ => isFalse (fun e => QVariant.noConfusion e)
  | .nullptr, .double _ => isFalse (fun e => QVariant.noConfusion e)
  | .nullptr, .string _ => isFalse (fun e => QVariant.noConfusion e)
  | .nullptr, .list _ => isFalse (fun e => QVariant.noConfusion e)
  | .nullptr, .map _ => isFalse (fun e => QVariant.noConfusion e)
  | .bool _, .invalid => isFalse (fun e => QVariant.noConfusion e)
  | .bool _, .nullptr => isFalse (fun e => QVariant.noConfusion e)
  | .bool x, .bool y => if h : x = y then isTrue (congrArg _ h)
    else isFalse (fun e => h (QVariant.bool.inj e))
  | .bool _, .double _ => isFalse (fun e => QVariant.noConfusion e)
  | .bool _, .string _ => isFalse (fun e => QVariant.noConfusion e)
  | .bool _, .list _ => isFalse (fun e => QVariant.noConfusion e)
  | .bool _, .map _ => isFalse (fun e => QVariant.noConfusion e)
  | .double _, .invalid => isFalse (fun e => QVariant.noConfusion e)
  | .double _, .nullptr => isFalse (fun e => QVariant.noConfusion e)
  | .double _, .bool _ => isFalse (fun e => QVariant.noConfusion e)
  | .double x, .double y => if h : x = y then isTrue (congrArg _ h)
    else isFalse (fun e => h (QVariant.double.inj e))
  | .double _, .string _ => isFalse (fun e => QVariant.noConfusion e)
  | .double _, .list _ => isFalse (fun e => QVariant.noConfusion e)
  | .double _, .map _ => isFalse (fun e => QVariant.noConfusion e)
  | .string _, .invalid => isFalse (fun e => QVariant.noConfusion e)
  | .string _, .nullptr => isFalse (fun e => QVariant.noConfusion e)
  | .string _, .bool _ => isFalse (fun e => QVariant.noConfusion e)
  | .string _, .double _ => isFalse (fun e => QVariant.noConfusion e)
  | .string x, .string y => if h : x = y then isTrue (congrArg _ h)
    else isFalse (fun e => h (QVariant.string.inj e))
  | .string _, .list _ => isFalse (fun e => QVariant.noConfusion e)
  | .string _, .map _ => isFalse (fun e => QVariant.noConfusion e)
  | .list _, .invalid => isFalse (fun e => QVariant.noConfusion e)
  | .list _, .nullptr => isFalse (fun e => QVariant.noConfusion e)
  | .list _, .bool _ => isFalse (fun e => QVariant.noConfusion e)
  | .list _, .double _ => isFalse (fun e => QVariant.noConfusion e)
  | .list _, .string _ => isFalse (fun e => QVariant.noConfusion e)
  | .list x, .list y => match QVariant.decEqList x y with
    | isTrue h => isTrue (congrArg _ h)
    | isFalse h => isFalse (fun e => h (QVariant.list.inj e))
  | .list _, .map _ => isFalse (fun e => QVariant.noConfusion e)
  | .map _, .invalid => isFalse (fun e => QVariant.noConfusion e)
  | .map _, .nullptr => isFalse (fun e => QVariant.noConfusion e)
  | .map _, .bool _ => isFalse (fun e => QVariant.noConfusion e)
  | .map _, .double _ => isFalse (fun e => QVariant.noConfusion e)
  | .map _, .string _ => isFalse (fun e => QVariant.noConfusion e)
  | .map _, .list _ => isFalse (fun e => QVariant.noConfusion e)
  | .map x, .map y => match QVariant.decEqMap x y with
    | isTrue h => isTrue (congrArg _ h)
    | isFalse h => isFalse (fun e => h (QVariant.map.inj e))
/-- Equality of the item lists of two `QVariantList`s is decidable. -/
def QVariant.decEqList : (a b : List QVariant) → Decidable (a = b)
  | [], [] => isTrue rfl
  | [], _ :: _ => isFalse (fun e => List.noConfusion e)
  | _ :: _, [] => isFalse (fun e => List.noConfusion e)
  | x :: xs, y :: ys =>
    match QVariant.decEq x y, QVariant.decEqList xs ys with
    | isTrue h1, isTrue h2 => isTrue (congrArg₂ _ h1 h2)
    | isFalse h1, _ => isFalse (fun e => h1 (List.cons.inj e).1)
    | _, isFalse h2 => isFalse (fun e => h2 (List.cons.inj e).2)
/-- Equality of the entry lists of two `QVariantMap`s is decidable. -/
def QVariant.decEqMap : (a b : List (QString × QVariant)) → Decidable (a = b)
  | [], [] => isTrue rfl
  | [], _ :: _ => isFalse (fun e => List.noConfusion e)
  | _ :: _, [] => isFalse (fun e => List.noConfusion e)
  | (k, x) :: xs, (l, y) :: ys =>
    if hk : k = l then
      match QVariant.decEq x y, QVariant.decEqMap xs ys with
      | isTrue h1, isTrue h2 => isTrue (by rw [hk, h1, h2])
      | isFalse h1, _ => isFalse (fun e => h1 (Prod.mk.inj (List.cons.inj e).1).2)
      | _, isFalse h2 => isFalse (fun e => h2 (List.cons.inj e).2)
    else isFalse (fun e => hk (Prod.mk.inj (List.cons.inj e).1).1)
end

instance : DecidableEq QVariant := QVariant.decEq

/-- The `QVariant::isNull` test (a list or map variant is never null). -/
def QVariant.isNull : QVariant → Bool
  | .invalid => true
  | .nullptr => true
  | _ => false

/-- A `QJsonValue`.  `object` carries the members of a `QJsonObject`,
`array` the items of a `QJsonArray`. -/
inductive QJsonValue where
  | null : QJsonValue
  | bool : Bool → QJsonValue
  | double : Int → QJsonValue
  | string : QString → QJsonValue
  | array : List QJsonValue → QJsonValue
  | object : List (QString × QJsonValue) → QJsonValue
  | undefined : QJsonValue
  deriving Repr, Inhabited

mutual
/-- The `QJsonValue::fromVariant` conversion: a list variant becomes an Array
(`QJsonArray::fromVariantList`), a map variant an Object
(`QJsonObject::fromVariantMap`), an invalid or null variant `Null`. -/
def fromVariant : QVariant → QJsonValue
  | .invalid => .null
  | .nullptr => .null
  | .bool b => .bool b
  | .double d => .double d
  | .string s => .string s
  | .list items => .array (fromVariantList items)
  | .map entries => .object (fromVariantMap entries)
/-- The items of `QJsonArray::fromVariantList`. -/
def fromVariantList : List QVariant → List QJsonValue
  | [] => []
  | v :: rest => fromVariant v :: fromVariantList rest
/-- The members of `QJsonObject::fromVariantMap`. -/
def fromVariantMap : List (QString × QVariant) → List (QString × QJsonValue)
  | [] => []
  | (k, v) :: rest => (k, fromVariant v) :: fromVariantMap rest
end

/-- The `QJsonValue::toVariant` conversion of the values the encoder passes to
it: `Null`, `Bool`, `Double` and `String` (Objects, Arrays and `Undefined` are
handled before the call in `parseJsonValue`; for them the model returns the
invalid variant). -/
def toVariant : QJsonValue → QVariant
  | .null => .nullptr
  | .bool b => .bool b
  | .double d => .double d
  | .string s => .string s
  | _ => .invalid

/-- The test `isObject() || isArray()`. -/
def QJsonValue.isContainer : QJsonValue → Bool
  | .array _ => true
  | .object _ => true
  | _ => false

/-- The test `isUndefined()`. -/
def QJsonValue.isUndefined : QJsonValue → Bool
  | .undefined => true
  | _ => false

/-- The `QJsonObject::insert(key, value)` operation: members stay in
ascending key order, an existing member is replaced, and inserting
`Undefined` removes the member. -/
def insertMember (key : QString) (value : QJsonValue) :
    List (QString × QJsonValue) → List (QString × QJsonValue)
  | [] => if value.isUndefined then [] else [(key, value)]
  | (k, v) :: ms =>
    if qstrLt key k then
      (if value.isUndefined then (k, v) :: ms else (key, value) :: (k, v) :: ms)
    else if qstrLt k key then (k, v) :: insertMember key value ms
    else (if value.isUndefined then ms else (key, value) :: ms)

/-- The `QJsonArray::append(value)` operation (`Undefined` is stored as `Null`). -/
def appendItem (items : List QJsonValue) (value : QJsonValue) : List QJsonValue :=
  items ++ [if value.isUndefined then QJsonValue.null else value]

/-! ## The settings map -/

/-- A `QSettings::SettingsMap`, entries in ascending key order. -/
abbrev SettingsMap := List (QString × QVariant)

/-- The `QMap::insert(key, value)` operation. -/
def mapInsert (key : QString) (value : QVariant) : SettingsMap → SettingsMap
  | [] => [(key, value)]
  | (k, v) :: m =>
    if qstrLt key k then (key, value) :: (k, v) :: m
    else if qstrLt k key then (k, v) :: mapInsert key value m
    else (key, value) :: m

/-- The `QMap::keys()` list (ascending). -/
def mapKeys (m : SettingsMap) : List QString := m.map Prod.fst

/-- The `QMap::value(key)` lookup (a default-constructed `QVariant` when the
key is absent). -/
def mapValue (m : SettingsMap) (key : QString) : QVariant :=
  match m.find? (fun e => e.1 = key) with
  | some e => e.2
  | none => QVariant.invalid

/-- The non-const `QMap::operator[]`: the value stored for `key`, and the map,
into which a default-constructed value is inserted when the key is absent. -/
def mapIndex (m : SettingsMap) (key : QString) : QVariant × SettingsMap :=
  match m.find? (fun e => e.1 = key) with
  | some e => (e.2, m)
  | none => (QVariant.invalid, mapInsert key QVariant.invalid m)

/-! ## Diagnostics -/

/-- The messages written through `qWarning()`. -/
inductive Diagnostic where
  | emptyJsonArray : QString → Diagnostic
  | emptyJsonObject : QString → Diagnostic
  | structuralError : Diagnostic
  | arrayIndexExpected : QString → Diagnostic
  deriving DecidableEq, Repr

/-! ## Reading: JSON document to settings map -/

/-- The state the encoder works on: the map being filled and the warnings
written so far. -/
structure EncState where
  map : SettingsMap
  log : List Diagnostic
  deriving DecidableEq, Repr

mutual
/-- The function `parseJsonValue(jsonKey, jsonValue, prefix, map)`. -/
def parseJsonValue (jsonKey : QString) : QJsonValue → QString → EncState → Bool × EncState
  | .object ms, pfx, st =>
    if ms.isEmpty then
      (false, { st with log := st.log ++ [Diagnostic.emptyJsonObject (pfx ++ jsonKey ++ ['/'])] })
    else (true, parseJsonObjectLoop ms (pfx ++ jsonKey ++ ['/']) st)
  | .array xs, pfx, st =>
    if xs.isEmpty then
      (false, { st with log := st.log ++ [Diagnostic.emptyJsonArray (pfx ++ jsonKey ++ ['/'])] })
    else (true, parseJsonArrayLoop xs 0 (pfx ++ jsonKey ++ ['/']) st)
  | .undefined, pfx, st =>
    (true, { st with map := mapInsert (pfx ++ jsonKey) QVariant.invalid st.map })
  | jsonValue, pfx, st =>
    (true, { st with map := mapInsert (pfx ++ jsonKey) (toVariant jsonValue) st.map })
/-- The `for` loop of `parseJsonArray`, from the counter value `arr_ctr`. -/
def parseJsonArrayLoop : List QJsonValue → Nat → QString → EncState → EncState
  | [], _, _, st => st
  | arrayItem :: rest, arr_ctr, pfx, st =>
    let r := parseJsonValue (arrItemkey arr_ctr) arrayItem pfx st
    parseJsonArrayLoop rest (if r.1 then arr_ctr + 1 else arr_ctr) pfx r.2
/-- The `for` loop of `parseJsonObject` over the members in key order. -/
def parseJsonObjectLoop : List (QString × QJsonValue) → QString → EncState → EncState
  | [], _, st => st
  | (currentKey, currentValue) :: rest, pfx, st =>
    parseJsonObjectLoop rest pfx (parseJsonValue currentKey currentValue pfx st).2
end

/-- The function `parseJsonArray(jsonArray, prefix, map)`. -/
def parseJsonArray (jsonArray : List QJsonValue) (pfx : QString) (st : EncState) :
    Bool × EncState :=
  if jsonArray.isEmpty then
    (false, { st with log := st.log ++ [Diagnostic.emptyJsonArray pfx] })
  else (true, parseJsonArrayLoop jsonArray 0 pfx st)

/-- The function `parseJsonObject(jsonObject, prefix, map)`. -/
def parseJsonObject (jsonObject : List (QString × QJsonValue)) (pfx : QString)
    (st : EncState) : Bool × EncState :=
  if jsonObject.isEmpty then
    (false, { st with log := st.log ++ [Diagnostic.emptyJsonObject pfx] })
  else (true, parseJsonObjectLoop jsonObject pfx st)

/-- The result of `QJsonDocument::fromJson`: a parse error, or the parsed
top-level value. -/
abbrev ParseResult := Except Unit QJsonValue

/-- The function `readSettingsJson(device, map)`, given what
`QJsonDocument::fromJson` made of the device's bytes. -/
def readSettingsJson (parsed : ParseResult) (st : EncState) : Bool × EncState :=
  match parsed with
  | .error _ => (false, st)
  | .ok (.object ms) => (true, (parseJsonObject ms [] st).2)
  | .ok (.array xs) => (true, (parseJsonArray xs [] st).2)
  | .ok _ => (true, (parseJsonArray [] [] st).2)

/-! ## Writing: settings map to JSON document -/

/-- Why a bounded run of the decoder produced no value. -/
inductive DecError where
  | outOfFuel : DecError
  | indexOutOfRange : DecError
  deriving DecidableEq, Repr

/-- The variables the decoder's functions share by reference. -/
structure DecState where
  map : SettingsMap
  keysWL : List QString
  sections : List QString
  value : QVariant
  log : List Diagnostic
  deriving DecidableEq, Repr

/-- The function `restoreJsonSimpleValue(map, keysWL, sections, value)`. -/
def restoreJsonSimpleValue (st : DecState) : Except DecError (QJsonValue × DecState) :=
  let jsonValue := if st.value.isNull then QJsonValue.null else fromVariant st.value
  match st.keysWL with
  | [] => .error .indexOutOfRange
  | _ :: keys =>
    match keys with
    | newKey :: _ =>
      let r := mapIndex st.map newKey
      .ok (jsonValue,
        { st with keysWL := keys, sections := split newKey, value := r.1, map := r.2 })
    | [] =>
      .ok (jsonValue,
        { st with keysWL := [], sections := [], value := QVariant.invalid })

mutual
/-- The function `restoreJsonValue(map, keysWL, sections, sectionLevel, value)`. -/
def restoreJsonValue : Nat → Nat → DecState → Except DecError (QJsonValue × DecState)
  | 0, _, _ => .error .outOfFuel
  | fuel + 1, sectionLevel, st =>
    if st.sections.length ≤ sectionLevel then restoreJsonSimpleValue st
    else
      match st.sections[sectionLevel]? with
      | none => .error .indexOutOfRange
      | some arrayIndexSection =>
        if (getArrayIndex arrayIndexSection).2 then
          match restoreJsonArray fuel sectionLevel st with
          | .error e => .error e
          | .ok (xs, st1) => .ok (QJsonValue.array xs, st1)
        else
          match restoreJsonObject fuel sectionLevel st with
          | .error e => .error e
          | .ok (ms, st1) => .ok (QJsonValue.object ms, st1)
termination_by structural fuel => fuel
/-- The function `restoreJsonObject(map, keysWL, sections, sectionLevel, value)`. -/
def restoreJsonObject : Nat → Nat → DecState →
    Except DecError (List (QString × QJsonValue) × DecState)
  | 0, _, _ => .error .outOfFuel
  | fuel + 1, sectionLevel, st =>
    restoreJsonObjectLoop fuel (st.sections.take sectionLevel) sectionLevel [] st
termination_by structural fuel => fuel
/-- The `while` loop of `restoreJsonObject`; `path` is the constant
`sections.mid(0, sectionLevel)` taken on entry. -/
def restoreJsonObjectLoop : Nat → List QString → Nat → List (QString × QJsonValue) →
    DecState → Except DecError (List (QString × QJsonValue) × DecState)
  | 0, _, _, _, _ => .error .outOfFuel
  | fuel + 1, path, sectionLevel, jsonObject, st =>
    if st.keysWL.isEmpty then .ok (jsonObject, st)
    else
      match st.sections[sectionLevel]? with
      | none => .error .indexOutOfRange
      | some key =>
        match restoreJsonValue fuel (sectionLevel + 1) st with
        | .error e => .error e
        | .ok (v, st1) =>
          if st1.keysWL.isEmpty || decide (path.length > st1.sections.length)
              || decide (path ≠ st1.sections.take sectionLevel) then
            .ok (insertMember key v jsonObject, st1)
          else
            restoreJsonObjectLoop fuel path sectionLevel (insertMember key v jsonObject) st1
termination_by structural fuel => fuel
/-- The function `restoreJsonArray(map, keysWL, sections, sectionLevel, value)`. -/
def restoreJsonArray : Nat → Nat → DecState →
    Except DecError (List QJsonValue × DecState)
  | 0, _, _ => .error .outOfFuel
  | fuel + 1, sectionLevel, st =>
    if sectionLevel ≥ st.sections.length then
      .ok ([], { st with log := st.log ++ [Diagnostic.structuralError] })
    else
      restoreJsonArrayLoop fuel (st.sections.take sectionLevel) sectionLevel [] st
termination_by structural fuel => fuel
/-- The `while` loop of `restoreJsonArray`; `path` is the constant
`sections.mid(0, sectionLevel)` taken on entry. -/
def restoreJsonArrayLoop : Nat → List QString → Nat → List QJsonValue →
    DecState → Except DecError (List QJsonValue × DecState)
  | 0, _, _, _, _ => .error .outOfFuel
  | fuel + 1, path, sectionLevel, jsonArray, st =>
    if st.keysWL.isEmpty then .ok (jsonArray, st)
    else
      match st.sections[sectionLevel]? with
      | none => .error .indexOutOfRange
      | some arrayIndexSection =>
        if (getArrayIndex arrayIndexSection).2 then
          match restoreJsonValue fuel (sectionLevel + 1) st with
          | .error e => .error e
          | .ok (jsonValue, st1) =>
            if st1.keysWL.isEmpty || decide (path.length ≥ st1.sections.length)
                || decide (path ≠ st1.sections.take sectionLevel) then
              .ok (appendItem jsonArray jsonValue, st1)
            else
              restoreJsonArrayLoop fuel path sectionLevel (appendItem jsonArray jsonValue) st1
        else
          restoreJsonArrayLoop fuel path sectionLevel jsonArray
            { st with log := st.log ++ [Diagnostic.arrayIndexExpected arrayIndexSection] }
termination_by structural fuel => fuel
end

/-- The decoding step of `writeSettingsJson(device, map)`: the value left in
`buffer` and the decoder's final state.  `buffer` stays the default `Null`
when the map has no key. -/
def decodeSettings (fuel : Nat) (map : SettingsMap) :
    Except DecError (QJsonValue × DecState) :=
  match mapKeys map with
  | [] =>
    .ok (QJsonValue.null,
      { map := map, keysWL := [], sections := [], value := QVariant.invalid, log := [] })
  | first :: keys =>
    restoreJsonValue fuel 0
      { map := map, keysWL := first :: keys, sections := split first,
        value := mapValue map first, log := [] }

/-- What `writeSettingsJson` hands to `device.write`: the document built from
an object or array buffer, or the empty document `QJsonDocument()` (`none`). -/
def documentOf : QJsonValue → Option QJsonValue
  | .object ms => some (.object ms)
  | .array xs => some (.array xs)
  | _ => none

/-- The function `writeSettingsJson(device, map)`: its return value, the document
written to the device, and the warnings. -/
def writeSettingsJson (fuel : Nat) (map : SettingsMap) :
    Except DecError (Bool × Option QJsonValue × List Diagnostic) :=
  match decodeSettings fuel map with
  | .error e => .error e
  | .ok (buffer, st) => .ok (true, documentOf buffer, st.log)


/-! ## Predicates on JSON trees -/

/-- Strictly ascending key order, the order a `QJsonObject` keeps its members in. -/
def ascending : List QString → Bool
  | [] => true
  | [_] => true
  | a :: b :: rest => qstrLt a b && ascending (b :: rest)

mutual
/-- The node predicate `p` holds at the value and at every value nested in it. -/
def treeAll (p : QJsonValue → Bool) : QJsonValue → Bool
  | .array xs => p (.array xs) && itemsAll p xs
  | .object ms => p (.object ms) && membersAll p ms
  | v => p v
/-- The node predicate holds throughout every item of an array. -/
def itemsAll (p : QJsonValue → Bool) : List QJsonValue → Bool
  | [] => true
  | x :: xs => treeAll p x && itemsAll p xs
/-- The node predicate holds throughout every member value of an object. -/
def membersAll (p : QJsonValue → Bool) : List (QString × QJsonValue) → Bool
  | [] => true
  | (_, v) :: ms => treeAll p v && membersAll p ms
end

/-- Node invariant of a parsed document: an object's member names are
strictly ascending (hence unique), and no value is `Undefined`. -/
def nodeValid : QJsonValue → Bool
  | .object ms => ascending (ms.map Prod.fst)
  | .undefined => false
  | _ => true

/-- The invariant every value of a parsed `QJsonDocument` satisfies. -/
def validTree (t : QJsonValue) : Bool := treeAll nodeValid t

/-- The value is an Object without members or an Array without items. -/
def isEmptyContainer : QJsonValue → Bool
  | .object ms => ms.isEmpty
  | .array xs => xs.isEmpty
  | _ => false

/-- The node is not an empty Object or Array. -/
def nodeNonEmpty (v : QJsonValue) : Bool := !isEmptyContainer v

/-- No Object or Array node of the tree is empty. -/
def noEmptyContainer (t : QJsonValue) : Bool := treeAll nodeNonEmpty t

/-- The text contains no `'/'`. -/
def noSlash (s : QString) : Bool := s.all (fun c => c != '/')

/-- The member names of an Object node contain no `'/'`. -/
def nodeNoSlash : QJsonValue → Bool
  | .object ms => ms.all (fun m => noSlash m.1)
  | _ => true

/-- Every member name of every Object node contains no `'/'`. -/
def namesNoSlash (t : QJsonValue) : Bool := treeAll nodeNoSlash t

/-- No member name of an Object node is accepted by `getArrayIndex`. -/
def nodeNotIndex : QJsonValue → Bool
  | .object ms => ms.all (fun m => !(getArrayIndex m.1).2)
  | _ => true

/-- No member name of any Object node is accepted by `getArrayIndex`. -/
def namesNotIndex (t : QJsonValue) : Bool := treeAll nodeNotIndex t

/-- An Array node has at most 100000 items. -/
def nodeBounded : QJsonValue → Bool
  | .array xs => decide (xs.length ≤ 100000)
  | _ => true

/-- Every Array node has at most 100000 items. -/
def arraysBounded (t : QJsonValue) : Bool := treeAll nodeBounded t

/-- The index grammar of the specification: `'#'` followed by exactly five
decimal digits. -/
def specIndexGrammar : QString → Bool
  | '#' :: ds => ds.length == 5 && ds.all Char.isDigit
  | _ => false

/-! ## The entries and warnings an encoder call produces -/

/-- Successive `QMap::insert` calls, in list order. -/
def insertAll (es : List (QString × QVariant)) (m : SettingsMap) : SettingsMap :=
  es.foldl (fun acc e => mapInsert e.1 e.2 acc) m

mutual
/-- The `map.insert` calls made by `parseJsonValue`, in call order. -/
def entriesValue (jsonKey : QString) : QJsonValue → QString → List (QString × QVariant)
  | .object ms, pfx => entriesObject ms (pfx ++ jsonKey ++ ['/'])
  | .array xs, pfx => entriesArray xs 0 (pfx ++ jsonKey ++ ['/'])
  | .undefined, pfx => [(pfx ++ jsonKey, QVariant.invalid)]
  | v, pfx => [(pfx ++ jsonKey, toVariant v)]
/-- The `map.insert` calls made by the loop of `parseJsonArray`. -/
def entriesArray : List QJsonValue → Nat → QString → List (QString × QVariant)
  | [], _, _ => []
  | x :: rest, arr_ctr, pfx =>
    entriesValue (arrItemkey arr_ctr) x pfx ++
      entriesArray rest (if isEmptyContainer x then arr_ctr else arr_ctr + 1) pfx
/-- The `map.insert` calls made by the loop of `parseJsonObject`. -/
def entriesObject : List (QString × QJsonValue) → QString → List (QString × QVariant)
  | [], _ => []
  | (k, v) :: rest, pfx => entriesValue k v pfx ++ entriesObject rest pfx
end

mutual
/-- The warnings written by `parseJsonValue`, in order. -/
def warningsValue (jsonKey : QString) : QJsonValue → QString → List Diagnostic
  | .object ms, pfx =>
    if ms.isEmpty then [Diagnostic.emptyJsonObject (pfx ++ jsonKey ++ ['/'])]
    else warningsObject ms (pfx ++ jsonKey ++ ['/'])
  | .array xs, pfx =>
    if xs.isEmpty then [Diagnostic.emptyJsonArray (pfx ++ jsonKey ++ ['/'])]
    else warningsArray xs 0 (pfx ++ jsonKey ++ ['/'])
  | _, _ => []
/-- The warnings written by the loop of `parseJsonArray`. -/
def warningsArray : List QJsonValue → Nat → QString → List Diagnostic
  | [], _, _ => []
  | x :: rest, arr_ctr, pfx =>
    warningsValue (arrItemkey arr_ctr) x pfx ++
      warningsArray rest (if isEmptyContainer x then arr_ctr else arr_ctr + 1) pfx
/-- The warnings written by the loop of `parseJsonObject`. -/
def warningsObject : List (QString × QJsonValue) → QString → List Diagnostic
  | [], _ => []
  | (k, v) :: rest, pfx => warningsValue k v pfx ++ warningsObject rest pfx
end

/-- The map `readSettingsJson` fills from an empty one for a parsed document. -/
def encodeTree (t : QJsonValue) : SettingsMap :=
  (readSettingsJson (.ok t) { map := [], log := [] }).2.map

/-! ## Pruning of empty containers -/

mutual
/-- The tree without its empty Objects and Arrays and without the containers
that become empty by their removal; `none` when nothing remains. -/
def pruneValue : QJsonValue → Option QJsonValue
  | .array xs =>
    match pruneItems xs with
    | [] => none
    | y :: ys => some (.array (y :: ys))
  | .object ms =>
    match pruneMembers ms with
    | [] => none
    | m :: rest => some (.object (m :: rest))
  | v => some v
/-- The items that remain of an array. -/
def pruneItems : List QJsonValue → List QJsonValue
  | [] => []
  | x :: xs =>
    match pruneValue x with
    | none => pruneItems xs
    | some y => y :: pruneItems xs
/-- The members that remain of an object. -/
def pruneMembers : List (QString × QJsonValue) → List (QString × QJsonValue)
  | [] => []
  | (k, v) :: ms =>
    match pruneValue v with
    | none => pruneMembers ms
    | some y => (k, y) :: pruneMembers ms
end

/-! ## Decoder states -/

/-- The decoder state in which `keysWL` is `keys` and `sections` / `value`
belong to its first key, as `writeSettingsJson` and `restoreJsonSimpleValue`
set them. -/
def stateAt (m : SettingsMap) (keys : List QString) (log : List Diagnostic) : DecState :=
  { map := m, keysWL := keys,
    sections := match keys with
      | [] => []
      | k :: _ => split k,
    value := match keys with
      | [] => QVariant.invalid
      | k :: _ => mapValue m k,
    log := log }

/-- The path prefix the encoder has built below the segments `path`: every
segment followed by `'/'`. -/
def pathPrefix : List QString → QString
  | [] => []
  | s :: rest => s ++ '/' :: pathPrefix rest

/-! ## Key-ordered association lists -/

/-- Insertion into an association list kept in ascending key order; an
existing entry for the key is replaced. -/
def sortedInsert {β : Type} (key : QString) (value : β) :
    List (QString × β) → List (QString × β)
  | [] => [(key, value)]
  | (k, v) :: m =>
    if qstrLt key k then (key, value) :: (k, v) :: m
    else if qstrLt k key then (k, v) :: sortedInsert key value m
    else (key, value) :: m

/-- The keys of the association list are strictly ascending. -/
def KeySorted {β : Type} (m : List (QString × β)) : Prop :=
  m.Pairwise (fun a b => qstrLt a.1 b.1 = true)

instance {β : Type} (m : List (QString × β)) : Decidable (KeySorted m) :=
  List.instDecidablePairwise m

/-- The key `k` belongs to the segment `n` below the path prefix `q`: it is
`q ++ n` itself or starts with `q ++ n ++ "/"`. -/
def inBlock (q n k : QString) : Prop := k = q ++ n ∨ (q ++ n ++ ['/']) <+: k

/-- The JSON value `restoreJsonSimpleValue` makes of a settings value. -/
def jsonOfVariant (value : QVariant) : QJsonValue :=
  if value.isNull then QJsonValue.null else fromVariant value

/-- The decoder rebuilds the pruned value `v` from the keys the encoder made
for it: started at the segment below `path ++ [key]` on a key list that begins
with those keys, `restoreJsonValue` consumes exactly them, logs nothing and
returns `pruneValue v`. -/
def RestoresValue (m : SettingsMap) (v : QJsonValue) : Prop :=
  ∀ (path : List QString) (key : QString) (rest : List QString) (log : List Diagnostic),
    (∀ s ∈ path, noSlash s = true) → noSlash key = true →
    insertAll (entriesValue key v (pathPrefix path)) [] ≠ [] →
    (∀ e ∈ entriesValue key v (pathPrefix path), e ∈ m) →
    (∀ k ∈ rest, k ∈ mapKeys m) →
    (∀ k, rest.head? = some k → (split k).take (path.length + 1) ≠ path ++ [key]) →
    ∃ fuel w, pruneValue v = some w ∧
      restoreJsonValue fuel (path.length + 1)
        (stateAt m (mapKeys (insertAll (entriesValue key v (pathPrefix path)) []) ++ rest) log)
          = .ok (w, stateAt m rest log)

/-! ## Reference listings -/

/-- The number of items that are no empty Object or Array: the value of
`arr_ctr` after the loop of `parseJsonArray` has passed these items. -/
def keptItems (items : List QJsonValue) : Nat :=
  (items.filter (fun y => !isEmptyContainer y)).length

/-- Path segments joined by `'/'`, without leading or trailing separator. -/
def joinPath : List QString → QString
  | [] => []
  | [s] => s
  | s :: t :: rest => s ++ '/' :: joinPath (t :: rest)

mutual
/-- The leaf-path listing of the specification: one entry per scalar leaf,
keyed by the joined path (member name for an Object step, `'#'` and the
zero-padded position for an Array step), with the leaf's scalar as value. -/
def specLeaves : QJsonValue → List QString → List (QString × QVariant)
  | .object ms, path => specLeavesMembers ms path
  | .array xs, path => specLeavesItems xs 0 path
  | v, path => [(joinPath path, toVariant v)]
/-- The leaf-path listing of the items of an array, from position `i`. -/
def specLeavesItems : List QJsonValue → Nat → List QString → List (QString × QVariant)
  | [], _, _ => []
  | x :: rest, i, path =>
    specLeaves x (path ++ [arrItemkey i]) ++ specLeavesItems rest (i + 1) path
/-- The leaf-path listing of the members of an object. -/
def specLeavesMembers : List (QString × QJsonValue) → List QString → List (QString × QVariant)
  | [], _ => []
  | (k, v) :: rest, path => specLeaves v (path ++ [k]) ++ specLeavesMembers rest path
end

mutual
/-- The Object and Array nodes of a value, each with the prefix that
`parseJsonValue` passes to `parseJsonObject` / `parseJsonArray` for it. -/
def containersValue (jsonKey : QString) : QJsonValue → QString → List (QString × QJsonValue)
  | .object ms, pfx =>
    (pfx ++ jsonKey ++ ['/'], .object ms) :: containersObject ms (pfx ++ jsonKey ++ ['/'])
  | .array xs, pfx =>
    (pfx ++ jsonKey ++ ['/'], .array xs) :: containersArray xs 0 (pfx ++ jsonKey ++ ['/'])
  | _, _ => []
/-- The container nodes below the items of an array, with the loop's counter. -/
def containersArray : List QJsonValue → Nat → QString → List (QString × QJsonValue)
  | [], _, _ => []
  | x :: rest, arr_ctr, pfx =>
    containersValue (arrItemkey arr_ctr) x pfx ++
      containersArray rest (if isEmptyContainer x then arr_ctr else arr_ctr + 1) pfx
/-- The container nodes below the members of an object. -/
def containersObject : List (QString × QJsonValue) → QString → List (QString × QJsonValue)
  | [], _ => []
  | (k, v) :: rest, pfx => containersValue k v pfx ++ containersObject rest pfx
end

/-- The container nodes of a document, the document itself included, each with
the prefix the encoder uses for it. -/
def containerNodes : QJsonValue → List (QString × QJsonValue)
  | .object ms => ([], .object ms) :: containersObject ms []
  | .array xs => ([], .array xs) :: containersArray xs 0 []
  | _ => []

/-- The flat map the encoder fills, from an empty one, for a container node
visited with the prefix `pfx`. -/
def encodeNode (pfx : QString) : QJsonValue → SettingsMap
  | .object ms => (parseJsonObject ms pfx { map := [], log := [] }).2.map
  | .array xs => (parseJsonArray xs pfx { map := [], log := [] }).2.map
  | _ => []

/-- The `map.insert` calls the encoder makes for a container node. -/
def entriesNode (pfx : QString) : QJsonValue → List (QString × QVariant)
  | .object ms => entriesObject ms pfx
  | .array xs => entriesArray xs 0 pfx
  | _ => []


/-! ## Invariants of the decoder's shared variables -/

/-- The carried variables agree with the cursor: `sections` is the split of the
first key of `keysWL` and `value` is the map's value for it, or, when no key
is left, `sections` is empty and `value` is invalid. -/
def Synced (st : DecState) : Prop := st = stateAt st.map st.keysWL st.log

instance (st : DecState) : Decidable (Synced st) :=
  inferInstanceAs (Decidable (st = stateAt st.map st.keysWL st.log))

/-- What a returning call of the decoder has done to the shared variables:
it removed a non-empty run of keys from the front of the cursor, left the
variables synchronised, left the map as it was when every key of the cursor
is a key of the map, and wrote no warning but `Array index expected`. -/
def Advances (st st1 : DecState) : Prop :=
  (∃ consumed, consumed ≠ [] ∧ st.keysWL = consumed ++ st1.keysWL) ∧
  Synced st1 ∧
  ((∀ k ∈ st.keysWL, k ∈ mapKeys st.map) → st1.map = st.map) ∧
  ∀ d ∈ st1.log, d ∈ st.log ∨ ∃ s, d = Diagnostic.arrayIndexExpected s

/-- The map after `restoreJsonSimpleValue` has read `map[newKey]` for the first
of the remaining keys (unchanged when no key remains). -/
def mapAtNext (m : SettingsMap) : List QString → SettingsMap
  | [] => m
  | newKey :: _ => (mapIndex m newKey).2

/-- The variant holds a scalar: it is no list and no map variant. -/
def scalarVariant : QVariant → Bool
  | .list _ => false
  | .map _ => false
  | _ => true

/-- No value the decoder can still read converts to a JSON value with an empty
Object or Array: neither the carried `value` nor a value of the map. -/
def CleanValues (st : DecState) : Prop :=
  noEmptyContainer (fromVariant st.value) = true ∧
    ∀ e ∈ st.map, noEmptyContainer (fromVariant e.2) = true

/-! ## Documents and flat maps used as examples -/

/-- The document `{"a/b": 1}`: one member whose name contains the separator. -/
def slashNameDoc : QJsonValue :=
  .object [("a/b".toList, .double 1)]

/-- The document `{"a": {"b": 1, "c": [1, 2]}}`. -/
def mixedDoc : QJsonValue :=
  .object [("a".toList, .object [("b".toList, .double 1),
    ("c".toList, .array [.double 1, .double 2])])]

/-- The flat map `{"#00000" -> 1, "a" -> 2}`: an array item key followed by a
key that is no array item key. -/
def stuckMap : SettingsMap :=
  [("#00000".toList, QVariant.double 1), ("a".toList, QVariant.double 2)]

/-- The flat map `{"arr/#00000" -> v1, "arr/#00002" -> v2}`: index 1 is missing. -/
def gapMap (v1 v2 : QVariant) : SettingsMap :=
  [("arr/#00000".toList, v1), ("arr/#00002".toList, v2)]

/-- The document `{"x": {}, "y": 1}`. -/
def emptyMemberDoc : QJsonValue :=
  .object [("x".toList, .object []), ("y".toList, .double 1)]

/-- The document `{"a": {"b": 1, "d": 3}, "a/c": 2}`. -/
def interleavedDoc : QJsonValue :=
  .object [("a".toList, .object [("b".toList, .double 1), ("d".toList, .double 3)]),
    ("a/c".toList, .double 2)]

/-- The array `[{}, 1]`. -/
def skippedItemArray : List QJsonValue := [.object [], .double 1]

/-- The flat map `{k -> v1, k/m -> v2}`: a value stored at a key that is also
the group prefix of another key. -/
def shadowMap (k m : QString) (v1 v2 : QVariant) : SettingsMap :=
  [(k, v1), (k ++ '/' :: m, v2)]

/-- The flat map `{"k" -> QStringList()}`: the value is an empty list variant. -/
def emptyListMap : SettingsMap := [("k".toList, QVariant.list [])]

/-! ## Fuel -/

/-- One more unit of fuel never changes a result that was already reached. -/
theorem restore_fuel_succ (fuel : Nat) :
    (∀ lvl st r, restoreJsonValue fuel lvl st = .ok r →
        restoreJsonValue (fuel + 1) lvl st = .ok r) ∧
    (∀ lvl st r, restoreJsonObject fuel lvl st = .ok r →
        restoreJsonObject (fuel + 1) lvl st = .ok r) ∧
    (∀ path lvl acc st r, restoreJsonObjectLoop fuel path lvl acc st = .ok r →
        restoreJsonObjectLoop (fuel + 1) path lvl acc st = .ok r) ∧
    (∀ lvl st r, restoreJsonArray fuel lvl st = .ok r →
        restoreJsonArray (fuel + 1) lvl st = .ok r) ∧
    (∀ path lvl acc st r, restoreJsonArrayLoop fuel path lvl acc st = .ok r →
        restoreJsonArrayLoop (fuel + 1) path lvl acc st = .ok r) := by
  induction fuel with
  | zero =>
    refine ⟨?_, ?_, ?_, ?_, ?_⟩ <;> intros <;> simp_all [restoreJsonValue, restoreJsonObject,
      restoreJsonObjectLoop, restoreJsonArray, restoreJsonArrayLoop]
  | succ n ih =>
    obtain ⟨ihV, ihO, ihOL, ihA, ihAL⟩ := ih
    refine ⟨?_, ?_, ?_, ?_, ?_⟩
    · intro lvl st r h
      rw [restoreJsonValue] at h ⊢
      split at h
      · rename_i hlen; simp only [hlen, if_true]; exact h
      · rename_i hlen
        simp only [hlen, if_false]
        cases hs : st.sections[lvl]? with
        | none => simp [hs] at h
        | some sec =>
          simp only [hs] at h ⊢
          split at h
          · rename_i hidx
            simp only [hidx, if_true]
            cases ha : restoreJsonArray n lvl st with
            | error e => simp [ha] at h
            | ok p => rw [ihA _ _ _ ha]; simpa [ha] using h
          · rename_i hidx
            simp only [hidx]
            cases ho : restoreJsonObject n lvl st with
            | error e => simp [ho] at h
            | ok p => rw [ihO _ _ _ ho]; simpa [ho] using h
    · intro lvl st r h
      rw [restoreJsonObject] at h ⊢
      exact ihOL _ _ _ _ _ h
    · intro path lvl acc st r h
      rw [restoreJsonObjectLoop] at h ⊢
      split at h
      · rename_i hk; simp only [hk, if_true]; exact h
      · rename_i hk
        simp only [hk]
        cases hs : st.sections[lvl]? with
        | none => simp [hs] at h
        | some sec =>
          simp only [hs] at h ⊢
          cases hv : restoreJsonValue n (lvl + 1) st with
          | error e => simp [hv] at h
          | ok p =>
            rw [ihV _ _ _ hv]
            simp only [hv] at h
            split at h
            · rename_i hc; simp only [hc, if_true]; exact h
            · rename_i hc; simp only [hc]; exact ihOL _ _ _ _ _ h
    · intro lvl st r h
      rw [restoreJsonArray] at h ⊢
      split at h
      · rename_i hc; simp only [hc, if_true]; exact h
      · rename_i hc; simp only [hc, if_false]; exact ihAL _ _ _ _ _ h
    · intro path lvl acc st r h
      rw [restoreJsonArrayLoop] at h ⊢
      split at h
      · rename_i hk; simp only [hk, if_true]; exact h
      · rename_i hk
        simp only [hk]
        cases hs : st.sections[lvl]? with
        | none => simp [hs] at h
        | some sec =>
          simp only [hs] at h ⊢
          split at h
          · rename_i hidx
            simp only [hidx, if_true]
            cases hv : restoreJsonValue n (lvl + 1) st with
            | error e => simp [hv] at h
            | ok p =>
              rw [ihV _ _ _ hv]
              simp only [hv] at h
              split at h
              · rename_i hc; simp only [hc, if_true]; exact h
              · rename_i hc; simp only [hc]; exact ihAL _ _ _ _ _ h
          · rename_i hidx
            simp only [hidx]
            exact ihAL _ _ _ _ _ h

/-- More fuel never changes a result that was already reached. -/
theorem restoreJsonValue_fuel_le {fuel fuel2 : Nat} (h : fuel ≤ fuel2) {lvl : Nat}
    {st : DecState} {r : QJsonValue × DecState}
    (hr : restoreJsonValue fuel lvl st = .ok r) : restoreJsonValue fuel2 lvl st = .ok r := by
  induction h with
  | refl => exact hr
  | step _ ih => exact (restore_fuel_succ _).1 _ _ _ ih

/-- More fuel never changes a result the object loop already reached. -/
theorem restoreJsonObjectLoop_fuel_le {fuel fuel2 : Nat} (h : fuel ≤ fuel2)
    {path : List QString} {lvl : Nat} {acc : List (QString × QJsonValue)} {st : DecState}
    {r : List (QString × QJsonValue) × DecState}
    (hr : restoreJsonObjectLoop fuel path lvl acc st = .ok r) :
    restoreJsonObjectLoop fuel2 path lvl acc st = .ok r := by
  induction h with
  | refl => exact hr
  | step _ ih => exact (restore_fuel_succ _).2.2.1 _ _ _ _ _ ih

/-- More fuel never changes a result the array loop already reached. -/
theorem restoreJsonArrayLoop_fuel_le {fuel fuel2 : Nat} (h : fuel ≤ fuel2)
    {path : List QString} {lvl : Nat} {acc : List QJsonValue} {st : DecState}
    {r : List QJsonValue × DecState}
    (hr : restoreJsonArrayLoop fuel path lvl acc st = .ok r) :
    restoreJsonArrayLoop fuel2 path lvl acc st = .ok r := by
  induction h with
  | refl => exact hr
  | step _ ih => exact (restore_fuel_succ _).2.2.2.2 _ _ _ _ _ ih

/-- More fuel never changes a result `decodeSettings` already reached. -/
theorem decodeSettings_fuel_le {fuel fuel2 : Nat} (h : fuel ≤ fuel2) {m : SettingsMap}
    {r : QJsonValue × DecState}
    (hr : decodeSettings fuel m = .ok r) : decodeSettings fuel2 m = .ok r := by
  unfold decodeSettings at hr ⊢
  cases hk : mapKeys m with
  | nil => simpa [hk] using hr
  | cons first keys =>
    simp only [hk] at hr ⊢
    exact restoreJsonValue_fuel_le h hr

/-! ## The encoder as a list of insertions -/

theorem insertAll_append (a b : List (QString × QVariant)) (m : SettingsMap) :
    insertAll (a ++ b) m = insertAll b (insertAll a m) := by
  simp [insertAll, List.foldl_append]

mutual
theorem parseJsonValue_eq (key : QString) : ∀ (v : QJsonValue) (pfx : QString) (st : EncState),
    parseJsonValue key v pfx st =
      (!isEmptyContainer v,
        { map := insertAll (entriesValue key v pfx) st.map,
          log := st.log ++ warningsValue key v pfx })
  | .object ms, pfx, st => by
    cases ms with
    | nil => simp [parseJsonValue, isEmptyContainer, entriesValue, entriesObject, warningsValue, insertAll]
    | cons m rest =>
      simp [parseJsonValue, isEmptyContainer, entriesValue, warningsValue,
        parseJsonObjectLoop_eq (m :: rest)]
  | .array xs, pfx, st => by
    cases xs with
    | nil => simp [parseJsonValue, isEmptyContainer, entriesValue, entriesArray, warningsValue, insertAll]
    | cons x rest =>
      simp [parseJsonValue, isEmptyContainer, entriesValue, warningsValue,
        parseJsonArrayLoop_eq (x :: rest)]
  | .undefined, pfx, st => by
    simp [parseJsonValue, isEmptyContainer, entriesValue, warningsValue, insertAll]
  | .null, pfx, st => by
    simp [parseJsonValue, isEmptyContainer, entriesValue, warningsValue, insertAll]
  | .bool b, pfx, st => by
    simp [parseJsonValue, isEmptyContainer, entriesValue, warningsValue, insertAll]
  | .double d, pfx, st => by
    simp [parseJsonValue, isEmptyContainer, entriesValue, warningsValue, insertAll]
  | .string s, pfx, st => by
    simp [parseJsonValue, isEmptyContainer, entriesValue, warningsValue, insertAll]
theorem parseJsonArrayLoop_eq : ∀ (xs : List QJsonValue) (ctr : Nat) (pfx : QString) (st : EncState),
    parseJsonArrayLoop xs ctr pfx st =
      { map := insertAll (entriesArray xs ctr pfx) st.map,
        log := st.log ++ warningsArray xs ctr pfx }
  | [], ctr, pfx, st => by simp [parseJsonArrayLoop, entriesArray, warningsArray, insertAll]
  | x :: rest, ctr, pfx, st => by
    rw [parseJsonArrayLoop]
    simp only [parseJsonValue_eq (arrItemkey ctr) x pfx st]
    rw [parseJsonArrayLoop_eq rest]
    cases h : isEmptyContainer x <;>
      simp [entriesArray, warningsArray, insertAll_append, h]
theorem parseJsonObjectLoop_eq : ∀ (ms : List (QString × QJsonValue)) (pfx : QString) (st : EncState),
    parseJsonObjectLoop ms pfx st =
      { map := insertAll (entriesObject ms pfx) st.map,
        log := st.log ++ warningsObject ms pfx }
  | [], pfx, st => by simp [parseJsonObjectLoop, entriesObject, warningsObject, insertAll]
  | (k, v) :: rest, pfx, st => by
    rw [parseJsonObjectLoop, parseJsonValue_eq k v pfx st, parseJsonObjectLoop_eq rest]
    simp [entriesObject, warningsObject, insertAll_append]
end

/-! ## The key order -/

theorem qstrLt_cons (a b : Char) (as bs : QString) :
    qstrLt (a :: as) (b :: bs) = (decide (a < b) || (!decide (b < a) && qstrLt as bs)) := by
  rw [qstrLt]
  by_cases h1 : a < b
  · simp [h1]
  · by_cases h2 : b < a <;> simp [h1, h2]

theorem qstrLt_irrefl (a : QString) : qstrLt a a = false := by
  induction a with
  | nil => rfl
  | cons x xs ih => simp [qstrLt_cons, ih]

theorem qstrLt_trans {a b c : QString} :
    qstrLt a b = true → qstrLt b c = true → qstrLt a c = true := by
  induction a generalizing b c with
  | nil =>
    intro h1 h2
    cases b with
    | nil => simp [qstrLt] at h1
    | cons y ys =>
      cases c with
      | nil => simp [qstrLt] at h2
      | cons z zs => simp [qstrLt]
  | cons x xs ih =>
    intro h1 h2
    cases b with
    | nil => simp [qstrLt] at h1
    | cons y ys =>
      cases c with
      | nil => simp [qstrLt] at h2
      | cons z zs =>
        simp only [qstrLt_cons, Bool.or_eq_true, Bool.and_eq_true, Bool.not_eq_true',
          decide_eq_true_eq, decide_eq_false_iff_not] at h1 h2 ⊢
        rcases h1 with h1 | ⟨h1, h1r⟩
        · rcases h2 with h2 | ⟨h2, _⟩
          · exact Or.inl (lt_trans h1 h2)
          · exact Or.inl (lt_of_lt_of_le h1 (not_lt.mp h2))
        · rcases h2 with h2 | ⟨h2, h2r⟩
          · exact Or.inl (lt_of_le_of_lt (not_lt.mp h1) h2)
          · rcases lt_or_eq_of_le (not_lt.mp h1) with h | h
            · exact Or.inl (lt_of_lt_of_le h (not_lt.mp h2))
            · subst h
              rcases lt_or_eq_of_le (not_lt.mp h2) with h | h
              · exact Or.inl h
              · subst h
                exact Or.inr ⟨lt_irrefl _, ih h1r h2r⟩

theorem qstrLt_asymm {a b : QString} (h : qstrLt a b = true) : qstrLt b a = false := by
  cases hba : qstrLt b a with
  | false => rfl
  | true =>
    have := qstrLt_trans h hba
    rw [qstrLt_irrefl] at this
    exact absurd this (by simp)

theorem qstrLt_total {a b : QString} :
    qstrLt a b = false → qstrLt b a = false → a = b := by
  induction a generalizing b with
  | nil =>
    intro h1 _
    cases b with
    | nil => rfl
    | cons y ys => simp [qstrLt] at h1
  | cons x xs ih =>
    intro h1 h2
    cases b with
    | nil => simp [qstrLt] at h2
    | cons y ys =>
      simp only [qstrLt_cons, Bool.or_eq_false_iff, Bool.and_eq_false_iff, Bool.not_eq_false',
        decide_eq_true_eq, decide_eq_false_iff_not] at h1 h2
      obtain ⟨h1a, h1b⟩ := h1
      obtain ⟨h2a, h2b⟩ := h2
      have hxy : x = y := le_antisymm (not_lt.mp h2a) (not_lt.mp h1a)
      subst hxy
      have e1 : qstrLt xs ys = false := by
        rcases h1b with h | h
        · exact absurd h (lt_irrefl _)
        · exact h
      have e2 : qstrLt ys xs = false := by
        rcases h2b with h | h
        · exact absurd h (lt_irrefl _)
        · exact h
      rw [ih e1 e2]

theorem qstrLt_append_left (p a b : QString) : qstrLt (p ++ a) (p ++ b) = qstrLt a b := by
  induction p with
  | nil => rfl
  | cons x xs ih => simp [qstrLt_cons, ih]

/-- Keys with a common prefix form an interval of the key order. -/
theorem prefix_convex {p a b c : QString} :
    p <+: a → p <+: c → qstrLt b a = false → qstrLt c b = false → p <+: b := by
  induction p generalizing a b c with
  | nil => intro _ _ _ _; exact List.nil_prefix
  | cons x xs ih =>
    intro ha hc h1 h2
    obtain ⟨ra, rfl⟩ := ha
    obtain ⟨rc, rfl⟩ := hc
    cases b with
    | nil => simp [qstrLt] at h1
    | cons y ys =>
      simp only [List.cons_append, qstrLt_cons, Bool.or_eq_false_iff, Bool.and_eq_false_iff,
        Bool.not_eq_false', decide_eq_true_eq, decide_eq_false_iff_not] at h1 h2
      obtain ⟨h1a, h1b⟩ := h1
      obtain ⟨h2a, h2b⟩ := h2
      have hxy : x = y := le_antisymm (not_lt.mp h1a) (not_lt.mp h2a)
      subst hxy
      have e1 : qstrLt ys (xs ++ ra) = false := by
        rcases h1b with h | h
        · exact absurd h (lt_irrefl _)
        · exact h
      have e2 : qstrLt (xs ++ rc) ys = false := by
        rcases h2b with h | h
        · exact absurd h (lt_irrefl _)
        · exact h
      have := ih (a := xs ++ ra) (c := xs ++ rc) (List.prefix_append _ _)
        (List.prefix_append _ _) e1 e2
      obtain ⟨r, hr⟩ := this
      exact ⟨r, by simp [← hr]⟩

/-- Texts of equal length that compare as less keep doing so when extended. -/
theorem qstrLt_append_of_length_eq {a b : QString} (hlen : a.length = b.length)
    (hlt : qstrLt a b = true) (x y : QString) : qstrLt (a ++ x) (b ++ y) = true := by
  induction a generalizing b with
  | nil =>
    cases b with
    | nil => simp [qstrLt] at hlt
    | cons _ _ => simp at hlen
  | cons c cs ih =>
    cases b with
    | nil => simp at hlen
    | cons d ds =>
      simp only [List.cons_append, qstrLt_cons, Bool.or_eq_true, Bool.and_eq_true,
        Bool.not_eq_true', decide_eq_true_eq, decide_eq_false_iff_not] at hlt ⊢
      rcases hlt with h | ⟨h, hr⟩
      · exact Or.inl h
      · exact Or.inr ⟨h, ih (by simpa using hlen) hr⟩


/-! ## Key-ordered association lists -/

theorem mapInsert_eq (key : QString) (value : QVariant) (m : SettingsMap) :
    mapInsert key value m = sortedInsert key value m := by
  induction m with
  | nil => rfl
  | cons e m ih => obtain ⟨k, v⟩ := e; simp [mapInsert, sortedInsert, ih]

theorem insertMember_eq (key : QString) (value : QJsonValue)
    (hv : value.isUndefined = false) (ms : List (QString × QJsonValue)) :
    insertMember key value ms = sortedInsert key value ms := by
  induction ms with
  | nil => simp [insertMember, sortedInsert, hv]
  | cons e m ih => obtain ⟨k, v⟩ := e; simp [insertMember, sortedInsert, ih, hv]

theorem mem_sortedInsert_imp {β : Type} (key : QString) (value : β) (m : List (QString × β))
    (e : QString × β) (h : e ∈ sortedInsert key value m) : e = (key, value) ∨ e ∈ m := by
  induction m with
  | nil => simpa [sortedInsert] using h
  | cons x m ih =>
    obtain ⟨k, v⟩ := x
    rw [sortedInsert] at h
    split at h
    · simp only [List.mem_cons] at h ⊢; tauto
    · split at h
      · simp only [List.mem_cons] at h ⊢
        rcases h with h | h
        · exact Or.inr (Or.inl h)
        · rcases ih h with h | h <;> tauto
      · simp only [List.mem_cons] at h ⊢; tauto

theorem sortedInsert_sorted {β : Type} (key : QString) (value : β) (m : List (QString × β))
    (hm : KeySorted m) : KeySorted (sortedInsert key value m) := by
  induction m with
  | nil => simp [sortedInsert, KeySorted]
  | cons x m ih =>
    obtain ⟨k, v⟩ := x
    have hm2 := hm
    unfold KeySorted at hm2
    rw [List.pairwise_cons] at hm2
    obtain ⟨hhead, htail⟩ := hm2
    rw [sortedInsert]
    split
    · rename_i hlt
      unfold KeySorted
      rw [List.pairwise_cons]
      refine ⟨?_, hm⟩
      intro e he
      rcases List.mem_cons.mp he with rfl | he
      · exact hlt
      · exact qstrLt_trans hlt (hhead e he)
    · split
      · rename_i hlt
        unfold KeySorted
        rw [List.pairwise_cons]
        refine ⟨?_, ih htail⟩
        intro e he
        rcases mem_sortedInsert_imp _ _ _ _ he with rfl | he
        · exact hlt
        · exact hhead e he
      · rename_i h1 h2
        have hk : key = k := qstrLt_total (by simpa using h1) (by simpa using h2)
        subst hk
        unfold KeySorted
        rw [List.pairwise_cons]
        exact ⟨hhead, htail⟩

theorem keySorted_key_inj {β : Type} {m : List (QString × β)} (hm : KeySorted m)
    {a b : QString × β} (ha : a ∈ m) (hb : b ∈ m) (hk : a.1 = b.1) : a = b := by
  induction m with
  | nil => cases ha
  | cons x m ih =>
    unfold KeySorted at hm
    rw [List.pairwise_cons] at hm
    obtain ⟨hhead, htail⟩ := hm
    rcases List.mem_cons.mp ha with ha1 | ha1
    · rcases List.mem_cons.mp hb with hb1 | hb1
      · rw [ha1, hb1]
      · have := hhead b hb1
        rw [← ha1, hk, qstrLt_irrefl] at this
        exact absurd this (by simp)
    · rcases List.mem_cons.mp hb with hb1 | hb1
      · have := hhead a ha1
        rw [← hb1, hk, qstrLt_irrefl] at this
        exact absurd this (by simp)
      · exact ih htail ha1 hb1

theorem mem_sortedInsert {β : Type} (key : QString) (value : β) (m : List (QString × β))
    (hm : KeySorted m) (e : QString × β) :
    e ∈ sortedInsert key value m ↔ e = (key, value) ∨ (e ∈ m ∧ e.1 ≠ key) := by
  induction m with
  | nil => simp [sortedInsert]
  | cons x m ih =>
    obtain ⟨k, v⟩ := x
    have hm2 := hm
    unfold KeySorted at hm2
    rw [List.pairwise_cons] at hm2
    obtain ⟨hhead, htail⟩ := hm2
    rw [sortedInsert]
    split
    · rename_i hlt
      simp only [List.mem_cons]
      constructor
      · rintro (h | h | h)
        · exact Or.inl h
        · subst h
          refine Or.inr ⟨Or.inl rfl, ?_⟩
          intro hk
          simp only at hk
          rw [hk, qstrLt_irrefl] at hlt
          exact absurd hlt (by simp)
        · refine Or.inr ⟨Or.inr h, ?_⟩
          intro hk
          have := qstrLt_trans hlt (hhead e h)
          rw [hk, qstrLt_irrefl] at this
          exact absurd this (by simp)
      · rintro (h | ⟨h | h, _⟩)
        · exact Or.inl h
        · exact Or.inr (Or.inl h)
        · exact Or.inr (Or.inr h)
    · split
      · rename_i h1 hlt
        simp only [List.mem_cons, ih htail]
        constructor
        · rintro (h | h | ⟨h, hne⟩)
          · subst h
            refine Or.inr ⟨Or.inl rfl, ?_⟩
            intro hk
            simp only at hk
            rw [hk, qstrLt_irrefl] at hlt
            exact absurd hlt (by simp)
          · exact Or.inl h
          · exact Or.inr ⟨Or.inr h, hne⟩
        · rintro (h | ⟨h | h, hne⟩)
          · exact Or.inr (Or.inl h)
          · exact Or.inl h
          · exact Or.inr (Or.inr ⟨h, hne⟩)
      · rename_i h1 h2
        have hk : key = k := qstrLt_total (by simpa using h1) (by simpa using h2)
        subst hk
        simp only [List.mem_cons]
        constructor
        · rintro (h | h)
          · exact Or.inl h
          · refine Or.inr ⟨Or.inr h, ?_⟩
            intro hk
            have := hhead e h
            rw [hk, qstrLt_irrefl] at this
            exact absurd this (by simp)
        · rintro (h | ⟨h | h, hne⟩)
          · exact Or.inl h
          · subst h; exact absurd rfl hne
          · exact Or.inr h

theorem keySorted_nodup {β : Type} {m : List (QString × β)} (hm : KeySorted m) : m.Nodup := by
  unfold KeySorted at hm
  refine hm.imp ?_
  intro a b hlt hab
  subst hab
  rw [qstrLt_irrefl] at hlt
  exact absurd hlt (by simp)

/-- A key-ordered list is determined by its set of entries. -/
theorem keySorted_ext {β : Type} {a b : List (QString × β)} (ha : KeySorted a)
    (hb : KeySorted b) (h : ∀ e, e ∈ a ↔ e ∈ b) : a = b := by
  have hperm : a.Perm b := (List.perm_ext_iff_of_nodup (keySorted_nodup ha) (keySorted_nodup hb)).2 h
  haveI : IsAntisymm (QString × β) (fun x y => qstrLt x.1 y.1 = true) :=
    ⟨fun x y hxy hyx => by
      rw [qstrLt_asymm hxy] at hyx
      exact absurd hyx (by simp)⟩
  exact List.eq_of_perm_of_sorted hperm ha hb

theorem insertAll_sorted (es : List (QString × QVariant)) (m : SettingsMap)
    (hm : KeySorted m) : KeySorted (insertAll es m) := by
  induction es generalizing m with
  | nil => exact hm
  | cons e es ih =>
    show KeySorted (insertAll es (mapInsert e.1 e.2 m))
    apply ih
    rw [mapInsert_eq]
    exact sortedInsert_sorted _ _ _ hm

theorem mem_insertAll (es : List (QString × QVariant)) (m : SettingsMap)
    (hm : KeySorted m) (hnd : (es.map Prod.fst).Nodup) (e : QString × QVariant) :
    e ∈ insertAll es m ↔ e ∈ es ∨ (e ∈ m ∧ e.1 ∉ es.map Prod.fst) := by
  induction es generalizing m with
  | nil => simp [insertAll]
  | cons x es ih =>
    have hnd2 : x.1 ∉ es.map Prod.fst ∧ (es.map Prod.fst).Nodup := by
      rw [List.map_cons] at hnd
      exact List.nodup_cons.mp hnd
    show e ∈ insertAll es (mapInsert x.1 x.2 m) ↔ _
    rw [ih _ (by rw [mapInsert_eq]; exact sortedInsert_sorted _ _ _ hm) hnd2.2, mapInsert_eq,
      mem_sortedInsert _ _ _ hm]
    simp only [List.mem_cons, List.map_cons, not_or]
    constructor
    · rintro (h | ⟨h | ⟨h, hne⟩, hnot⟩)
      · exact Or.inl (Or.inr h)
      · exact Or.inl (Or.inl h)
      · exact Or.inr ⟨h, hne, hnot⟩
    · rintro (⟨h | h⟩ | ⟨h, hne, hnot⟩)
      · subst h
        exact Or.inr ⟨Or.inl rfl, hnd2.1⟩
      · exact Or.inl h
      · exact Or.inr ⟨Or.inr ⟨h, hne⟩, hnot⟩

theorem mapValue_of_mem {m : SettingsMap} (hm : KeySorted m) {k : QString} {v : QVariant}
    (h : (k, v) ∈ m) : mapValue m k = v := by
  unfold mapValue
  cases hf : m.find? (fun e => e.1 = k) with
  | none =>
    have := List.find?_eq_none.mp hf (k, v) h
    simp at this
  | some e =>
    have he := List.mem_of_find?_eq_some hf
    have hk := List.find?_some hf
    simp only [decide_eq_true_eq] at hk
    have := keySorted_key_inj hm he h hk
    simp [this]

theorem mapIndex_of_mem {m : SettingsMap} {k : QString} (h : k ∈ mapKeys m) :
    mapIndex m k = (mapValue m k, m) := by
  unfold mapIndex mapValue
  cases hf : m.find? (fun e => e.1 = k) with
  | none =>
    obtain ⟨e, he, hk⟩ := List.mem_map.mp h
    have := List.find?_eq_none.mp hf e he
    simp [hk] at this
  | some e => rfl


/-! ## Splitting keys into sections -/

theorem split_ne_nil (s : QString) : split s ≠ [] := by
  induction s with
  | nil => simp [split]
  | cons c cs ih =>
    rw [split]
    split
    · simp
    · split <;> simp

theorem noSlash_cons (c : Char) (s : QString) :
    noSlash (c :: s) = true ↔ c ≠ '/' ∧ noSlash s = true := by
  simp [noSlash]

theorem noSlash_append (a b : QString) :
    noSlash (a ++ b) = true ↔ noSlash a = true ∧ noSlash b = true := by
  simp only [noSlash, List.all_append, Bool.and_eq_true]

theorem split_noSlash {s : QString} (h : noSlash s = true) : split s = [s] := by
  induction s with
  | nil => rfl
  | cons c cs ih =>
    obtain ⟨hc, hcs⟩ := (noSlash_cons c cs).mp h
    rw [split, if_neg hc, ih hcs]

theorem split_append_slash {s : QString} (h : noSlash s = true) (r : QString) :
    split (s ++ '/' :: r) = s :: split r := by
  induction s with
  | nil => simp [split]
  | cons c cs ih =>
    obtain ⟨hc, hcs⟩ := (noSlash_cons c cs).mp h
    rw [List.cons_append, split, if_neg hc, ih hcs]

theorem split_pathPrefix {path : List QString} (h : ∀ s ∈ path, noSlash s = true)
    (r : QString) : split (pathPrefix path ++ r) = path ++ split r := by
  induction path with
  | nil => rfl
  | cons s rest ih =>
    have hs := h s (List.mem_cons_self _ _)
    have hrest : ∀ x ∈ rest, noSlash x = true := fun x hx => h x (List.mem_cons_of_mem _ hx)
    show split ((s ++ '/' :: pathPrefix rest) ++ r) = _
    rw [List.append_assoc, List.cons_append, split_append_slash hs, ih hrest]
    rfl

theorem pathPrefix_append (a b : List QString) :
    pathPrefix (a ++ b) = pathPrefix a ++ pathPrefix b := by
  induction a with
  | nil => rfl
  | cons s rest ih => simp [pathPrefix, ih]

theorem pathPrefix_snoc (path : List QString) (s : QString) :
    pathPrefix (path ++ [s]) = pathPrefix path ++ s ++ ['/'] := by
  rw [pathPrefix_append]
  simp [pathPrefix]


/-! ## Array item keys -/

theorem digitChar_isDigit {d : Nat} (h : d < 10) : (Nat.digitChar d).isDigit = true := by
  interval_cases d <;> rfl


theorem digitChar_toNat {d : Nat} (h : d < 10) : (Nat.digitChar d).toNat = 48 + d := by
  interval_cases d <;> rfl


theorem digitChar_ne_slash {d : Nat} (h : d < 10) : Nat.digitChar d ≠ '/' := by
  interval_cases d <;> decide


theorem digitChar_lt {a b : Nat} (ha : a < 10) (hb : b < 10) :
    Nat.digitChar a < Nat.digitChar b ↔ a < b := by
  interval_cases a <;> interval_cases b <;> decide


theorem decimalDigits_succ (fuel n : Nat) :
    decimalDigits (fuel + 1) n =
      if n < 10 then [Nat.digitChar n]
      else decimalDigits fuel (n / 10) ++ [Nat.digitChar (n % 10)] := rfl


theorem decimalDigits_fuel (f1 : Nat) : ∀ (f2 n : Nat), n < 10 ^ (f1 + 1) → n < 10 ^ (f2 + 1) →
    decimalDigits (f1 + 1) n = decimalDigits (f2 + 1) n := by
  induction f1 with
  | zero =>
    intro f2 n h1 _
    have h : n < 10 := by simpa using h1
    simp [decimalDigits, h]
  | succ k ih =>
    intro f2 n h1 h2
    by_cases h : n < 10
    · simp [decimalDigits, h]
    · cases f2 with
      | zero => exact absurd (by simpa using h2) h
      | succ j =>
        rw [decimalDigits_succ (k + 1), if_neg h, decimalDigits_succ (j + 1), if_neg h]
        rw [ih j (n / 10) (by rw [pow_succ] at h1; omega) (by rw [pow_succ] at h2; omega)]


theorem zeroPad5_eq {n : Nat} (h : n < 100000) :
    zeroPad5 n = [Nat.digitChar (n / 10000), Nat.digitChar (n / 1000 % 10),
      Nat.digitChar (n / 100 % 10), Nat.digitChar (n / 10 % 10), Nat.digitChar (n % 10)] := by
  have hf : decimalDigits (n + 1) n = decimalDigits (4 + 1) n :=
    decimalDigits_fuel n 4 n
      (lt_of_lt_of_le (Nat.lt_pow_self (by norm_num : 1 < 10) n)
        (Nat.pow_le_pow_right (by norm_num) (Nat.le_succ n)))
      (by norm_num; exact h)
  unfold zeroPad5
  simp only [hf]
  have d2 : n / 10 / 10 = n / 100 := by omega
  have d3 : n / 100 / 10 = n / 1000 := by omega
  have d4 : n / 1000 / 10 = n / 10000 := by omega
  have b4 : n / 10000 < 10 := by omega
  simp only [decimalDigits_succ, d2, d3, d4, b4, if_true]
  by_cases h1 : n < 10
  · have e1 : n / 10000 = 0 := by omega
    have e2 : n / 1000 % 10 = 0 := by omega
    have e3 : n / 100 % 10 = 0 := by omega
    have e4 : n / 10 % 10 = 0 := by omega
    have e5 : n % 10 = n := by omega
    simp only [h1, if_true, e1, e2, e3, e4, e5]
    rfl
  · have c1 : n / 10 % 10 = n / 10 % 10 := rfl
    by_cases h2 : n / 10 < 10
    · have e1 : n / 10000 = 0 := by omega
      have e2 : n / 1000 % 10 = 0 := by omega
      have e3 : n / 100 % 10 = 0 := by omega
      have e4 : n / 10 % 10 = n / 10 := by omega
      simp only [h1, h2, if_true, if_false, e1, e2, e3, e4]
      rfl
    · by_cases h3 : n / 100 < 10
      · have e1 : n / 10000 = 0 := by omega
        have e2 : n / 1000 % 10 = 0 := by omega
        have e3 : n / 100 % 10 = n / 100 := by omega
        simp only [h1, h2, h3, if_true, if_false, e1, e2, e3]
        rfl
      · by_cases h4 : n / 1000 < 10
        · have e1 : n / 10000 = 0 := by omega
          have e2 : n / 1000 % 10 = n / 1000 := by omega
          simp only [h1, h2, h3, h4, if_true, if_false, e1, e2]
          rfl
        · simp only [h1, h2, h3, h4, if_true, if_false]
          rfl


theorem isDigit_not_isSpace {c : Char} (h : c.isDigit = true) : isSpace c = false := by
  cases hs : isSpace c with
  | false => rfl
  | true =>
    simp only [isSpace, Bool.or_eq_true, decide_eq_true_eq] at hs
    rcases hs with ((((((h1 | h1) | h1) | h1) | h1) | h1) | h1) | h1 <;>
      (subst h1; exact absurd h (by decide))


theorem isDigit_toNat {c : Char} (h : c.isDigit = true) : c.toNat - '0'.toNat ≤ 9 := by
  simp only [Char.isDigit, Bool.and_eq_true, decide_eq_true_eq] at h
  have h2 : c.val.toNat ≤ 57 := h.2
  show c.val.toNat - 48 ≤ 9
  omega


theorem dropWhile_isSpace_digits {ds : List Char} (hd : ds.all Char.isDigit = true) :
    ds.dropWhile isSpace = ds := by
  cases ds with
  | nil => rfl
  | cons c cs =>
    have hc : c.isDigit = true := by simp at hd; exact hd.1
    simp [List.dropWhile, isDigit_not_isSpace hc]


theorem digitsValue_foldl_lt (ds : List Char) (hd : ds.all Char.isDigit = true) (acc : Nat) :
    ds.foldl (fun acc c => 10 * acc + (c.toNat - '0'.toNat)) acc < (acc + 1) * 10 ^ ds.length := by
  induction ds generalizing acc with
  | nil => simp
  | cons c cs ih =>
    have hc : c.isDigit = true := by simp at hd; exact hd.1
    have hcs : cs.all Char.isDigit = true := by
      simp only [List.all_cons, Bool.and_eq_true] at hd; exact hd.2
    have h9 := isDigit_toNat hc
    simp only [List.foldl_cons, List.length_cons]
    refine lt_of_lt_of_le (ih hcs _) ?_
    rw [pow_succ]
    have : 10 * acc + (c.toNat - '0'.toNat) + 1 ≤ (acc + 1) * 10 := by omega
    calc (10 * acc + (c.toNat - '0'.toNat) + 1) * 10 ^ cs.length
        ≤ ((acc + 1) * 10) * 10 ^ cs.length := Nat.mul_le_mul_right _ this
      _ = (acc + 1) * (10 ^ cs.length * 10) := by ring


theorem digitsValue_lt (ds : List Char) (hd : ds.all Char.isDigit = true) :
    digitsValue ds < 10 ^ ds.length := by
  have := digitsValue_foldl_lt ds hd 0
  simpa [digitsValue] using this


/-- The conversion `toInt` accepts every text of one to nine decimal digits. -/
theorem toInt_digits {ds : List Char} (hne : ds ≠ []) (hlen : ds.length ≤ 9)
    (hd : ds.all Char.isDigit = true) : (toInt ds).isSome = true := by
  have hrev : ds.reverse.all Char.isDigit = true := by
    simpa [List.all_eq_true] using hd
  have ht : ((ds.dropWhile isSpace).reverse.dropWhile isSpace).reverse = ds := by
    rw [dropWhile_isSpace_digits hd, dropWhile_isSpace_digits hrev, List.reverse_reverse]
  have hv : digitsValue ds < 10 ^ 9 :=
    lt_of_lt_of_le (digitsValue_lt ds hd) (Nat.pow_le_pow_right (by norm_num) hlen)
  unfold toInt
  simp only [ht]
  cases ds with
  | nil => exact absurd rfl hne
  | cons c cs =>
    have hc : c.isDigit = true := by simp at hd; exact hd.1
    have hm : c ≠ '-' := by rintro rfl; exact absurd hc (by decide)
    have hp : c ≠ '+' := by rintro rfl; exact absurd hc (by decide)
    have hbody : signSplit (c :: cs) = (false, c :: cs) := by
      unfold signSplit
      split
      · rename_i heq
        simp only [List.cons.injEq] at heq
        exact absurd heq.1 hm
      · rename_i heq
        simp only [List.cons.injEq] at heq
        exact absurd heq.1 hp
      · rfl
    rw [hbody]
    have h1 : (-2147483648 : Int) ≤ (digitsValue (c :: cs) : Int) := by
      have : (0 : Int) ≤ (digitsValue (c :: cs) : Int) := Int.natCast_nonneg _
      omega
    have h2 : (digitsValue (c :: cs) : Int) ≤ 2147483647 := by
      have : digitsValue (c :: cs) < 1000000000 := by simpa using hv
      omega
    simp only [List.isEmpty_cons, hd, Bool.not_true, Bool.or_self, Bool.false_eq_true,
      if_false, h1, h2, and_self, if_true, Option.isSome_some]

theorem getArrayIndex_digits {ds : List Char} (hne : ds ≠ []) (hlen : ds.length ≤ 9)
    (hd : ds.all Char.isDigit = true) : (getArrayIndex ('#' :: ds)).2 = true := by
  have h := toInt_digits hne hlen hd
  unfold getArrayIndex
  cases ht : toInt ds with
  | none => simp [ht] at h
  | some i => simp [ht]

theorem getArrayIndex_arrItemkey {n : Nat} (h : n < 100000) :
    (getArrayIndex (arrItemkey n)).2 = true := by
  unfold arrItemkey
  rw [zeroPad5_eq h]
  apply getArrayIndex_digits
  · simp
  · simp
  · simp only [List.all_cons, List.all_nil, Bool.and_true, Bool.and_eq_true]
    refine ⟨?_, ?_, ?_, ?_, ?_⟩ <;> apply digitChar_isDigit <;> omega


theorem arrItemkey_length {n : Nat} (h : n < 100000) : (arrItemkey n).length = 6 := by
  unfold arrItemkey
  rw [zeroPad5_eq h]
  rfl


theorem arrItemkey_lt {a b : Nat} (hab : a < b) (hb : b < 100000) :
    qstrLt (arrItemkey a) (arrItemkey b) = true := by
  have ha : a < 100000 := lt_trans hab hb
  unfold arrItemkey
  rw [zeroPad5_eq ha, zeroPad5_eq hb]
  have hnil : qstrLt [] [] = false := rfl
  have l1 := @digitChar_lt (a / 10000) (b / 10000) (by omega) (by omega)
  have l2 := @digitChar_lt (a / 1000 % 10) (b / 1000 % 10) (by omega) (by omega)
  have l3 := @digitChar_lt (a / 100 % 10) (b / 100 % 10) (by omega) (by omega)
  have l4 := @digitChar_lt (a / 10 % 10) (b / 10 % 10) (by omega) (by omega)
  have l5 := @digitChar_lt (a % 10) (b % 10) (by omega) (by omega)
  have r1 := @digitChar_lt (b / 10000) (a / 10000) (by omega) (by omega)
  have r2 := @digitChar_lt (b / 1000 % 10) (a / 1000 % 10) (by omega) (by omega)
  have r3 := @digitChar_lt (b / 100 % 10) (a / 100 % 10) (by omega) (by omega)
  have r4 := @digitChar_lt (b / 10 % 10) (a / 10 % 10) (by omega) (by omega)
  simp only [qstrLt_cons, lt_self_iff_false, decide_False, l1, l2, l3, l4, l5, r1, r2, r3, r4, hnil]
  by_cases c1 : a / 10000 < b / 10000
  · simp [c1]
  · have e1 : ¬ b / 10000 < a / 10000 := by omega
    by_cases c2 : a / 1000 % 10 < b / 1000 % 10
    · simp [c1, e1, c2]
    · have e2 : ¬ b / 1000 % 10 < a / 1000 % 10 := by omega
      by_cases c3 : a / 100 % 10 < b / 100 % 10
      · simp [c1, e1, c2, e2, c3]
      · have e3 : ¬ b / 100 % 10 < a / 100 % 10 := by omega
        by_cases c4 : a / 10 % 10 < b / 10 % 10
        · simp [c1, e1, c2, e2, c3, e3, c4]
        · have e4 : ¬ b / 10 % 10 < a / 10 % 10 := by omega
          have c5 : a % 10 < b % 10 := by omega
          simp [c1, e1, c2, e2, c3, e3, c4, e4, c5]

theorem decimalDigits_all_digit (fuel n : Nat) :
    (decimalDigits fuel n).all Char.isDigit = true := by
  induction fuel generalizing n with
  | zero => rfl
  | succ f ih =>
    rw [decimalDigits_succ]
    split
    · rename_i h
      simp [digitChar_isDigit h]
    · have : n % 10 < 10 := Nat.mod_lt _ (by norm_num)
      simp only [List.all_append, ih, List.all_cons, digitChar_isDigit this, List.all_nil,
        Bool.and_self]


theorem zeroPad5_all_digit (n : Nat) : (zeroPad5 n).all Char.isDigit = true := by
  unfold zeroPad5
  simp only [List.all_append, decimalDigits_all_digit, Bool.and_true]
  simp only [List.all_eq_true, List.mem_replicate]
  rintro c ⟨_, rfl⟩
  decide


theorem noSlash_arrItemkey (n : Nat) : noSlash (arrItemkey n) = true := by
  have h := zeroPad5_all_digit n
  unfold arrItemkey noSlash
  simp only [List.all_cons, Bool.and_eq_true, List.all_eq_true] at h ⊢
  refine ⟨by decide, ?_⟩
  intro c hc
  have hd := h c hc
  simp only [bne_iff_ne, ne_eq]
  rintro rfl
  exact absurd hd (by decide)


theorem digitsValue_append_digit (ds : List Char) {r : Nat} (hr : r < 10) :
    digitsValue (ds ++ [Nat.digitChar r]) = 10 * digitsValue ds + r := by
  simp only [digitsValue, List.foldl_append, List.foldl_cons, List.foldl_nil]
  rw [digitChar_toNat hr]
  have : '0'.toNat = 48 := rfl
  rw [this]
  omega


theorem digitsValue_decimalDigits (fuel : Nat) : ∀ n, n < fuel →
    digitsValue (decimalDigits fuel n) = n := by
  induction fuel with
  | zero => intro n h; omega
  | succ f ih =>
    intro n hn
    rw [decimalDigits_succ]
    split
    · rename_i h
      have := digitsValue_append_digit [] h
      simpa [digitsValue] using this
    · rename_i h
      rw [digitsValue_append_digit _ (Nat.mod_lt _ (by norm_num)), ih (n / 10) (by omega)]
      omega


theorem digitsValue_replicate_zero (k : Nat) (ds : List Char) :
    digitsValue (List.replicate k '0' ++ ds) = digitsValue ds := by
  induction k with
  | zero => rfl
  | succ k ih =>
    have : digitsValue (List.replicate (k + 1) '0' ++ ds) =
        digitsValue (List.replicate k '0' ++ ds) := by
      simp only [digitsValue, List.replicate_succ, List.cons_append, List.foldl_cons]
      rfl
    rw [this, ih]


theorem digitsValue_zeroPad5 (n : Nat) : digitsValue (zeroPad5 n) = n := by
  unfold zeroPad5
  simp only [digitsValue_replicate_zero]
  exact digitsValue_decimalDigits (n + 1) n (Nat.lt_succ_self n)


theorem arrItemkey_injective {a b : Nat} (h : arrItemkey a = arrItemkey b) : a = b := by
  unfold arrItemkey at h
  have h2 : zeroPad5 a = zeroPad5 b := by simpa using h
  have := congrArg digitsValue h2
  rwa [digitsValue_zeroPad5, digitsValue_zeroPad5] at this

/-! ## Structure of the encoder's keys -/

theorem treeAll_object (p : QJsonValue → Bool) (ms : List (QString × QJsonValue)) :
    treeAll p (.object ms) = (p (.object ms) && membersAll p ms) := by
  rw [treeAll]

theorem treeAll_array (p : QJsonValue → Bool) (xs : List QJsonValue) :
    treeAll p (.array xs) = (p (.array xs) && itemsAll p xs) := by
  rw [treeAll]

theorem itemsAll_cons (p : QJsonValue → Bool) (x : QJsonValue) (xs : List QJsonValue) :
    itemsAll p (x :: xs) = (treeAll p x && itemsAll p xs) := by
  rw [itemsAll]

theorem membersAll_cons (p : QJsonValue → Bool) (k : QString) (v : QJsonValue)
    (ms : List (QString × QJsonValue)) :
    membersAll p ((k, v) :: ms) = (treeAll p v && membersAll p ms) := by
  rw [membersAll]

theorem membersAll_iff (p : QJsonValue → Bool) (ms : List (QString × QJsonValue)) :
    membersAll p ms = true ↔ ∀ m ∈ ms, treeAll p m.2 = true := by
  induction ms with
  | nil => simp [membersAll]
  | cons m rest ih =>
    obtain ⟨k, v⟩ := m
    simp [membersAll_cons, ih]

theorem itemsAll_iff (p : QJsonValue → Bool) (xs : List QJsonValue) :
    itemsAll p xs = true ↔ ∀ x ∈ xs, treeAll p x = true := by
  induction xs with
  | nil => simp [itemsAll]
  | cons x rest ih => simp [itemsAll_cons, ih]

theorem treeAll_node (p : QJsonValue → Bool) (v : QJsonValue) (h : treeAll p v = true) :
    p v = true := by
  cases v with
  | array xs => rw [treeAll_array] at h; simp at h; exact h.1
  | object ms => rw [treeAll_object] at h; simp at h; exact h.1
  | null => simpa [treeAll] using h
  | bool b => simpa [treeAll] using h
  | double d => simpa [treeAll] using h
  | string s => simpa [treeAll] using h
  | undefined => simpa [treeAll] using h

theorem ascending_cons (a : QString) (rest : List QString) :
    ascending (a :: rest) = true ↔ (∀ b ∈ rest, qstrLt a b = true) ∧ ascending rest = true := by
  induction rest generalizing a with
  | nil => simp [ascending]
  | cons b rest ih =>
    rw [ascending, Bool.and_eq_true, ih b]
    constructor
    · rintro ⟨hab, hall, hasc⟩
      refine ⟨?_, hall, hasc⟩
      intro c hc
      rcases List.mem_cons.mp hc with rfl | hc
      · exact hab
      · exact qstrLt_trans hab (hall c hc)
    · rintro ⟨hall, hall2, hasc⟩
      exact ⟨hall b (List.mem_cons_self _ _), hall2, hasc⟩

theorem ascending_iff_pairwise (l : List QString) :
    ascending l = true ↔ l.Pairwise (fun a b => qstrLt a b = true) := by
  induction l with
  | nil => simp [ascending]
  | cons a rest ih => rw [ascending_cons, List.pairwise_cons, ih]

theorem ascending_keySorted {β : Type} (m : List (QString × β)) :
    ascending (m.map Prod.fst) = true ↔ KeySorted m := by
  rw [ascending_iff_pairwise, List.pairwise_map]
  rfl

/-! ### Blocks -/

theorem noSlash_not_mem {s : QString} (h : noSlash s = true) : '/' ∉ s := by
  intro hm
  simp only [noSlash, List.all_eq_true] at h
  have := h _ hm
  simp at this

theorem noSlash_append_slash_inj {a b r1 r2 : QString} (ha : noSlash a = true)
    (hb : noSlash b = true) (h : a ++ '/' :: r1 = b ++ '/' :: r2) : a = b := by
  have h1 := split_append_slash ha r1
  have h2 := split_append_slash hb r2
  rw [h] at h1
  rw [h1] at h2
  exact (List.cons.inj h2).1

theorem inBlock_pfx {q n k : QString} (h : inBlock q n k) : (q ++ n) <+: k := by
  rcases h with rfl | ⟨r, rfl⟩
  · exact List.prefix_refl _
  · exact ⟨'/' :: r, by simp⟩

/-- Blocks of different segments are disjoint. -/
theorem inBlock_disjoint {q n1 n2 k : QString} (h1 : noSlash n1 = true)
    (h2 : noSlash n2 = true) (hne : n1 ≠ n2) (hk1 : inBlock q n1 k) : ¬ inBlock q n2 k := by
  intro hk2
  rcases hk1 with rfl | ⟨r1, rfl⟩
  · rcases hk2 with e | ⟨r2, e⟩
    · exact hne (List.append_cancel_left e)
    · have e2 : n2 ++ '/' :: r2 = n1 := by
        have : q ++ (n2 ++ '/' :: r2) = q ++ n1 := by simpa using e
        exact List.append_cancel_left this
      apply noSlash_not_mem h1
      rw [← e2]
      simp
  · rcases hk2 with e | ⟨r2, e⟩
    · have e2 : n1 ++ '/' :: r1 = n2 := by
        have : q ++ (n1 ++ '/' :: r1) = q ++ n2 := by simpa using e
        exact List.append_cancel_left this
      apply noSlash_not_mem h2
      rw [← e2]
      simp
    · have e2 : n2 ++ '/' :: r2 = n1 ++ '/' :: r1 := by
        have : q ++ (n2 ++ '/' :: r2) = q ++ (n1 ++ '/' :: r1) := by simpa using e
        exact List.append_cancel_left this
      exact hne (noSlash_append_slash_inj h1 h2 e2.symm)

mutual
theorem entriesValue_key (key : QString) : ∀ (v : QJsonValue) (pfx : QString)
    (e : QString × QVariant), e ∈ entriesValue key v pfx →
    (v.isContainer = true ∧ (pfx ++ key ++ ['/']) <+: e.1) ∨
      (v.isContainer = false ∧ e.1 = pfx ++ key)
  | .object ms, pfx, e, h => by
    rw [entriesValue] at h
    exact Or.inl ⟨rfl, entriesObject_pfx ms _ e h⟩
  | .array xs, pfx, e, h => by
    rw [entriesValue] at h
    exact Or.inl ⟨rfl, entriesArray_pfx xs 0 _ e h⟩
  | .undefined, pfx, e, h => by
    simp only [entriesValue, List.mem_singleton] at h
    exact Or.inr ⟨rfl, by rw [h]⟩
  | .null, pfx, e, h => by
    simp only [entriesValue, List.mem_singleton] at h
    exact Or.inr ⟨rfl, by rw [h]⟩
  | .bool b, pfx, e, h => by
    simp only [entriesValue, List.mem_singleton] at h
    exact Or.inr ⟨rfl, by rw [h]⟩
  | .double d, pfx, e, h => by
    simp only [entriesValue, List.mem_singleton] at h
    exact Or.inr ⟨rfl, by rw [h]⟩
  | .string s, pfx, e, h => by
    simp only [entriesValue, List.mem_singleton] at h
    exact Or.inr ⟨rfl, by rw [h]⟩
theorem entriesArray_pfx : ∀ (xs : List QJsonValue) (ctr : Nat) (pfx : QString)
    (e : QString × QVariant), e ∈ entriesArray xs ctr pfx → pfx <+: e.1
  | [], _, _, e, h => by simp [entriesArray] at h
  | x :: rest, ctr, pfx, e, h => by
    rw [entriesArray, List.mem_append] at h
    rcases h with h | h
    · rcases entriesValue_key (arrItemkey ctr) x pfx e h with ⟨_, r, hr⟩ | ⟨_, hr⟩
      · exact ⟨arrItemkey ctr ++ ['/'] ++ r, by rw [← hr]; simp⟩
      · exact ⟨arrItemkey ctr, hr.symm⟩
    · exact entriesArray_pfx rest _ pfx e h
theorem entriesObject_pfx : ∀ (ms : List (QString × QJsonValue)) (pfx : QString)
    (e : QString × QVariant), e ∈ entriesObject ms pfx → pfx <+: e.1
  | [], _, e, h => by simp [entriesObject] at h
  | (k, v) :: rest, pfx, e, h => by
    rw [entriesObject, List.mem_append] at h
    rcases h with h | h
    · rcases entriesValue_key k v pfx e h with ⟨_, r, hr⟩ | ⟨_, hr⟩
      · exact ⟨k ++ ['/'] ++ r, by rw [← hr]; simp⟩
      · exact ⟨k, hr.symm⟩
    · exact entriesObject_pfx rest pfx e h
end

theorem entriesValue_inBlock {key : QString} {v : QJsonValue} {pfx : QString}
    {e : QString × QVariant} (h : e ∈ entriesValue key v pfx) : inBlock pfx key e.1 := by
  rcases entriesValue_key key v pfx e h with ⟨_, hr⟩ | ⟨_, hr⟩
  · exact Or.inr hr
  · exact Or.inl hr

theorem entriesObject_mem {ms : List (QString × QJsonValue)} {pfx : QString}
    {e : QString × QVariant} (h : e ∈ entriesObject ms pfx) :
    ∃ m ∈ ms, e ∈ entriesValue m.1 m.2 pfx := by
  induction ms with
  | nil => simp [entriesObject] at h
  | cons m rest ih =>
    obtain ⟨k, v⟩ := m
    rw [entriesObject, List.mem_append] at h
    rcases h with h | h
    · exact ⟨(k, v), List.mem_cons_self _ _, h⟩
    · obtain ⟨m, hm, he⟩ := ih h
      exact ⟨m, List.mem_cons_of_mem _ hm, he⟩

theorem entriesObject_append (a b : List (QString × QJsonValue)) (pfx : QString) :
    entriesObject (a ++ b) pfx = entriesObject a pfx ++ entriesObject b pfx := by
  induction a with
  | nil => simp [entriesObject]
  | cons m rest ih =>
    obtain ⟨k, v⟩ := m
    simp [entriesObject, ih]

theorem entriesArray_mem {xs : List QJsonValue} {ctr : Nat} {pfx : QString}
    {e : QString × QVariant} (h : e ∈ entriesArray xs ctr pfx) :
    ∃ c x, ctr ≤ c ∧ c < ctr + xs.length ∧ x ∈ xs ∧ e ∈ entriesValue (arrItemkey c) x pfx := by
  induction xs generalizing ctr with
  | nil => simp [entriesArray] at h
  | cons x rest ih =>
    rw [entriesArray, List.mem_append] at h
    rcases h with h | h
    · exact ⟨ctr, x, le_refl _, by simp, List.mem_cons_self _ _, h⟩
    · obtain ⟨c, y, h1, h2, hy, he⟩ := ih h
      refine ⟨c, y, ?_, ?_, List.mem_cons_of_mem _ hy, he⟩
      · split at h1 <;> omega
      · simp only [List.length_cons]
        split at h2 <;> omega

theorem entriesValue_emptyContainer {key : QString} {v : QJsonValue} {pfx : QString}
    (h : isEmptyContainer v = true) : entriesValue key v pfx = [] := by
  cases v with
  | array xs =>
    cases xs with
    | nil => simp [entriesValue, entriesArray]
    | cons _ _ => simp [isEmptyContainer] at h
  | object ms =>
    cases ms with
    | nil => simp [entriesValue, entriesObject]
    | cons _ _ => simp [isEmptyContainer] at h
  | null => simp [isEmptyContainer] at h
  | bool b => simp [isEmptyContainer] at h
  | double d => simp [isEmptyContainer] at h
  | string s => simp [isEmptyContainer] at h
  | undefined => simp [isEmptyContainer] at h

theorem keys_entriesValue_inBlock {key : QString} {v : QJsonValue} {pfx k : QString}
    (h : k ∈ (entriesValue key v pfx).map Prod.fst) : inBlock pfx key k := by
  obtain ⟨e, he, rfl⟩ := List.mem_map.mp h
  exact entriesValue_inBlock he

theorem validTree_object {ms : List (QString × QJsonValue)} (h : validTree (.object ms) = true) :
    ascending (ms.map Prod.fst) = true ∧ membersAll nodeValid ms = true := by
  unfold validTree at h
  rw [treeAll_object, Bool.and_eq_true] at h
  exact ⟨h.1, h.2⟩

theorem validTree_array {xs : List QJsonValue} (h : validTree (.array xs) = true) :
    itemsAll nodeValid xs = true := by
  unfold validTree at h
  rw [treeAll_array, Bool.and_eq_true] at h
  exact h.2

theorem namesNoSlash_object {ms : List (QString × QJsonValue)}
    (h : namesNoSlash (.object ms) = true) :
    (∀ m ∈ ms, noSlash m.1 = true) ∧ membersAll nodeNoSlash ms = true := by
  unfold namesNoSlash at h
  rw [treeAll_object, Bool.and_eq_true] at h
  refine ⟨?_, h.2⟩
  have := h.1
  simpa [nodeNoSlash, List.all_eq_true] using this

theorem namesNoSlash_array {xs : List QJsonValue} (h : namesNoSlash (.array xs) = true) :
    itemsAll nodeNoSlash xs = true := by
  unfold namesNoSlash at h
  rw [treeAll_array, Bool.and_eq_true] at h
  exact h.2

mutual
theorem entriesValue_nodup (key : QString) : ∀ (v : QJsonValue) (pfx : QString),
    validTree v = true → namesNoSlash v = true →
    ((entriesValue key v pfx).map Prod.fst).Nodup
  | .object ms, pfx, hv, hs => by
    rw [entriesValue]
    obtain ⟨h1, h2⟩ := validTree_object hv
    obtain ⟨h3, h4⟩ := namesNoSlash_object hs
    exact entriesObject_nodup ms _ h2 h4 h1 h3
  | .array xs, pfx, hv, hs => by
    rw [entriesValue]
    exact entriesArray_nodup xs 0 _ (validTree_array hv) (namesNoSlash_array hs)
  | .undefined, pfx, _, _ => by simp [entriesValue]
  | .null, pfx, _, _ => by simp [entriesValue]
  | .bool b, pfx, _, _ => by simp [entriesValue]
  | .double d, pfx, _, _ => by simp [entriesValue]
  | .string s, pfx, _, _ => by simp [entriesValue]
theorem entriesArray_nodup : ∀ (xs : List QJsonValue) (ctr : Nat) (pfx : QString),
    itemsAll nodeValid xs = true → itemsAll nodeNoSlash xs = true →
    ((entriesArray xs ctr pfx).map Prod.fst).Nodup
  | [], _, _, _, _ => by simp [entriesArray]
  | x :: rest, ctr, pfx, hv, hs => by
    rw [itemsAll_cons, Bool.and_eq_true] at hv hs
    rw [entriesArray, List.map_append, List.nodup_append]
    refine ⟨entriesValue_nodup _ x pfx hv.1 hs.1, entriesArray_nodup rest _ pfx hv.2 hs.2, ?_⟩
    intro k hk1 hk2
    cases hx : isEmptyContainer x with
    | true =>
      rw [entriesValue_emptyContainer hx] at hk1
      simp at hk1
    | false =>
      simp only [hx, Bool.false_eq_true, if_false] at hk2
      obtain ⟨e, he, rfl⟩ := List.mem_map.mp hk2
      obtain ⟨c, y, hc1, _, _, hey⟩ := entriesArray_mem he
      have hb1 := keys_entriesValue_inBlock hk1
      have hb2 := entriesValue_inBlock hey
      refine inBlock_disjoint (noSlash_arrItemkey _) (noSlash_arrItemkey _) ?_ hb1 hb2
      intro hcc
      have := arrItemkey_injective hcc
      omega
theorem entriesObject_nodup : ∀ (ms : List (QString × QJsonValue)) (pfx : QString),
    membersAll nodeValid ms = true → membersAll nodeNoSlash ms = true →
    ascending (ms.map Prod.fst) = true → (∀ m ∈ ms, noSlash m.1 = true) →
    ((entriesObject ms pfx).map Prod.fst).Nodup
  | [], _, _, _, _, _ => by simp [entriesObject]
  | (k, v) :: rest, pfx, hv, hs, hasc, hns => by
    rw [membersAll_cons, Bool.and_eq_true] at hv hs
    rw [List.map_cons, ascending_cons] at hasc
    rw [entriesObject, List.map_append, List.nodup_append]
    refine ⟨entriesValue_nodup k v pfx hv.1 hs.1,
      entriesObject_nodup rest pfx hv.2 hs.2 hasc.2
        (fun m hm => hns m (List.mem_cons_of_mem _ hm)), ?_⟩
    intro key hk1 hk2
    obtain ⟨e, he, rfl⟩ := List.mem_map.mp hk2
    obtain ⟨m, hm, hem⟩ := entriesObject_mem he
    have hb1 := keys_entriesValue_inBlock hk1
    have hb2 := entriesValue_inBlock hem
    refine inBlock_disjoint (hns (k, v) (List.mem_cons_self _ _))
      (hns m (List.mem_cons_of_mem _ hm)) ?_ hb1 hb2
    intro hkm
    have hlt := hasc.1 m.1 (List.mem_map_of_mem _ hm)
    simp only at hkm
    rw [hkm, qstrLt_irrefl] at hlt
    exact absurd hlt (by simp)
end

/-! ### Pruning -/

mutual
theorem entriesValue_eq_nil (key : QString) : ∀ (v : QJsonValue) (pfx : QString),
    entriesValue key v pfx = [] ↔ pruneValue v = none
  | .object ms, pfx => by
    rw [entriesValue, pruneValue, entriesObject_eq_nil ms]
    cases pruneMembers ms <;> simp
  | .array xs, pfx => by
    rw [entriesValue, pruneValue, entriesArray_eq_nil xs]
    cases pruneItems xs <;> simp
  | .undefined, pfx => by simp [entriesValue, pruneValue]
  | .null, pfx => by simp [entriesValue, pruneValue]
  | .bool b, pfx => by simp [entriesValue, pruneValue]
  | .double d, pfx => by simp [entriesValue, pruneValue]
  | .string s, pfx => by simp [entriesValue, pruneValue]
theorem entriesArray_eq_nil : ∀ (xs : List QJsonValue) (ctr : Nat) (pfx : QString),
    entriesArray xs ctr pfx = [] ↔ pruneItems xs = []
  | [], _, _ => by simp [entriesArray, pruneItems]
  | x :: rest, ctr, pfx => by
    rw [entriesArray, pruneItems, List.append_eq_nil, entriesValue_eq_nil _ x pfx,
      entriesArray_eq_nil rest]
    cases pruneValue x <;> simp
theorem entriesObject_eq_nil : ∀ (ms : List (QString × QJsonValue)) (pfx : QString),
    entriesObject ms pfx = [] ↔ pruneMembers ms = []
  | [], _ => by simp [entriesObject, pruneMembers]
  | (k, v) :: rest, pfx => by
    rw [entriesObject, pruneMembers, List.append_eq_nil, entriesValue_eq_nil k v pfx,
      entriesObject_eq_nil rest]
    cases pruneValue v <;> simp
end

mutual
theorem pruneValue_noEmpty : ∀ (v : QJsonValue), noEmptyContainer v = true →
    pruneValue v = some v
  | .object ms, h => by
    unfold noEmptyContainer at h
    rw [treeAll_object, Bool.and_eq_true] at h
    rw [pruneValue, pruneMembers_noEmpty ms h.2]
    cases ms with
    | nil => simp [nodeNonEmpty, isEmptyContainer] at h
    | cons _ _ => rfl
  | .array xs, h => by
    unfold noEmptyContainer at h
    rw [treeAll_array, Bool.and_eq_true] at h
    rw [pruneValue, pruneItems_noEmpty xs h.2]
    cases xs with
    | nil => simp [nodeNonEmpty, isEmptyContainer] at h
    | cons _ _ => rfl
  | .undefined, _ => by simp [pruneValue]
  | .null, _ => by simp [pruneValue]
  | .bool b, _ => by simp [pruneValue]
  | .double d, _ => by simp [pruneValue]
  | .string s, _ => by simp [pruneValue]
theorem pruneItems_noEmpty : ∀ (xs : List QJsonValue), itemsAll nodeNonEmpty xs = true →
    pruneItems xs = xs
  | [], _ => by simp [pruneItems]
  | x :: rest, h => by
    rw [itemsAll_cons, Bool.and_eq_true] at h
    rw [pruneItems, pruneValue_noEmpty x h.1, pruneItems_noEmpty rest h.2]
theorem pruneMembers_noEmpty : ∀ (ms : List (QString × QJsonValue)),
    membersAll nodeNonEmpty ms = true → pruneMembers ms = ms
  | [], _ => by simp [pruneMembers]
  | (k, v) :: rest, h => by
    rw [membersAll_cons, Bool.and_eq_true] at h
    rw [pruneMembers, pruneValue_noEmpty v h.1, pruneMembers_noEmpty rest h.2]
end

/-! ## The flat map of a list of insertions -/

theorem keySorted_nil {β : Type} : KeySorted ([] : List (QString × β)) := List.Pairwise.nil

theorem flat_sorted (es : List (QString × QVariant)) : KeySorted (insertAll es []) :=
  insertAll_sorted es [] keySorted_nil

theorem mem_flat {es : List (QString × QVariant)} (hnd : (es.map Prod.fst).Nodup)
    (e : QString × QVariant) : e ∈ insertAll es [] ↔ e ∈ es := by
  rw [mem_insertAll es [] keySorted_nil hnd]
  simp

theorem flat_eq_nil {es : List (QString × QVariant)} (hnd : (es.map Prod.fst).Nodup) :
    insertAll es [] = [] ↔ es = [] := by
  constructor
  · intro h
    cases es with
    | nil => rfl
    | cons e rest =>
      have := (mem_flat hnd e).2 (List.mem_cons_self _ _)
      rw [h] at this
      cases this
  · rintro rfl
    rfl

theorem keySorted_append {β : Type} {a b : List (QString × β)} :
    KeySorted (a ++ b) ↔ KeySorted a ∧ KeySorted b ∧
      ∀ x ∈ a, ∀ y ∈ b, qstrLt x.1 y.1 = true := by
  unfold KeySorted
  rw [List.pairwise_append]

/-- A flat map splits into the flat maps of two groups of insertions when every
key of the first group precedes every key of the second. -/
theorem flat_split {es e1 e2 : List (QString × QVariant)}
    (hnd : (es.map Prod.fst).Nodup) (hnd1 : (e1.map Prod.fst).Nodup)
    (hnd2 : (e2.map Prod.fst).Nodup) (hmem : ∀ e, e ∈ es ↔ e ∈ e1 ∨ e ∈ e2)
    (hlt : ∀ a ∈ e1, ∀ b ∈ e2, qstrLt a.1 b.1 = true) :
    insertAll es [] = insertAll e1 [] ++ insertAll e2 [] := by
  apply keySorted_ext (flat_sorted es)
  · rw [keySorted_append]
    refine ⟨flat_sorted e1, flat_sorted e2, ?_⟩
    intro x hx y hy
    exact hlt x ((mem_flat hnd1 x).1 hx) y ((mem_flat hnd2 y).1 hy)
  · intro e
    rw [mem_flat hnd, List.mem_append, mem_flat hnd1, mem_flat hnd2, hmem]

theorem keySorted_head_lt {β : Type} {h : QString × β} {t : List (QString × β)}
    (hs : KeySorted (h :: t)) {e : QString × β} (he : e ∈ t) : qstrLt h.1 e.1 = true := by
  unfold KeySorted at hs
  rw [List.pairwise_cons] at hs
  exact hs.1 e he

/-- In the flat map of an object's entries, the member owning the first key
owns an initial run: its keys precede those of all other members. -/
theorem object_block_lt {ms1 ms2 : List (QString × QJsonValue)} {n1 : QString}
    {t1 : QJsonValue} {q : QString} {h : QString × QVariant} {tl : SettingsMap}
    (hns : ∀ m ∈ ms1 ++ (n1, t1) :: ms2, noSlash m.1 = true)
    (hdist : ∀ m ∈ ms1 ++ ms2, m.1 ≠ n1)
    (hnd : ((entriesObject (ms1 ++ (n1, t1) :: ms2) q).map Prod.fst).Nodup)
    (hB : insertAll (entriesObject (ms1 ++ (n1, t1) :: ms2) q) [] = h :: tl)
    (hh : h ∈ entriesValue n1 t1 q) :
    ∀ a ∈ entriesValue n1 t1 q, ∀ b ∈ entriesObject (ms1 ++ ms2) q,
      qstrLt a.1 b.1 = true := by
  intro a ha b hb
  have hn1 : noSlash n1 = true := hns (n1, t1) (by simp)
  have hsorted : KeySorted (h :: tl) := hB ▸ flat_sorted _
  have hbE : b ∈ entriesObject (ms1 ++ (n1, t1) :: ms2) q := by
    rw [entriesObject_append] at hb ⊢
    rw [entriesObject]
    simp only [List.mem_append] at hb ⊢
    tauto
  have hbB : b ∈ h :: tl := hB ▸ (mem_flat hnd b).2 hbE
  obtain ⟨m, hm, hbm⟩ := entriesObject_mem hb
  have hmne : m.1 ≠ n1 := hdist m hm
  have hmns : noSlash m.1 = true := hns m (by
    simp only [List.mem_append, List.mem_cons] at hm ⊢
    tauto)
  have hbblock : inBlock q m.1 b.1 := entriesValue_inBlock hbm
  have hnot : ¬ inBlock q n1 b.1 := inBlock_disjoint hmns hn1 hmne hbblock
  have hab_ne : a.1 ≠ b.1 := by
    intro hab
    exact hnot (hab ▸ entriesValue_inBlock ha)
  have hhb : qstrLt h.1 b.1 = true := by
    rcases List.mem_cons.mp hbB with hbh | hbt
    · exfalso
      exact hnot (hbh ▸ entriesValue_inBlock hh)
    · exact keySorted_head_lt hsorted hbt
  cases hlt : qstrLt a.1 b.1 with
  | true => rfl
  | false =>
    exfalso
    have hba : qstrLt b.1 a.1 = true := by
      cases hba : qstrLt b.1 a.1 with
      | true => rfl
      | false => exact absurd (qstrLt_total hlt hba) hab_ne
    rcases entriesValue_key n1 t1 q h hh with ⟨_, hph⟩ | ⟨hc, hkh⟩
    · rcases entriesValue_key n1 t1 q a ha with ⟨_, hpa⟩ | ⟨hc2, _⟩
      · have := prefix_convex hph hpa (qstrLt_asymm hhb) (qstrLt_asymm hba)
        exact hnot (Or.inr this)
      · simp_all
    · rcases entriesValue_key n1 t1 q a ha with ⟨hc2, _⟩ | ⟨_, hka⟩
      · simp_all
      · have := qstrLt_trans hhb hba
        rw [hkh, hka, qstrLt_irrefl] at this
        exact absurd this (by simp)

/-- The flat map of an object's entries starts with the flat map of the member
that owns its first key. -/
theorem object_flat_split {ms1 ms2 : List (QString × QJsonValue)} {n1 : QString}
    {t1 : QJsonValue} {q : QString} {h : QString × QVariant} {tl : SettingsMap}
    (hns : ∀ m ∈ ms1 ++ (n1, t1) :: ms2, noSlash m.1 = true)
    (hdist : ∀ m ∈ ms1 ++ ms2, m.1 ≠ n1)
    (hnd : ((entriesObject (ms1 ++ (n1, t1) :: ms2) q).map Prod.fst).Nodup)
    (hB : insertAll (entriesObject (ms1 ++ (n1, t1) :: ms2) q) [] = h :: tl)
    (hh : h ∈ entriesValue n1 t1 q) :
    insertAll (entriesObject (ms1 ++ (n1, t1) :: ms2) q) [] =
      insertAll (entriesValue n1 t1 q) [] ++ insertAll (entriesObject (ms1 ++ ms2) q) [] := by
  have hsub : ∀ e, e ∈ entriesObject (ms1 ++ (n1, t1) :: ms2) q ↔
      e ∈ entriesValue n1 t1 q ∨ e ∈ entriesObject (ms1 ++ ms2) q := by
    intro e
    rw [entriesObject_append, entriesObject_append, entriesObject]
    simp only [List.mem_append]
    tauto
  have hnd' := hnd
  rw [entriesObject_append, entriesObject, List.map_append, List.map_append,
    List.nodup_append] at hnd'
  obtain ⟨hnd1, hnd23, hdis⟩ := hnd'
  rw [List.nodup_append] at hnd23
  obtain ⟨hnd2, hnd3, hdis23⟩ := hnd23
  have hndrest : ((entriesObject (ms1 ++ ms2) q).map Prod.fst).Nodup := by
    rw [entriesObject_append, List.map_append, List.nodup_append]
    refine ⟨hnd1, hnd3, ?_⟩
    intro k hk1 hk3
    exact hdis hk1 (List.mem_append_right _ hk3)
  exact flat_split hnd hnd2 hndrest hsub (object_block_lt hns hdist hnd hB hh)

/-- Keys of array items with ascending counters are ascending. -/
theorem array_block_lt {q : QString} {c1 c2 : Nat} (hlt : c1 < c2) (h2 : c2 < 100000)
    {k1 k2 : QString} (hk1 : inBlock q (arrItemkey c1) k1) (hk2 : inBlock q (arrItemkey c2) k2) :
    qstrLt k1 k2 = true := by
  obtain ⟨r1, rfl⟩ := inBlock_pfx hk1
  obtain ⟨r2, rfl⟩ := inBlock_pfx hk2
  rw [List.append_assoc, List.append_assoc, qstrLt_append_left]
  apply qstrLt_append_of_length_eq
  · rw [arrItemkey_length (lt_trans hlt h2), arrItemkey_length h2]
  · exact arrItemkey_lt hlt h2

/-- The flat map of an array's entries is the flat map of the first item
followed by the flat map of the remaining items. -/
theorem array_flat_split {x : QJsonValue} {rest : List QJsonValue} {ctr : Nat} {q : QString}
    (hbound : ctr + (rest.length + 1) ≤ 100000)
    (hnd : ((entriesArray (x :: rest) ctr q).map Prod.fst).Nodup) :
    insertAll (entriesArray (x :: rest) ctr q) [] =
      insertAll (entriesValue (arrItemkey ctr) x q) [] ++
        insertAll (entriesArray rest (if isEmptyContainer x then ctr else ctr + 1) q) [] := by
  have hnd' := hnd
  rw [entriesArray, List.map_append, List.nodup_append] at hnd'
  obtain ⟨hnd1, hnd2, _⟩ := hnd'
  refine flat_split hnd hnd1 hnd2 ?_ ?_
  · intro e
    rw [entriesArray, List.mem_append]
  · intro a ha b hb
    cases hx : isEmptyContainer x with
    | true =>
      rw [entriesValue_emptyContainer hx] at ha
      cases ha
    | false =>
      simp only [hx, Bool.false_eq_true, if_false] at hb
      obtain ⟨c, y, hc1, hc2, _, hey⟩ := entriesArray_mem hb
      exact array_block_lt (by omega) (by omega) (entriesValue_inBlock ha)
        (entriesValue_inBlock hey)

/-! ## Single steps of the decoder -/

theorem restoreJsonSimpleValue_stateAt (m : SettingsMap) (k : QString) (ks : List QString)
    (log : List Diagnostic) (hks : ∀ x ∈ ks, x ∈ mapKeys m) :
    restoreJsonSimpleValue (stateAt m (k :: ks) log) =
      .ok (jsonOfVariant (mapValue m k), stateAt m ks log) := by
  cases ks with
  | nil => rfl
  | cons k2 rest =>
    have h2 := mapIndex_of_mem (hks k2 (List.mem_cons_self _ _))
    simp only [restoreJsonSimpleValue, stateAt, h2, jsonOfVariant]

theorem restoreJsonValue_leaf {fuel lvl : Nat} {st : DecState}
    (h : st.sections.length ≤ lvl) :
    restoreJsonValue (fuel + 1) lvl st = restoreJsonSimpleValue st := by
  rw [restoreJsonValue, if_pos h]

theorem restoreJsonValue_object {fuel lvl : Nat} {st : DecState} {sec : QString}
    (hs : st.sections[lvl]? = some sec) (hi : (getArrayIndex sec).2 = false)
    {ms : List (QString × QJsonValue)} {st1 : DecState}
    (hr : restoreJsonObjectLoop fuel (st.sections.take lvl) lvl [] st = .ok (ms, st1)) :
    restoreJsonValue (fuel + 2) lvl st = .ok (QJsonValue.object ms, st1) := by
  have hlen : ¬ st.sections.length ≤ lvl := by
    intro hle
    rw [List.getElem?_eq_none hle] at hs
    cases hs
  rw [restoreJsonValue, if_neg hlen]
  simp only [hs, hi, Bool.false_eq_true, if_false]
  rw [restoreJsonObject, hr]

theorem restoreJsonValue_array {fuel lvl : Nat} {st : DecState} {sec : QString}
    (hs : st.sections[lvl]? = some sec) (hi : (getArrayIndex sec).2 = true)
    {xs : List QJsonValue} {st1 : DecState}
    (hr : restoreJsonArrayLoop fuel (st.sections.take lvl) lvl [] st = .ok (xs, st1)) :
    restoreJsonValue (fuel + 2) lvl st = .ok (QJsonValue.array xs, st1) := by
  have hlen : ¬ st.sections.length ≤ lvl := by
    intro hle
    rw [List.getElem?_eq_none hle] at hs
    cases hs
  rw [restoreJsonValue, if_neg hlen]
  simp only [hs, hi, if_true]
  rw [restoreJsonArray]
  have hge : ¬ lvl ≥ st.sections.length := hlen
  rw [if_neg hge, hr]

theorem restoreJsonObjectLoop_step {fuel lvl : Nat} {path : List QString}
    {acc : List (QString × QJsonValue)} {st st1 : DecState} {key : QString} {v : QJsonValue}
    (hk : st.keysWL.isEmpty = false) (hs : st.sections[lvl]? = some key)
    (hv : restoreJsonValue fuel (lvl + 1) st = .ok (v, st1)) :
    restoreJsonObjectLoop (fuel + 1) path lvl acc st =
      if st1.keysWL.isEmpty || decide (path.length > st1.sections.length)
          || decide (path ≠ st1.sections.take lvl) then
        .ok (insertMember key v acc, st1)
      else restoreJsonObjectLoop fuel path lvl (insertMember key v acc) st1 := by
  rw [restoreJsonObjectLoop]
  simp only [hk, Bool.false_eq_true, if_false, hs, hv]

theorem restoreJsonArrayLoop_step {fuel lvl : Nat} {path : List QString}
    {acc : List QJsonValue} {st st1 : DecState} {sec : QString} {v : QJsonValue}
    (hk : st.keysWL.isEmpty = false) (hs : st.sections[lvl]? = some sec)
    (hi : (getArrayIndex sec).2 = true)
    (hv : restoreJsonValue fuel (lvl + 1) st = .ok (v, st1)) :
    restoreJsonArrayLoop (fuel + 1) path lvl acc st =
      if st1.keysWL.isEmpty || decide (path.length ≥ st1.sections.length)
          || decide (path ≠ st1.sections.take lvl) then
        .ok (appendItem acc v, st1)
      else restoreJsonArrayLoop fuel path lvl (appendItem acc v) st1 := by
  rw [restoreJsonArrayLoop]
  simp only [hk, Bool.false_eq_true, if_false, hs, hi, if_true, hv]

/-! ## Sections of the encoder's keys -/

theorem split_inBlock {path : List QString} {n k : QString}
    (hp : ∀ s ∈ path, noSlash s = true) (hn : noSlash n = true)
    (hk : inBlock (pathPrefix path) n k) :
    ∃ tail, split k = path ++ n :: tail := by
  rcases hk with rfl | ⟨r, rfl⟩
  · exact ⟨[], by rw [split_pathPrefix hp, split_noSlash hn]⟩
  · refine ⟨split r, ?_⟩
    rw [List.append_assoc, List.append_assoc, split_pathPrefix hp]
    show path ++ split (n ++ '/' :: r) = _
    rw [split_append_slash hn]

theorem take_length_append {α : Type} (a b : List α) : (a ++ b).take a.length = a := by
  simp

theorem take_succ_append_cons {α : Type} (a : List α) (x : α) (b : List α) :
    (a ++ x :: b).take (a.length + 1) = a ++ [x] := by
  rw [List.take_append_eq_append_take]
  simp

theorem getElem?_append_cons {α : Type} (a : List α) (x : α) (b : List α) :
    (a ++ x :: b)[a.length]? = some x := by
  rw [List.getElem?_append_right (le_refl _)]
  simp

/-! ## The decoder on the encoder's keys -/

theorem pruneMembers_append (a b : List (QString × QJsonValue)) :
    pruneMembers (a ++ b) = pruneMembers a ++ pruneMembers b := by
  induction a with
  | nil => simp [pruneMembers]
  | cons m rest ih =>
    obtain ⟨k, v⟩ := m
    rw [List.cons_append, pruneMembers, pruneMembers, ih]
    cases pruneValue v <;> simp

theorem pruneMembers_cons_some {k : QString} {v w : QJsonValue}
    (h : pruneValue v = some w) (ms : List (QString × QJsonValue)) :
    pruneMembers ((k, v) :: ms) = (k, w) :: pruneMembers ms := by
  rw [pruneMembers, h]

theorem pruneValue_not_undefined {v w : QJsonValue} (hv : validTree v = true)
    (h : pruneValue v = some w) : w.isUndefined = false := by
  cases v with
  | array xs =>
    rw [pruneValue] at h
    split at h
    · cases h
    · cases h; rfl
  | object ms =>
    rw [pruneValue] at h
    split at h
    · cases h
    · cases h; rfl
  | null => simp [pruneValue] at h; subst h; rfl
  | bool b => simp [pruneValue] at h; subst h; rfl
  | double d => simp [pruneValue] at h; subst h; rfl
  | string s => simp [pruneValue] at h; subst h; rfl
  | undefined => simp [validTree, treeAll, nodeValid] at hv

theorem split_of_pathPrefix {path : List QString} {k : QString}
    (hp : ∀ s ∈ path, noSlash s = true) (hk : pathPrefix path <+: k) :
    (split k).take path.length = path ∧ path.length < (split k).length := by
  obtain ⟨r, rfl⟩ := hk
  rw [split_pathPrefix hp]
  refine ⟨take_length_append _ _, ?_⟩
  have := split_ne_nil r
  rw [List.length_append]
  have : 0 < (split r).length := List.length_pos.mpr this
  omega

theorem names_distinct_of_ascending {ms1 ms2 : List (QString × QJsonValue)} {n1 : QString}
    {t1 : QJsonValue} (h : ascending ((ms1 ++ (n1, t1) :: ms2).map Prod.fst) = true) :
    (∀ x ∈ ms1 ++ ms2, x.1 ≠ n1) ∧ ascending ((ms1 ++ ms2).map Prod.fst) = true := by
  rw [ascending_keySorted] at h ⊢
  unfold KeySorted at h ⊢
  rw [List.pairwise_append, List.pairwise_cons] at h
  obtain ⟨h1, ⟨h2, h3⟩, h4⟩ := h
  constructor
  · intro x hx
    rcases List.mem_append.mp hx with hx | hx
    · have := h4 x hx (n1, t1) (List.mem_cons_self _ _)
      intro e
      simp only at this
      rw [e, qstrLt_irrefl] at this
      exact absurd this (by simp)
    · have := h2 x hx
      intro e
      simp only at this
      rw [e, qstrLt_irrefl] at this
      exact absurd this (by simp)
  · rw [List.pairwise_append]
    exact ⟨h1, h3, fun a ha b hb => h4 a ha b (List.mem_cons_of_mem _ hb)⟩

/-- The loop of `restoreJsonObject` rebuilds the pruned members of an object
from the keys the encoder made for them. -/
theorem objectLoop_restores (m : SettingsMap) :
    ∀ (n : Nat) (ms : List (QString × QJsonValue)), ms.length = n →
    (∀ x ∈ ms, RestoresValue m x.2) →
    ∀ (path : List QString) (rest : List QString) (log : List Diagnostic)
      (acc : List (QString × QJsonValue)),
    (∀ s ∈ path, noSlash s = true) →
    membersAll nodeValid ms = true → membersAll nodeNoSlash ms = true →
    ascending (ms.map Prod.fst) = true → (∀ x ∈ ms, noSlash x.1 = true) →
    insertAll (entriesObject ms (pathPrefix path)) [] ≠ [] →
    (∀ e ∈ entriesObject ms (pathPrefix path), e ∈ m) →
    (∀ k ∈ rest, k ∈ mapKeys m) →
    (∀ k, rest.head? = some k → (split k).take path.length ≠ path) →
    KeySorted acc → (∀ a ∈ acc, ∀ x ∈ ms, a.1 ≠ x.1) →
    ∃ fuel r,
      restoreJsonObjectLoop fuel path path.length acc
        (stateAt m (mapKeys (insertAll (entriesObject ms (pathPrefix path)) []) ++ rest) log)
          = .ok (r, stateAt m rest log) ∧
      KeySorted r ∧ ∀ e, e ∈ r ↔ e ∈ acc ∨ e ∈ pruneMembers ms := by
  intro n
  induction n with
  | zero =>
    intro ms hlen _ path rest log acc _ _ _ _ _ hB
    have : ms = [] := List.length_eq_zero.mp hlen
    subst this
    exact absurd rfl hB
  | succ n ih =>
    intro ms hlen hIH path rest log acc hpath hval hsl hasc hns hB hmem hrest hhead hacc hdisj
    have hnd := entriesObject_nodup ms (pathPrefix path) hval hsl hasc hns
    cases hBeq : insertAll (entriesObject ms (pathPrefix path)) [] with
    | nil => exact absurd hBeq hB
    | cons h tl =>
      have hhE : h ∈ entriesObject ms (pathPrefix path) :=
        (mem_flat hnd h).1 (hBeq ▸ List.mem_cons_self _ _)
      obtain ⟨mem, hmemms, hhm⟩ := entriesObject_mem hhE
      obtain ⟨ms1, ms2, rfl⟩ := List.append_of_mem hmemms
      obtain ⟨n1, t1⟩ := mem
      obtain ⟨hdist, hasc2⟩ := names_distinct_of_ascending hasc
      have hsplit := object_flat_split hns hdist hnd hBeq hhm
      rw [membersAll_iff] at hval hsl
      have hn1 : noSlash n1 = true := hns (n1, t1) (by simp)
      have hv1 : validTree t1 = true := hval (n1, t1) (by simp)
      have hs1 : namesNoSlash t1 = true := hsl (n1, t1) (by simp)
      have hnd1 := entriesValue_nodup n1 t1 (pathPrefix path) hv1 hs1
      have hB1 : insertAll (entriesValue n1 t1 (pathPrefix path)) [] ≠ [] := by
        intro e
        rw [flat_eq_nil hnd1] at e
        rw [e] at hhm
        cases hhm
      have hval2 : membersAll nodeValid (ms1 ++ ms2) = true := by
        rw [membersAll_iff]
        intro x hx
        exact hval x (by
          simp only [List.mem_append, List.mem_cons] at hx ⊢
          tauto)
      have hsl2 : membersAll nodeNoSlash (ms1 ++ ms2) = true := by
        rw [membersAll_iff]
        intro x hx
        exact hsl x (by
          simp only [List.mem_append, List.mem_cons] at hx ⊢
          tauto)
      have hns2 : ∀ x ∈ ms1 ++ ms2, noSlash x.1 = true := by
        intro x hx
        exact hns x (by
          simp only [List.mem_append, List.mem_cons] at hx ⊢
          tauto)
      have hnd2 := entriesObject_nodup (ms1 ++ ms2) (pathPrefix path) hval2 hsl2 hasc2 hns2
      have hmem1 : ∀ e ∈ entriesValue n1 t1 (pathPrefix path), e ∈ m := by
        intro e he
        apply hmem
        rw [entriesObject_append, entriesObject]
        simp only [List.mem_append]
        tauto
      have hmem2 : ∀ e ∈ entriesObject (ms1 ++ ms2) (pathPrefix path), e ∈ m := by
        intro e he
        apply hmem
        rw [entriesObject_append] at he ⊢
        rw [entriesObject]
        simp only [List.mem_append] at he ⊢
        tauto
      have hrest2 : ∀ k ∈ mapKeys (insertAll (entriesObject (ms1 ++ ms2) (pathPrefix path)) [])
          ++ rest, k ∈ mapKeys m := by
        intro k hk
        rcases List.mem_append.mp hk with hk | hk
        · obtain ⟨e, he, rfl⟩ := List.mem_map.mp hk
          exact List.mem_map_of_mem _ (hmem2 e ((mem_flat hnd2 e).1 he))
        · exact hrest k hk
      have hhead2 : ∀ k,
          (mapKeys (insertAll (entriesObject (ms1 ++ ms2) (pathPrefix path)) []) ++ rest).head?
            = some k → (split k).take (path.length + 1) ≠ path ++ [n1] := by
        intro k hk
        cases hB2 : insertAll (entriesObject (ms1 ++ ms2) (pathPrefix path)) [] with
        | nil =>
          rw [hB2] at hk
          have := hhead k (by simpa [mapKeys] using hk)
          intro e
          apply this
          have e2 := congrArg (List.take path.length) e
          rw [List.take_take, min_eq_left (Nat.le_succ _), take_length_append] at e2
          exact e2
        | cons h2 tl2 =>
          rw [hB2] at hk
          have hk2 : h2.1 = k := by simpa [mapKeys] using hk
          have hh2 : h2 ∈ entriesObject (ms1 ++ ms2) (pathPrefix path) :=
            (mem_flat hnd2 h2).1 (hB2 ▸ List.mem_cons_self _ _)
          obtain ⟨x, hx, hex⟩ := entriesObject_mem hh2
          obtain ⟨tail, hsp⟩ := split_inBlock hpath (hns2 x hx) (entriesValue_inBlock hex)
          rw [← hk2, hsp, take_succ_append_cons]
          intro e
          have := List.append_cancel_left e
          simp only [List.cons.injEq, and_true] at this
          exact hdist x hx this
      obtain ⟨f1, v1, hprune, hrun⟩ := hIH (n1, t1) (by simp) path n1
        (mapKeys (insertAll (entriesObject (ms1 ++ ms2) (pathPrefix path)) []) ++ rest)
        log hpath hn1 hB1 hmem1 hrest2 hhead2
      -- the state the loop starts in
      have hkeys : mapKeys (insertAll (entriesObject (ms1 ++ (n1, t1) :: ms2) (pathPrefix path)) [])
            ++ rest =
          mapKeys (insertAll (entriesValue n1 t1 (pathPrefix path)) []) ++
            (mapKeys (insertAll (entriesObject (ms1 ++ ms2) (pathPrefix path)) []) ++ rest) := by
        rw [hsplit]
        simp [mapKeys]
      rw [← hBeq, hkeys]
      have hstart : mapKeys (insertAll (entriesValue n1 t1 (pathPrefix path)) []) ++
            (mapKeys (insertAll (entriesObject (ms1 ++ ms2) (pathPrefix path)) []) ++ rest) =
          h.1 :: (mapKeys tl ++ rest) := by
        rw [← hkeys, hBeq]
        simp [mapKeys]
      obtain ⟨tail, hsp⟩ := split_inBlock hpath hn1 (entriesValue_inBlock hhm)
      have hk0 : (stateAt m (mapKeys (insertAll (entriesValue n1 t1 (pathPrefix path)) []) ++
            (mapKeys (insertAll (entriesObject (ms1 ++ ms2) (pathPrefix path)) []) ++ rest))
            log).keysWL.isEmpty = false := by
        rw [hstart]; rfl
      have hs0 : (stateAt m (mapKeys (insertAll (entriesValue n1 t1 (pathPrefix path)) []) ++
            (mapKeys (insertAll (entriesObject (ms1 ++ ms2) (pathPrefix path)) []) ++ rest))
            log).sections[path.length]? = some n1 := by
        rw [hstart]
        show (split h.1)[path.length]? = some n1
        rw [hsp, getElem?_append_cons]
      have hund : v1.isUndefined = false := pruneValue_not_undefined hv1 hprune
      have hacc1 : KeySorted (insertMember n1 v1 acc) := by
        rw [insertMember_eq _ _ hund]
        exact sortedInsert_sorted _ _ _ hacc
      have hmemacc : ∀ e, e ∈ insertMember n1 v1 acc ↔ e = (n1, v1) ∨ e ∈ acc := by
        intro e
        rw [insertMember_eq _ _ hund, mem_sortedInsert _ _ _ hacc]
        constructor
        · rintro (h1 | ⟨h1, _⟩)
          · exact Or.inl h1
          · exact Or.inr h1
        · rintro (h1 | h1)
          · exact Or.inl h1
          · exact Or.inr ⟨h1, hdisj e h1 (n1, t1) (by simp)⟩
      have hprune_all : pruneMembers (ms1 ++ (n1, t1) :: ms2) =
          pruneMembers ms1 ++ (n1, v1) :: pruneMembers ms2 := by
        rw [pruneMembers_append, pruneMembers_cons_some hprune]
      cases hB2 : insertAll (entriesObject (ms1 ++ ms2) (pathPrefix path)) [] with
      | nil =>
        have hE2 : entriesObject (ms1 ++ ms2) (pathPrefix path) = [] := (flat_eq_nil hnd2).1 hB2
        have hP2 : pruneMembers (ms1 ++ ms2) = [] := (entriesObject_eq_nil _ _).1 hE2
        rw [pruneMembers_append, List.append_eq_nil] at hP2
        rw [hB2] at hrun
        simp only [mapKeys, List.map_nil, List.nil_append] at hrun ⊢
        refine ⟨f1 + 1, insertMember n1 v1 acc, ?_, hacc1, ?_⟩
        · rw [hB2] at hk0 hs0
          simp only [mapKeys, List.map_nil, List.nil_append] at hk0 hs0
          rw [restoreJsonObjectLoop_step hk0 hs0 hrun]
          cases rest with
          | nil => rfl
          | cons k r =>
            have := hhead k rfl
            have hc : decide (path ≠ (stateAt m (k :: r) log).sections.take path.length) = true := by
              simp only [decide_eq_true_eq]
              exact fun e => this e.symm
            simp only [hc, Bool.or_true, if_true]
        · intro e
          rw [hmemacc, hprune_all, hP2.1, hP2.2]
          simp only [List.nil_append, List.mem_singleton]
          tauto
      | cons h2 tl2 =>
        have hB2ne : insertAll (entriesObject (ms1 ++ ms2) (pathPrefix path)) [] ≠ [] := by
          rw [hB2]; simp
        have hlen2 : (ms1 ++ ms2).length = n := by
          simp only [List.length_append, List.length_cons] at hlen ⊢
          omega
        have hdisj2 : ∀ a ∈ insertMember n1 v1 acc, ∀ x ∈ ms1 ++ ms2, a.1 ≠ x.1 := by
          intro a ha x hx
          rcases (hmemacc a).1 ha with rfl | ha
          · exact fun e => hdist x hx e.symm
          · exact hdisj a ha x (by
              simp only [List.mem_append, List.mem_cons] at hx ⊢
              tauto)
        obtain ⟨f2, r, hloop, hrs, hrmem⟩ := ih (ms1 ++ ms2) hlen2
          (fun x hx => hIH x (by
            simp only [List.mem_append, List.mem_cons] at hx ⊢
            tauto))
          path rest log (insertMember n1 v1 acc) hpath hval2 hsl2 hasc2 hns2 hB2ne hmem2 hrest
          hhead hacc1 hdisj2
        refine ⟨max f1 f2 + 1, r, ?_, hrs, ?_⟩
        · have hrun2 := restoreJsonValue_fuel_le (le_max_left f1 f2) hrun
          have hloop2 := restoreJsonObjectLoop_fuel_le (le_max_right f1 f2) hloop
          rw [hB2] at hk0 hs0 hrun2
          rw [restoreJsonObjectLoop_step hk0 hs0 hrun2]
          have hh2 : h2 ∈ entriesObject (ms1 ++ ms2) (pathPrefix path) :=
            (mem_flat hnd2 h2).1 (hB2 ▸ List.mem_cons_self _ _)
          obtain ⟨ht, hl⟩ := split_of_pathPrefix hpath (entriesObject_pfx _ _ _ hh2)
          rw [hB2] at hloop2
          have hc : ((stateAt m (mapKeys (h2 :: tl2) ++ rest) log).keysWL.isEmpty
              || decide (path.length > (stateAt m (mapKeys (h2 :: tl2) ++ rest) log).sections.length)
              || decide (path ≠ (stateAt m (mapKeys (h2 :: tl2) ++ rest) log).sections.take
                  path.length)) = false := by
            show (false || decide (path.length > (split h2.1).length)
              || decide (path ≠ (split h2.1).take path.length)) = false
            rw [ht]
            simp only [Bool.false_or, Bool.or_eq_false_iff, decide_eq_false_iff_not, not_lt,
              ne_eq, not_true_eq_false, not_false_eq_true, and_true]
            omega
          rw [hc]
          exact hloop2
        · intro e
          rw [hrmem, hmemacc, hprune_all, pruneMembers_append]
          simp only [List.mem_append, List.mem_cons]
          tauto

theorem pruneItems_cons_some {x w : QJsonValue} (h : pruneValue x = some w)
    (xs : List QJsonValue) : pruneItems (x :: xs) = w :: pruneItems xs := by
  rw [pruneItems, h]

theorem pruneItems_cons_none {x : QJsonValue} (h : pruneValue x = none)
    (xs : List QJsonValue) : pruneItems (x :: xs) = pruneItems xs := by
  rw [pruneItems, h]

/-- The loop of `restoreJsonArray` rebuilds the pruned items of an array from
the keys the encoder made for them. -/
theorem arrayLoop_restores (m : SettingsMap) :
    ∀ (xs : List QJsonValue), (∀ x ∈ xs, RestoresValue m x) →
    ∀ (ctr : Nat) (path : List QString) (rest : List QString) (log : List Diagnostic)
      (acc : List QJsonValue),
    (∀ s ∈ path, noSlash s = true) →
    itemsAll nodeValid xs = true → itemsAll nodeNoSlash xs = true →
    ctr + xs.length ≤ 100000 →
    insertAll (entriesArray xs ctr (pathPrefix path)) [] ≠ [] →
    (∀ e ∈ entriesArray xs ctr (pathPrefix path), e ∈ m) →
    (∀ k ∈ rest, k ∈ mapKeys m) →
    (∀ k, rest.head? = some k → (split k).take path.length ≠ path) →
    ∃ fuel,
      restoreJsonArrayLoop fuel path path.length acc
        (stateAt m (mapKeys (insertAll (entriesArray xs ctr (pathPrefix path)) []) ++ rest) log)
          = .ok (acc ++ pruneItems xs, stateAt m rest log) := by
  intro xs
  induction xs with
  | nil =>
    intro _ ctr path rest log acc _ _ _ _ hB
    exact absurd rfl hB
  | cons x xs ih =>
    intro hIH ctr path rest log acc hpath hval hsl hbound hB hmem hrest hhead
    have hnd := entriesArray_nodup (x :: xs) ctr (pathPrefix path) hval hsl
    have hsplit := array_flat_split (q := pathPrefix path) (by
      simp only [List.length_cons] at hbound
      omega) hnd
    rw [itemsAll_cons, Bool.and_eq_true] at hval hsl
    have hnd1 := entriesValue_nodup (arrItemkey ctr) x (pathPrefix path) hval.1 hsl.1
    have hnd2 := entriesArray_nodup xs (if isEmptyContainer x then ctr else ctr + 1)
      (pathPrefix path) hval.2 hsl.2
    have hbound2 : (if isEmptyContainer x then ctr else ctr + 1) + xs.length ≤ 100000 := by
      simp only [List.length_cons] at hbound
      split <;> omega
    have hmem1 : ∀ e ∈ entriesValue (arrItemkey ctr) x (pathPrefix path), e ∈ m := by
      intro e he
      apply hmem
      rw [entriesArray, List.mem_append]
      exact Or.inl he
    have hmem2 : ∀ e ∈ entriesArray xs (if isEmptyContainer x then ctr else ctr + 1)
        (pathPrefix path), e ∈ m := by
      intro e he
      apply hmem
      rw [entriesArray, List.mem_append]
      exact Or.inr he
    have hIH2 : ∀ y ∈ xs, RestoresValue m y := fun y hy => hIH y (List.mem_cons_of_mem _ hy)
    rw [hsplit] at hB ⊢
    cases hB1 : insertAll (entriesValue (arrItemkey ctr) x (pathPrefix path)) [] with
    | nil =>
      have hE1 : entriesValue (arrItemkey ctr) x (pathPrefix path) = [] := (flat_eq_nil hnd1).1 hB1
      have hP1 : pruneValue x = none := (entriesValue_eq_nil _ _ _).1 hE1
      rw [hB1] at hB
      simp only [List.nil_append] at hB ⊢
      rw [pruneItems_cons_none hP1]
      exact ih hIH2 _ path rest log acc hpath hval.2 hsl.2 hbound2 hB hmem2 hrest hhead
    | cons h tl =>
      have hB1ne : insertAll (entriesValue (arrItemkey ctr) x (pathPrefix path)) [] ≠ [] := by
        rw [hB1]; simp
      have hhm : h ∈ entriesValue (arrItemkey ctr) x (pathPrefix path) :=
        (mem_flat hnd1 h).1 (hB1 ▸ List.mem_cons_self _ _)
      have hxne : isEmptyContainer x = false := by
        cases hx : isEmptyContainer x with
        | false => rfl
        | true =>
          rw [entriesValue_emptyContainer hx] at hhm
          cases hhm
      simp only [hxne, Bool.false_eq_true, if_false] at hnd2 hbound2 hmem2 hsplit ⊢
      have hctr : ctr < 100000 := by
        simp only [List.length_cons] at hbound
        omega
      have hrest2 : ∀ k ∈ mapKeys (insertAll (entriesArray xs (ctr + 1) (pathPrefix path)) [])
          ++ rest, k ∈ mapKeys m := by
        intro k hk
        rcases List.mem_append.mp hk with hk | hk
        · obtain ⟨e, he, rfl⟩ := List.mem_map.mp hk
          exact List.mem_map_of_mem _ (hmem2 e ((mem_flat hnd2 e).1 he))
        · exact hrest k hk
      have hhead2 : ∀ k,
          (mapKeys (insertAll (entriesArray xs (ctr + 1) (pathPrefix path)) []) ++ rest).head?
            = some k → (split k).take (path.length + 1) ≠ path ++ [arrItemkey ctr] := by
        intro k hk
        cases hB2 : insertAll (entriesArray xs (ctr + 1) (pathPrefix path)) [] with
        | nil =>
          rw [hB2] at hk
          have := hhead k (by simpa [mapKeys] using hk)
          intro e
          apply this
          have e2 := congrArg (List.take path.length) e
          rw [List.take_take, min_eq_left (Nat.le_succ _), take_length_append] at e2
          exact e2
        | cons h2 tl2 =>
          rw [hB2] at hk
          have hk2 : h2.1 = k := by simpa [mapKeys] using hk
          have hh2 : h2 ∈ entriesArray xs (ctr + 1) (pathPrefix path) :=
            (mem_flat hnd2 h2).1 (hB2 ▸ List.mem_cons_self _ _)
          obtain ⟨c, y, hc1, _, _, hey⟩ := entriesArray_mem hh2
          obtain ⟨tail, hsp⟩ := split_inBlock hpath (noSlash_arrItemkey c)
            (entriesValue_inBlock hey)
          rw [← hk2, hsp, take_succ_append_cons]
          intro e
          have := List.append_cancel_left e
          simp only [List.cons.injEq, and_true] at this
          have := arrItemkey_injective this
          omega
      obtain ⟨f1, v1, hprune, hrun⟩ := hIH x (List.mem_cons_self _ _) path (arrItemkey ctr)
        (mapKeys (insertAll (entriesArray xs (ctr + 1) (pathPrefix path)) []) ++ rest)
        log hpath (noSlash_arrItemkey ctr) hB1ne hmem1 hrest2 hhead2
      have hkeys : mapKeys (h :: tl ++ insertAll (entriesArray xs (ctr + 1) (pathPrefix path)) [])
            ++ rest =
          mapKeys (h :: tl) ++
            (mapKeys (insertAll (entriesArray xs (ctr + 1) (pathPrefix path)) []) ++ rest) := by
        simp [mapKeys]
      rw [hkeys]
      rw [hB1] at hrun
      obtain ⟨tail, hsp⟩ := split_inBlock hpath (noSlash_arrItemkey ctr)
        (entriesValue_inBlock hhm)
      have hk0 : (stateAt m (mapKeys (h :: tl) ++
            (mapKeys (insertAll (entriesArray xs (ctr + 1) (pathPrefix path)) []) ++ rest))
            log).keysWL.isEmpty = false := rfl
      have hs0 : (stateAt m (mapKeys (h :: tl) ++
            (mapKeys (insertAll (entriesArray xs (ctr + 1) (pathPrefix path)) []) ++ rest))
            log).sections[path.length]? = some (arrItemkey ctr) := by
        show (split h.1)[path.length]? = some (arrItemkey ctr)
        rw [hsp, getElem?_append_cons]
      have hidx := getArrayIndex_arrItemkey hctr
      have hund : v1.isUndefined = false := pruneValue_not_undefined hval.1 hprune
      have happ : appendItem acc v1 = acc ++ [v1] := by
        simp [appendItem, hund]
      rw [pruneItems_cons_some hprune]
      cases hB2 : insertAll (entriesArray xs (ctr + 1) (pathPrefix path)) [] with
      | nil =>
        have hE2 : entriesArray xs (ctr + 1) (pathPrefix path) = [] := (flat_eq_nil hnd2).1 hB2
        have hP2 : pruneItems xs = [] := (entriesArray_eq_nil _ _ _).1 hE2
        rw [hB2] at hrun hk0 hs0
        simp only [mapKeys, List.map_nil, List.nil_append] at hrun hk0 hs0 ⊢
        refine ⟨f1 + 1, ?_⟩
        rw [restoreJsonArrayLoop_step hk0 hs0 hidx hrun, happ, hP2]
        cases rest with
        | nil => rfl
        | cons k r =>
          have := hhead k rfl
          have hc : decide (path ≠ (stateAt m (k :: r) log).sections.take path.length) = true := by
            simp only [decide_eq_true_eq]
            exact fun e => this e.symm
          simp only [hc, Bool.or_true, if_true]
      | cons h2 tl2 =>
        have hB2ne : insertAll (entriesArray xs (ctr + 1) (pathPrefix path)) [] ≠ [] := by
          rw [hB2]; simp
        obtain ⟨f2, hloop⟩ := ih hIH2 (ctr + 1) path rest log (acc ++ [v1]) hpath hval.2 hsl.2
          hbound2 hB2ne hmem2 hrest hhead
        refine ⟨max f1 f2 + 1, ?_⟩
        have hrun2 := restoreJsonValue_fuel_le (le_max_left f1 f2) hrun
        have hloop2 := restoreJsonArrayLoop_fuel_le (le_max_right f1 f2) hloop
        rw [hB2] at hk0 hs0 hrun2 hloop2
        rw [restoreJsonArrayLoop_step hk0 hs0 hidx hrun2, happ]
        have hh2 : h2 ∈ entriesArray xs (ctr + 1) (pathPrefix path) :=
          (mem_flat hnd2 h2).1 (hB2 ▸ List.mem_cons_self _ _)
        obtain ⟨ht, hl⟩ := split_of_pathPrefix hpath (entriesArray_pfx _ _ _ _ hh2)
        have hc : ((stateAt m (mapKeys (h2 :: tl2) ++ rest) log).keysWL.isEmpty
            || decide (path.length ≥ (stateAt m (mapKeys (h2 :: tl2) ++ rest) log).sections.length)
            || decide (path ≠ (stateAt m (mapKeys (h2 :: tl2) ++ rest) log).sections.take
                path.length)) = false := by
          show (false || decide (path.length ≥ (split h2.1).length)
            || decide (path ≠ (split h2.1).take path.length)) = false
          rw [ht]
          simp only [Bool.false_or, Bool.or_eq_false_iff, decide_eq_false_iff_not, not_le,
            ne_eq, not_true_eq_false, not_false_eq_true, and_true, ge_iff_le]
          omega
        rw [hc]
        simp only [Bool.false_eq_true, if_false]
        rw [hloop2]
        simp

theorem pruneMembers_sublist (ms : List (QString × QJsonValue)) :
    ((pruneMembers ms).map Prod.fst).Sublist (ms.map Prod.fst) := by
  induction ms with
  | nil => simp [pruneMembers]
  | cons x rest ih =>
    obtain ⟨k, v⟩ := x
    rw [pruneMembers]
    cases pruneValue v with
    | none => exact List.Sublist.cons _ ih
    | some w => exact List.Sublist.cons₂ _ ih

theorem pruneMembers_sorted {ms : List (QString × QJsonValue)}
    (h : ascending (ms.map Prod.fst) = true) : KeySorted (pruneMembers ms) := by
  rw [← ascending_keySorted, ascending_iff_pairwise]
  rw [ascending_iff_pairwise] at h
  exact h.sublist (pruneMembers_sublist ms)

theorem namesNotIndex_object {ms : List (QString × QJsonValue)}
    (h : namesNotIndex (.object ms) = true) :
    (∀ x ∈ ms, (getArrayIndex x.1).2 = false) ∧ membersAll nodeNotIndex ms = true := by
  unfold namesNotIndex at h
  rw [treeAll_object, Bool.and_eq_true] at h
  refine ⟨?_, h.2⟩
  have := h.1
  simpa [nodeNotIndex, List.all_eq_true] using this

theorem namesNotIndex_array {xs : List QJsonValue} (h : namesNotIndex (.array xs) = true) :
    itemsAll nodeNotIndex xs = true := by
  unfold namesNotIndex at h
  rw [treeAll_array, Bool.and_eq_true] at h
  exact h.2

theorem arraysBounded_object {ms : List (QString × QJsonValue)}
    (h : arraysBounded (.object ms) = true) : membersAll nodeBounded ms = true := by
  unfold arraysBounded at h
  rw [treeAll_object, Bool.and_eq_true] at h
  exact h.2

theorem arraysBounded_array {xs : List QJsonValue} (h : arraysBounded (.array xs) = true) :
    xs.length ≤ 100000 ∧ itemsAll nodeBounded xs = true := by
  unfold arraysBounded at h
  rw [treeAll_array, Bool.and_eq_true] at h
  refine ⟨?_, h.2⟩
  have := h.1
  simpa [nodeBounded] using this

theorem sizeOf_member_lt {ms : List (QString × QJsonValue)} {x : QString × QJsonValue}
    (h : x ∈ ms) : sizeOf x.2 < sizeOf (QJsonValue.object ms) := by
  have h1 := List.sizeOf_lt_of_mem h
  have h2 : sizeOf x.2 < sizeOf x := by
    obtain ⟨k, v⟩ := x
    simp only [Prod.mk.sizeOf_spec]
    omega
  simp only [QJsonValue.object.sizeOf_spec]
  omega

theorem sizeOf_item_lt {xs : List QJsonValue} {x : QJsonValue}
    (h : x ∈ xs) : sizeOf x < sizeOf (QJsonValue.array xs) := by
  have h1 := List.sizeOf_lt_of_mem h
  simp only [QJsonValue.array.sizeOf_spec]
  omega

theorem jsonOfVariant_toVariant {v : QJsonValue} (hc : v.isContainer = false)
    (hv : validTree v = true) : jsonOfVariant (toVariant v) = v := by
  cases v with
  | array xs => simp [QJsonValue.isContainer] at hc
  | object ms => simp [QJsonValue.isContainer] at hc
  | null => rfl
  | bool b => rfl
  | double d => rfl
  | string s => rfl
  | undefined => simp [validTree, treeAll, nodeValid] at hv

theorem entriesValue_leaf {key : QString} {v : QJsonValue} {pfx : QString}
    (hc : v.isContainer = false) (hv : validTree v = true) :
    entriesValue key v pfx = [(pfx ++ key, toVariant v)] ∧ pruneValue v = some v := by
  cases v with
  | array xs => simp [QJsonValue.isContainer] at hc
  | object ms => simp [QJsonValue.isContainer] at hc
  | null => simp [entriesValue, pruneValue]
  | bool b => simp [entriesValue, pruneValue]
  | double d => simp [entriesValue, pruneValue]
  | string s => simp [entriesValue, pruneValue]
  | undefined => simp [validTree, treeAll, nodeValid] at hv

theorem restoresValue_leaf (m : SettingsMap) (hm : KeySorted m) {v : QJsonValue}
    (hc : v.isContainer = false) (hv : validTree v = true) : RestoresValue m v := by
  intro path key rest log hpath hkey _ hmem hrest _
  obtain ⟨he, hp⟩ := @entriesValue_leaf key v (pathPrefix path) hc hv
  refine ⟨1, v, hp, ?_⟩
  rw [he]
  have hin : (pathPrefix path ++ key, toVariant v) ∈ m := hmem _ (by rw [he]; simp)
  show restoreJsonValue (0 + 1) (path.length + 1)
    (stateAt m ((pathPrefix path ++ key) :: rest) log) = _
  have hsec : (stateAt m ((pathPrefix path ++ key) :: rest) log).sections.length
      ≤ path.length + 1 := by
    show (split (pathPrefix path ++ key)).length ≤ _
    rw [split_pathPrefix hpath, split_noSlash hkey]
    simp
  rw [restoreJsonValue_leaf hsec, restoreJsonSimpleValue_stateAt m _ _ _ hrest,
    mapValue_of_mem hm hin, jsonOfVariant_toVariant hc hv]

theorem restoresValue_object (m : SettingsMap) {ms : List (QString × QJsonValue)}
    (hIH : ∀ x ∈ ms, RestoresValue m x.2)
    (hv : validTree (.object ms) = true) (hs : namesNoSlash (.object ms) = true)
    (hi : namesNotIndex (.object ms) = true) : RestoresValue m (.object ms) := by
  intro path key rest log hpath hkey hB hmem hrest hhead
  obtain ⟨hasc, hval⟩ := validTree_object hv
  obtain ⟨hns, hsl⟩ := namesNoSlash_object hs
  obtain ⟨hni, _⟩ := namesNotIndex_object hi
  rw [entriesValue] at hB hmem ⊢
  rw [← pathPrefix_snoc] at hB hmem ⊢
  have hpath2 : ∀ s ∈ path ++ [key], noSlash s = true := by
    intro s hs
    rcases List.mem_append.mp hs with hs | hs
    · exact hpath s hs
    · simp only [List.mem_singleton] at hs
      rw [hs]; exact hkey
  have hhead2 : ∀ k, rest.head? = some k →
      (split k).take (path ++ [key]).length ≠ path ++ [key] := by
    intro k hk
    rw [List.length_append]
    exact hhead k hk
  obtain ⟨fuel, r, hloop, hrs, hrmem⟩ := objectLoop_restores m ms.length ms rfl hIH
    (path ++ [key]) rest log [] hpath2 hval hsl hasc hns hB hmem hrest hhead2 keySorted_nil
    (by intro a ha; cases ha)
  have hr : r = pruneMembers ms := by
    apply keySorted_ext hrs (pruneMembers_sorted hasc)
    intro e
    rw [hrmem]
    simp
  subst hr
  have hnd := entriesObject_nodup ms (pathPrefix (path ++ [key])) hval hsl hasc hns
  cases hBeq : insertAll (entriesObject ms (pathPrefix (path ++ [key]))) [] with
  | nil => exact absurd hBeq hB
  | cons h tl =>
    have hhE : h ∈ entriesObject ms (pathPrefix (path ++ [key])) :=
      (mem_flat hnd h).1 (hBeq ▸ List.mem_cons_self _ _)
    obtain ⟨x, hx, hex⟩ := entriesObject_mem hhE
    obtain ⟨tail, hsp⟩ := split_inBlock hpath2 (hns x hx) (entriesValue_inBlock hex)
    have hpne : pruneMembers ms ≠ [] := by
      intro e
      have := (entriesObject_eq_nil ms (pathPrefix (path ++ [key]))).2 e
      rw [this] at hhE
      cases hhE
    refine ⟨fuel + 2, .object (pruneMembers ms), ?_, ?_⟩
    · rw [pruneValue]
      cases hp : pruneMembers ms with
      | nil => exact absurd hp hpne
      | cons _ _ => rfl
    · rw [hBeq] at hloop
      have hlen : path.length + 1 = (path ++ [key]).length := by simp
      rw [hlen]
      have hs0 : (stateAt m (mapKeys (h :: tl) ++ rest) log).sections[(path ++ [key]).length]?
          = some x.1 := by
        show (split h.1)[(path ++ [key]).length]? = some x.1
        rw [hsp, getElem?_append_cons]
      apply restoreJsonValue_object hs0 (hni x hx)
      have htake : (stateAt m (mapKeys (h :: tl) ++ rest) log).sections.take
          (path ++ [key]).length = path ++ [key] := by
        show (split h.1).take (path ++ [key]).length = path ++ [key]
        rw [hsp, take_length_append]
      rw [htake]
      exact hloop

theorem restoresValue_array (m : SettingsMap) {xs : List QJsonValue}
    (hIH : ∀ x ∈ xs, RestoresValue m x)
    (hv : validTree (.array xs) = true) (hs : namesNoSlash (.array xs) = true)
    (hb : arraysBounded (.array xs) = true) : RestoresValue m (.array xs) := by
  intro path key rest log hpath hkey hB hmem hrest hhead
  have hval := validTree_array hv
  have hsl := namesNoSlash_array hs
  obtain ⟨hlen, _⟩ := arraysBounded_array hb
  rw [entriesValue] at hB hmem ⊢
  rw [← pathPrefix_snoc] at hB hmem ⊢
  have hpath2 : ∀ s ∈ path ++ [key], noSlash s = true := by
    intro s hs
    rcases List.mem_append.mp hs with hs | hs
    · exact hpath s hs
    · simp only [List.mem_singleton] at hs
      rw [hs]; exact hkey
  have hhead2 : ∀ k, rest.head? = some k →
      (split k).take (path ++ [key]).length ≠ path ++ [key] := by
    intro k hk
    rw [List.length_append]
    exact hhead k hk
  obtain ⟨fuel, hloop⟩ := arrayLoop_restores m xs hIH 0 (path ++ [key]) rest log [] hpath2
    hval hsl (by omega) hB hmem hrest hhead2
  have hnd := entriesArray_nodup xs 0 (pathPrefix (path ++ [key])) hval hsl
  cases hBeq : insertAll (entriesArray xs 0 (pathPrefix (path ++ [key]))) [] with
  | nil => exact absurd hBeq hB
  | cons h tl =>
    have hhE : h ∈ entriesArray xs 0 (pathPrefix (path ++ [key])) :=
      (mem_flat hnd h).1 (hBeq ▸ List.mem_cons_self _ _)
    obtain ⟨c, y, _, hc2, _, hey⟩ := entriesArray_mem hhE
    obtain ⟨tail, hsp⟩ := split_inBlock hpath2 (noSlash_arrItemkey c) (entriesValue_inBlock hey)
    have hpne : pruneItems xs ≠ [] := by
      intro e
      have := (entriesArray_eq_nil xs 0 (pathPrefix (path ++ [key]))).2 e
      rw [this] at hhE
      cases hhE
    refine ⟨fuel + 2, .array (pruneItems xs), ?_, ?_⟩
    · rw [pruneValue]
      cases hp : pruneItems xs with
      | nil => exact absurd hp hpne
      | cons _ _ => rfl
    · rw [hBeq] at hloop
      have hlen2 : path.length + 1 = (path ++ [key]).length := by simp
      rw [hlen2]
      have hs0 : (stateAt m (mapKeys (h :: tl) ++ rest) log).sections[(path ++ [key]).length]?
          = some (arrItemkey c) := by
        show (split h.1)[(path ++ [key]).length]? = some (arrItemkey c)
        rw [hsp, getElem?_append_cons]
      apply restoreJsonValue_array hs0 (getArrayIndex_arrItemkey (by omega))
      have htake : (stateAt m (mapKeys (h :: tl) ++ rest) log).sections.take
          (path ++ [key]).length = path ++ [key] := by
        show (split h.1).take (path ++ [key]).length = path ++ [key]
        rw [hsp, take_length_append]
      rw [htake]
      simpa using hloop

/-- The decoder rebuilds every well-formed value, pruned of its empty
containers, from the keys the encoder made for it. -/
theorem restoresValue (m : SettingsMap) (hm : KeySorted m) :
    ∀ (n : Nat) (v : QJsonValue), sizeOf v ≤ n →
    validTree v = true → namesNoSlash v = true → namesNotIndex v = true →
    arraysBounded v = true → RestoresValue m v := by
  intro n
  induction n with
  | zero =>
    intro v hsz
    cases v <;> simp at hsz
  | succ n ih =>
    intro v hsz hv hs hi hb
    cases v with
    | null => exact restoresValue_leaf m hm rfl hv
    | bool b => exact restoresValue_leaf m hm rfl hv
    | double d => exact restoresValue_leaf m hm rfl hv
    | string s => exact restoresValue_leaf m hm rfl hv
    | undefined => exact restoresValue_leaf m hm rfl hv
    | object ms =>
      apply restoresValue_object m _ hv hs hi
      intro x hx
      have hlt := sizeOf_member_lt hx
      have h1 := (membersAll_iff _ _).1 (validTree_object hv).2 x hx
      have h2 := (membersAll_iff _ _).1 (namesNoSlash_object hs).2 x hx
      have h3 := (membersAll_iff _ _).1 (namesNotIndex_object hi).2 x hx
      have h4 := (membersAll_iff _ _).1 (arraysBounded_object hb) x hx
      exact ih x.2 (by omega) h1 h2 h3 h4
    | array xs =>
      apply restoresValue_array m _ hv hs hb
      intro x hx
      have hlt := sizeOf_item_lt hx
      have h1 := (itemsAll_iff _ _).1 (validTree_array hv) x hx
      have h2 := (itemsAll_iff _ _).1 (namesNoSlash_array hs) x hx
      have h3 := (itemsAll_iff _ _).1 (namesNotIndex_array hi) x hx
      have h4 := (itemsAll_iff _ _).1 (arraysBounded_array hb).2 x hx
      exact ih x (by omega) h1 h2 h3 h4

/-! ## Round trip through the flat map -/

theorem parseJsonObject_eq (ms : List (QString × QJsonValue)) (pfx : QString) (st : EncState) :
    parseJsonObject ms pfx st =
      (!ms.isEmpty,
        { map := insertAll (entriesObject ms pfx) st.map,
          log := st.log ++ (if ms.isEmpty then [Diagnostic.emptyJsonObject pfx]
            else warningsObject ms pfx) }) := by
  unfold parseJsonObject
  cases ms with
  | nil => simp [entriesObject, insertAll]
  | cons x rest => simp [parseJsonObjectLoop_eq]

theorem parseJsonArray_eq (xs : List QJsonValue) (pfx : QString) (st : EncState) :
    parseJsonArray xs pfx st =
      (!xs.isEmpty,
        { map := insertAll (entriesArray xs 0 pfx) st.map,
          log := st.log ++ (if xs.isEmpty then [Diagnostic.emptyJsonArray pfx]
            else warningsArray xs 0 pfx) }) := by
  unfold parseJsonArray
  cases xs with
  | nil => simp [entriesArray, insertAll]
  | cons x rest => simp [parseJsonArrayLoop_eq]

theorem encodeTree_object (ms : List (QString × QJsonValue)) :
    encodeTree (.object ms) = insertAll (entriesObject ms []) [] := by
  simp [encodeTree, readSettingsJson, parseJsonObject_eq]

theorem encodeTree_array (xs : List QJsonValue) :
    encodeTree (.array xs) = insertAll (entriesArray xs 0 []) [] := by
  simp [encodeTree, readSettingsJson, parseJsonArray_eq]

theorem decodeSettings_cons {m : SettingsMap} (hne : m ≠ []) (fuel : Nat) :
    decodeSettings fuel m = restoreJsonValue fuel 0 (stateAt m (mapKeys m ++ []) []) := by
  cases m with
  | nil => exact absurd rfl hne
  | cons e rest => simp [decodeSettings, mapKeys, stateAt]

theorem decodeSettings_nil (fuel : Nat) :
    decodeSettings fuel [] = .ok (QJsonValue.null, stateAt [] [] []) := rfl

/-- Decoding the flat map of a well-formed document returns the document
pruned of its empty containers. -/
theorem decode_encodeTree {t w : QJsonValue} (hc : t.isContainer = true)
    (hv : validTree t = true) (hs : namesNoSlash t = true) (hi : namesNotIndex t = true)
    (hb : arraysBounded t = true) (hp : pruneValue t = some w) :
    ∃ fuel, decodeSettings fuel (encodeTree t)
      = .ok (w, stateAt (encodeTree t) [] []) := by
  cases t with
  | null => simp [QJsonValue.isContainer] at hc
  | bool b => simp [QJsonValue.isContainer] at hc
  | double d => simp [QJsonValue.isContainer] at hc
  | string s => simp [QJsonValue.isContainer] at hc
  | undefined => simp [QJsonValue.isContainer] at hc
  | object ms =>
    obtain ⟨hasc, hval⟩ := validTree_object hv
    obtain ⟨hns, hsl⟩ := namesNoSlash_object hs
    obtain ⟨hni, hnim⟩ := namesNotIndex_object hi
    have hbm := arraysBounded_object hb
    rw [encodeTree_object]
    have hnd := entriesObject_nodup ms [] hval hsl hasc hns
    have hpne : pruneMembers ms ≠ [] := by
      intro e
      rw [pruneValue, e] at hp
      cases hp
    have hB : insertAll (entriesObject ms []) [] ≠ [] := by
      intro e
      exact hpne ((entriesObject_eq_nil ms []).1 ((flat_eq_nil hnd).1 e))
    have hIH : ∀ x ∈ ms, RestoresValue (insertAll (entriesObject ms []) []) x.2 := by
      intro x hx
      exact restoresValue _ (flat_sorted _) (sizeOf x.2) x.2 (le_refl _)
        ((membersAll_iff _ _).1 hval x hx) ((membersAll_iff _ _).1 hsl x hx)
        ((membersAll_iff _ _).1 hnim x hx) ((membersAll_iff _ _).1 hbm x hx)
    obtain ⟨fuel, r, hloop, hrs, hrmem⟩ := objectLoop_restores
      (insertAll (entriesObject ms []) []) ms.length ms rfl hIH [] [] [] []
      (by intro s hs; cases hs) hval hsl hasc hns hB
      (fun e he => (mem_flat hnd e).2 he) (by intro k hk; cases hk)
      (by intro k hk; cases hk) keySorted_nil (by intro a ha; cases ha)
    have hr : r = pruneMembers ms := by
      apply keySorted_ext hrs (pruneMembers_sorted hasc)
      intro e
      rw [hrmem]
      simp
    subst hr
    have hw : w = .object (pruneMembers ms) := by
      rw [pruneValue] at hp
      cases hpm : pruneMembers ms with
      | nil => exact absurd hpm hpne
      | cons a b =>
        rw [hpm] at hp
        cases hp
        rfl
    subst hw
    refine ⟨fuel + 2, ?_⟩
    rw [decodeSettings_cons hB]
    simp only [pathPrefix, List.length_nil] at hloop
    cases hBeq : insertAll (entriesObject ms []) [] with
    | nil => exact absurd hBeq hB
    | cons h tl =>
      rw [hBeq] at hloop
      have hhE : h ∈ entriesObject ms [] := (mem_flat hnd h).1 (hBeq ▸ List.mem_cons_self _ _)
      obtain ⟨x, hx, hex⟩ := entriesObject_mem hhE
      obtain ⟨tail, hsp⟩ := @split_inBlock [] x.1 h.1 (by intro s hs; cases hs) (hns x hx)
        (entriesValue_inBlock hex)
      have hs0 : (stateAt (h :: tl) (mapKeys (h :: tl) ++ []) []).sections[0]? = some x.1 := by
        show (split h.1)[0]? = some x.1
        rw [hsp]
        simp
      exact restoreJsonValue_object hs0 (hni x hx) hloop
  | array xs =>
    have hval := validTree_array hv
    have hsl := namesNoSlash_array hs
    have hnim := namesNotIndex_array hi
    obtain ⟨hlen, hbm⟩ := arraysBounded_array hb
    rw [encodeTree_array]
    have hnd := entriesArray_nodup xs 0 [] hval hsl
    have hpne : pruneItems xs ≠ [] := by
      intro e
      rw [pruneValue, e] at hp
      cases hp
    have hB : insertAll (entriesArray xs 0 []) [] ≠ [] := by
      intro e
      exact hpne ((entriesArray_eq_nil xs 0 []).1 ((flat_eq_nil hnd).1 e))
    have hIH : ∀ x ∈ xs, RestoresValue (insertAll (entriesArray xs 0 []) []) x := by
      intro x hx
      exact restoresValue _ (flat_sorted _) (sizeOf x) x (le_refl _)
        ((itemsAll_iff _ _).1 hval x hx) ((itemsAll_iff _ _).1 hsl x hx)
        ((itemsAll_iff _ _).1 hnim x hx) ((itemsAll_iff _ _).1 hbm x hx)
    obtain ⟨fuel, hloop⟩ := arrayLoop_restores
      (insertAll (entriesArray xs 0 []) []) xs hIH 0 [] [] [] []
      (by intro s hs; cases hs) hval hsl (by omega) hB
      (fun e he => (mem_flat hnd e).2 he) (by intro k hk; cases hk)
      (by intro k hk; cases hk)
    have hw : w = .array (pruneItems xs) := by
      rw [pruneValue] at hp
      cases hpm : pruneItems xs with
      | nil => exact absurd hpm hpne
      | cons a b =>
        rw [hpm] at hp
        cases hp
        rfl
    subst hw
    refine ⟨fuel + 2, ?_⟩
    rw [decodeSettings_cons hB]
    simp only [pathPrefix, List.length_nil, List.nil_append] at hloop
    cases hBeq : insertAll (entriesArray xs 0 []) [] with
    | nil => exact absurd hBeq hB
    | cons h tl =>
      rw [hBeq] at hloop
      have hhE : h ∈ entriesArray xs 0 [] := (mem_flat hnd h).1 (hBeq ▸ List.mem_cons_self _ _)
      obtain ⟨c, y, _, hc2, _, hey⟩ := entriesArray_mem hhE
      obtain ⟨tail, hsp⟩ := @split_inBlock [] (arrItemkey c) h.1 (by intro s hs; cases hs)
        (noSlash_arrItemkey c) (entriesValue_inBlock hey)
      have hs0 : (stateAt (h :: tl) (mapKeys (h :: tl) ++ []) []).sections[0]?
          = some (arrItemkey c) := by
        show (split h.1)[0]? = some (arrItemkey c)
        rw [hsp]
        simp
      exact restoreJsonValue_array hs0 (getArrayIndex_arrItemkey (by omega)) hloop

/-- A document in which nothing remains after pruning has an empty flat map. -/
theorem encodeTree_eq_nil {t : QJsonValue} (hc : t.isContainer = true)
    (hp : pruneValue t = none) : encodeTree t = [] := by
  cases t with
  | null => simp [QJsonValue.isContainer] at hc
  | bool b => simp [QJsonValue.isContainer] at hc
  | double d => simp [QJsonValue.isContainer] at hc
  | string s => simp [QJsonValue.isContainer] at hc
  | undefined => simp [QJsonValue.isContainer] at hc
  | object ms =>
    rw [encodeTree_object]
    have : pruneMembers ms = [] := by
      rw [pruneValue] at hp
      cases hpm : pruneMembers ms with
      | nil => rfl
      | cons a b => rw [hpm] at hp; cases hp
    rw [(entriesObject_eq_nil ms []).2 this]
    rfl
  | array xs =>
    rw [encodeTree_array]
    have : pruneItems xs = [] := by
      rw [pruneValue] at hp
      cases hpm : pruneItems xs with
      | nil => rfl
      | cons a b => rw [hpm] at hp; cases hp
    rw [(entriesArray_eq_nil xs 0 []).2 this]
    rfl

/-! ## Empty containers and the array counter -/

theorem sortedInsert_fresh {β : Type} (x : QString) (e : β) (l : List (QString × β))
    (hx : ∀ m ∈ l, m.1 ≠ x) :
    ∃ l1 l2, l = l1 ++ l2 ∧ sortedInsert x e l = l1 ++ (x, e) :: l2 := by
  induction l with
  | nil => exact ⟨[], [], rfl, rfl⟩
  | cons a rest ih =>
    obtain ⟨k, v⟩ := a
    rw [sortedInsert]
    split
    · exact ⟨[], (k, v) :: rest, rfl, rfl⟩
    · split
      · obtain ⟨l1, l2, h1, h2⟩ := ih (fun m hm => hx m (List.mem_cons_of_mem _ hm))
        exact ⟨(k, v) :: l1, l2, by rw [h1]; rfl, by rw [h2]; rfl⟩
      · rename_i h1 h2
        have hk : x = k := qstrLt_total (by simpa using h1) (by simpa using h2)
        exact absurd hk.symm (hx (k, v) (List.mem_cons_self _ _))

theorem entriesObject_insert_empty (x : QString) (e : QJsonValue)
    (he : isEmptyContainer e = true) (l : List (QString × QJsonValue))
    (hx : ∀ m ∈ l, m.1 ≠ x) (pfx : QString) :
    entriesObject (insertMember x e l) pfx = entriesObject l pfx := by
  have hund : e.isUndefined = false := by
    cases e <;> simp [isEmptyContainer] at he <;> rfl
  rw [insertMember_eq _ _ hund]
  obtain ⟨l1, l2, h1, h2⟩ := sortedInsert_fresh x e l hx
  rw [h2, h1, entriesObject_append, entriesObject_append, entriesObject,
    entriesValue_emptyContainer he]
  rfl

theorem parseJsonArrayLoop_append (pre rest : List QJsonValue) (c : Nat) (pfx : QString)
    (st : EncState) :
    parseJsonArrayLoop (pre ++ rest) c pfx st =
      parseJsonArrayLoop rest (c + keptItems pre) pfx (parseJsonArrayLoop pre c pfx st) := by
  induction pre generalizing c st with
  | nil => simp [keptItems, parseJsonArrayLoop]
  | cons y ys ih =>
    rw [List.cons_append, parseJsonArrayLoop, parseJsonArrayLoop, ih]
    simp only [parseJsonValue_eq]
    cases hy : isEmptyContainer y with
    | true => simp [keptItems, hy]
    | false =>
      simp only [keptItems, hy, Bool.not_false, if_true, List.filter_cons, List.length_cons]
      congr 1
      omega

theorem keys_insertAll (es : List (QString × QVariant)) (m : SettingsMap) (k : QString)
    (h : k ∈ mapKeys (insertAll es m)) : k ∈ es.map Prod.fst ∨ k ∈ mapKeys m := by
  induction es generalizing m with
  | nil => exact Or.inr h
  | cons e rest ih =>
    have h2 : k ∈ mapKeys (insertAll rest (mapInsert e.1 e.2 m)) := h
    rcases ih _ h2 with h3 | h3
    · exact Or.inl (List.mem_cons_of_mem _ h3)
    · obtain ⟨x, hx, rfl⟩ := List.mem_map.mp h3
      rw [mapInsert_eq] at hx
      rcases mem_sortedInsert_imp _ _ _ _ hx with rfl | hx
      · exact Or.inl (List.mem_cons_self _ _)
      · exact Or.inr (List.mem_map_of_mem _ hx)

/-! ## The leaf-path listing -/

theorem joinPath_snoc (path : List QString) (key : QString) :
    joinPath (path ++ [key]) = pathPrefix path ++ key := by
  induction path with
  | nil => rfl
  | cons s rest ih =>
    cases rest with
    | nil => simp [joinPath, pathPrefix]
    | cons t r =>
      have : joinPath (s :: t :: r ++ [key]) = s ++ '/' :: joinPath (t :: r ++ [key]) := by
        simp [joinPath]
      rw [this, ih]
      simp [pathPrefix]

theorem nodeNonEmpty_of_treeAll {v : QJsonValue} (h : treeAll nodeNonEmpty v = true) :
    isEmptyContainer v = false := by
  have := treeAll_node _ _ h
  simpa [nodeNonEmpty] using this

mutual
theorem entriesValue_eq_specLeaves (key : QString) : ∀ (v : QJsonValue) (path : List QString),
    noEmptyContainer v = true →
    entriesValue key v (pathPrefix path) = specLeaves v (path ++ [key])
  | .object ms, path, h => by
    unfold noEmptyContainer at h
    rw [treeAll_object, Bool.and_eq_true] at h
    rw [entriesValue, specLeaves, ← pathPrefix_snoc]
    exact entriesObject_eq_specLeaves ms _ h.2
  | .array xs, path, h => by
    unfold noEmptyContainer at h
    rw [treeAll_array, Bool.and_eq_true] at h
    rw [entriesValue, specLeaves, ← pathPrefix_snoc]
    exact entriesArray_eq_specLeaves xs 0 _ h.2
  | .undefined, path, _ => by
    simp [entriesValue, specLeaves, joinPath_snoc, toVariant]
  | .null, path, _ => by simp [entriesValue, specLeaves, joinPath_snoc]
  | .bool b, path, _ => by simp [entriesValue, specLeaves, joinPath_snoc]
  | .double d, path, _ => by simp [entriesValue, specLeaves, joinPath_snoc]
  | .string s, path, _ => by simp [entriesValue, specLeaves, joinPath_snoc]
theorem entriesArray_eq_specLeaves : ∀ (xs : List QJsonValue) (c : Nat) (path : List QString),
    itemsAll nodeNonEmpty xs = true →
    entriesArray xs c (pathPrefix path) = specLeavesItems xs c path
  | [], _, _, _ => by simp [entriesArray, specLeavesItems]
  | x :: rest, c, path, h => by
    rw [itemsAll_cons, Bool.and_eq_true] at h
    rw [entriesArray, specLeavesItems, entriesValue_eq_specLeaves _ x path h.1,
      nodeNonEmpty_of_treeAll h.1]
    simp only [Bool.false_eq_true, if_false]
    rw [entriesArray_eq_specLeaves rest (c + 1) path h.2]
theorem entriesObject_eq_specLeaves : ∀ (ms : List (QString × QJsonValue))
    (path : List QString), membersAll nodeNonEmpty ms = true →
    entriesObject ms (pathPrefix path) = specLeavesMembers ms path
  | [], _, _ => by simp [entriesObject, specLeavesMembers]
  | (k, v) :: rest, path, h => by
    rw [membersAll_cons, Bool.and_eq_true] at h
    rw [entriesObject, specLeavesMembers, entriesValue_eq_specLeaves k v path h.1,
      entriesObject_eq_specLeaves rest path h.2]
end

theorem flat_perm {es : List (QString × QVariant)} (hnd : (es.map Prod.fst).Nodup) :
    (insertAll es []).Perm es := by
  rw [List.perm_ext_iff_of_nodup (keySorted_nodup (flat_sorted es)) (List.Nodup.of_map _ hnd)]
  exact mem_flat hnd

theorem encodeTree_eq_entriesNode {t : QJsonValue} (hc : t.isContainer = true) :
    encodeTree t = insertAll (entriesNode [] t) [] := by
  cases t with
  | object ms => exact encodeTree_object ms
  | array xs => exact encodeTree_array xs
  | null => simp [QJsonValue.isContainer] at hc
  | bool b => simp [QJsonValue.isContainer] at hc
  | double d => simp [QJsonValue.isContainer] at hc
  | string s => simp [QJsonValue.isContainer] at hc
  | undefined => simp [QJsonValue.isContainer] at hc

theorem entriesNode_nodup {t : QJsonValue} (q : QString) (hv : validTree t = true)
    (hs : namesNoSlash t = true) : ((entriesNode q t).map Prod.fst).Nodup := by
  cases t with
  | object ms =>
    obtain ⟨h1, h2⟩ := validTree_object hv
    obtain ⟨h3, h4⟩ := namesNoSlash_object hs
    exact entriesObject_nodup ms _ h2 h4 h1 h3
  | array xs => exact entriesArray_nodup xs 0 _ (validTree_array hv) (namesNoSlash_array hs)
  | null => simp [entriesNode]
  | bool b => simp [entriesNode]
  | double d => simp [entriesNode]
  | string s => simp [entriesNode]
  | undefined => simp [entriesNode]

theorem entriesNode_eq_specLeaves {t : QJsonValue} (hc : t.isContainer = true)
    (hne : noEmptyContainer t = true) : entriesNode [] t = specLeaves t [] := by
  cases t with
  | object ms =>
    unfold noEmptyContainer at hne
    rw [treeAll_object, Bool.and_eq_true] at hne
    rw [entriesNode, specLeaves]
    exact entriesObject_eq_specLeaves ms [] hne.2
  | array xs =>
    unfold noEmptyContainer at hne
    rw [treeAll_array, Bool.and_eq_true] at hne
    rw [entriesNode, specLeaves]
    exact entriesArray_eq_specLeaves xs 0 [] hne.2
  | null => simp [QJsonValue.isContainer] at hc
  | bool b => simp [QJsonValue.isContainer] at hc
  | double d => simp [QJsonValue.isContainer] at hc
  | string s => simp [QJsonValue.isContainer] at hc
  | undefined => simp [QJsonValue.isContainer] at hc

/-! ## Arrays of scalars -/

/-- In a sorted map, once an entry satisfies a convex key predicate, the later
entries satisfying it form an initial run. -/
theorem filter_isPrefix_of_sorted {β : Type} (P : QString → Bool)
    (hconv : ∀ a b c, P a = true → P c = true → qstrLt a b = true → qstrLt b c = true →
      P b = true) :
    ∀ (l : List (QString × β)) (x : QString × β), KeySorted (x :: l) → P x.1 = true →
      l.filter (fun e => P e.1) <+: l
  | [], _, _, _ => by simp
  | y :: l, x, hs, hx => by
    have hs2 : KeySorted (y :: l) := by
      unfold KeySorted at hs ⊢
      exact (List.pairwise_cons.1 hs).2
    by_cases hy : P y.1 = true
    · rw [List.filter_cons_of_pos (p := fun e : QString × β => P e.1) hy]
      exact (List.prefix_cons_inj y).2 (filter_isPrefix_of_sorted P hconv l y hs2 hy)
    · have hnone : l.filter (fun e => P e.1) = [] := by
        rw [List.filter_eq_nil_iff]
        intro z hz hPz
        exact hy (hconv x.1 y.1 z.1 hx hPz (keySorted_head_lt hs (List.mem_cons_self _ _))
          (keySorted_head_lt hs2 hz))
      rw [List.filter_cons_of_neg (p := fun e : QString × β => P e.1) hy, hnone]
      exact List.nil_prefix

/-- In a sorted map, the entries satisfying a convex key predicate form one
contiguous run. -/
theorem filter_isInfix_of_sorted {β : Type} (P : QString → Bool)
    (hconv : ∀ a b c, P a = true → P c = true → qstrLt a b = true → qstrLt b c = true →
      P b = true) :
    ∀ (l : List (QString × β)), KeySorted l → l.filter (fun e => P e.1) <:+: l
  | [], _ => by simp
  | x :: l, hs => by
    have hs2 : KeySorted l := by
      unfold KeySorted at hs ⊢
      exact (List.pairwise_cons.1 hs).2
    by_cases hx : P x.1 = true
    · rw [List.filter_cons_of_pos (p := fun e : QString × β => P e.1) hx]
      exact ((List.prefix_cons_inj x).2 (filter_isPrefix_of_sorted P hconv l x hs hx)).isInfix
    · rw [List.filter_cons_of_neg (p := fun e : QString × β => P e.1) hx]
      exact (filter_isInfix_of_sorted P hconv l hs2).trans (List.suffix_cons x l).isInfix

theorem isPrefixOf_convex (q a b c : QString) (ha : q.isPrefixOf a = true)
    (hc : q.isPrefixOf c = true) (hab : qstrLt a b = true) (hbc : qstrLt b c = true) :
    q.isPrefixOf b = true := by
  rw [List.isPrefixOf_iff_prefix] at ha hc ⊢
  exact prefix_convex ha hc (qstrLt_asymm hab) (qstrLt_asymm hbc)

theorem inBlock_of_isPrefix {pfx k q e : QString} (hq : (pfx ++ k ++ ['/']) <+: q)
    (he : q <+: e) : inBlock pfx k e :=
  Or.inr (hq.trans he)

mutual
theorem containersValue_treeAll (p : QJsonValue → Bool) (key : QString) :
    ∀ (v : QJsonValue) (pfx : QString), treeAll p v = true →
      ∀ q N, (q, N) ∈ containersValue key v pfx → treeAll p N = true
  | .object ms, pfx, h, q, N, hm => by
    rw [containersValue, List.mem_cons] at hm
    rcases hm with hm | hm
    · rw [(Prod.mk.inj hm).2]
      exact h
    · rw [treeAll_object, Bool.and_eq_true] at h
      exact containersObject_treeAll p ms _ h.2 q N hm
  | .array xs, pfx, h, q, N, hm => by
    rw [containersValue, List.mem_cons] at hm
    rcases hm with hm | hm
    · rw [(Prod.mk.inj hm).2]
      exact h
    · rw [treeAll_array, Bool.and_eq_true] at h
      exact containersArray_treeAll p xs 0 _ h.2 q N hm
  | .null, _, _, _, _, hm => by simp [containersValue] at hm
  | .bool _, _, _, _, _, hm => by simp [containersValue] at hm
  | .double _, _, _, _, _, hm => by simp [containersValue] at hm
  | .string _, _, _, _, _, hm => by simp [containersValue] at hm
  | .undefined, _, _, _, _, hm => by simp [containersValue] at hm
theorem containersArray_treeAll (p : QJsonValue → Bool) :
    ∀ (xs : List QJsonValue) (c : Nat) (pfx : QString), itemsAll p xs = true →
      ∀ q N, (q, N) ∈ containersArray xs c pfx → treeAll p N = true
  | [], _, _, _, _, _, hm => by simp [containersArray] at hm
  | x :: rest, c, pfx, h, q, N, hm => by
    rw [itemsAll_cons, Bool.and_eq_true] at h
    rw [containersArray, List.mem_append] at hm
    rcases hm with hm | hm
    · exact containersValue_treeAll p _ x pfx h.1 q N hm
    · exact containersArray_treeAll p rest _ pfx h.2 q N hm
theorem containersObject_treeAll (p : QJsonValue → Bool) :
    ∀ (ms : List (QString × QJsonValue)) (pfx : QString), membersAll p ms = true →
      ∀ q N, (q, N) ∈ containersObject ms pfx → treeAll p N = true
  | [], _, _, _, _, hm => by simp [containersObject] at hm
  | (k, v) :: rest, pfx, h, q, N, hm => by
    rw [membersAll_cons, Bool.and_eq_true] at h
    rw [containersObject, List.mem_append] at hm
    rcases hm with hm | hm
    · exact containersValue_treeAll p k v pfx h.1 q N hm
    · exact containersObject_treeAll p rest pfx h.2 q N hm
end

theorem containersValue_emptyContainer {key : QString} {v : QJsonValue} {pfx q : QString}
    {N : QJsonValue} (he : isEmptyContainer v = true) (hm : (q, N) ∈ containersValue key v pfx) :
    N = v := by
  cases v with
  | object ms =>
    cases ms with
    | nil =>
      simp only [containersValue, containersObject, List.mem_singleton] at hm
      exact (Prod.mk.inj hm).2
    | cons m rest => simp [isEmptyContainer] at he
  | array xs =>
    cases xs with
    | nil =>
      simp only [containersValue, containersArray, List.mem_singleton] at hm
      exact (Prod.mk.inj hm).2
    | cons m rest => simp [isEmptyContainer] at he
  | null => simp [isEmptyContainer] at he
  | bool b => simp [isEmptyContainer] at he
  | double d => simp [isEmptyContainer] at he
  | string s => simp [isEmptyContainer] at he
  | undefined => simp [isEmptyContainer] at he

mutual
/-- The insertions made for a container node below a value are insertions made
for the value, and, unless the node is empty, they are all the insertions
whose key starts with the node's prefix. -/
theorem containersValue_entries (key : QString) :
    ∀ (v : QJsonValue) (pfx : QString), treeAll nodeValid v = true →
      treeAll nodeNoSlash v = true →
      ∀ q N, (q, N) ∈ containersValue key v pfx →
        (pfx ++ key ++ ['/']) <+: q ∧
        (∀ e ∈ entriesNode q N, e ∈ entriesValue key v pfx) ∧
        (isEmptyContainer N = false → ∀ e ∈ entriesValue key v pfx, q <+: e.1 →
          e ∈ entriesNode q N)
  | .object ms, pfx, hv, hs, q, N, hm => by
    rw [containersValue, List.mem_cons] at hm
    rcases hm with hm | hm
    · obtain ⟨h1, h2⟩ := Prod.mk.inj hm
      subst h1 h2
      exact ⟨List.prefix_refl _, fun e he => he, fun _ e he _ => he⟩
    · obtain ⟨h1, h2⟩ := validTree_object hv
      obtain ⟨h3, h4⟩ := namesNoSlash_object hs
      obtain ⟨⟨m, _, hq⟩, hsub, hall⟩ := containersObject_entries ms _ h2 h4 h1 h3 q N hm
      refine ⟨?_, ?_, ?_⟩
      · exact (List.prefix_append _ _).trans ((List.prefix_append _ _).trans hq)
      · intro e he
        rw [entriesValue]
        exact hsub e he
      · intro hne e he hqe
        rw [entriesValue] at he
        exact hall hne e he hqe
  | .array xs, pfx, hv, hs, q, N, hm => by
    rw [containersValue, List.mem_cons] at hm
    rcases hm with hm | hm
    · obtain ⟨h1, h2⟩ := Prod.mk.inj hm
      subst h1 h2
      exact ⟨List.prefix_refl _, fun e he => he, fun _ e he _ => he⟩
    · obtain ⟨⟨c, _, hq⟩, hsub, hall⟩ :=
        containersArray_entries xs 0 _ (validTree_array hv) (namesNoSlash_array hs) q N hm
      refine ⟨?_, ?_, ?_⟩
      · exact (List.prefix_append _ _).trans ((List.prefix_append _ _).trans hq)
      · intro e he
        rw [entriesValue]
        exact hsub e he
      · intro hne e he hqe
        rw [entriesValue] at he
        exact hall hne e he hqe
  | .null, _, _, _, _, _, hm => by simp [containersValue] at hm
  | .bool _, _, _, _, _, _, hm => by simp [containersValue] at hm
  | .double _, _, _, _, _, _, hm => by simp [containersValue] at hm
  | .string _, _, _, _, _, _, hm => by simp [containersValue] at hm
  | .undefined, _, _, _, _, _, hm => by simp [containersValue] at hm
theorem containersArray_entries :
    ∀ (xs : List QJsonValue) (c : Nat) (pfx : QString), itemsAll nodeValid xs = true →
      itemsAll nodeNoSlash xs = true →
      ∀ q N, (q, N) ∈ containersArray xs c pfx →
        (∃ c2, c ≤ c2 ∧ (pfx ++ arrItemkey c2 ++ ['/']) <+: q) ∧
        (∀ e ∈ entriesNode q N, e ∈ entriesArray xs c pfx) ∧
        (isEmptyContainer N = false → ∀ e ∈ entriesArray xs c pfx, q <+: e.1 →
          e ∈ entriesNode q N)
  | [], _, _, _, _, _, _, hm => by simp [containersArray] at hm
  | x :: rest, c, pfx, hv, hs, q, N, hm => by
    rw [itemsAll_cons, Bool.and_eq_true] at hv hs
    rw [containersArray, List.mem_append] at hm
    rcases hm with hm | hm
    · obtain ⟨hq, hsub, hall⟩ := containersValue_entries _ x pfx hv.1 hs.1 q N hm
      refine ⟨⟨c, le_refl _, hq⟩, ?_, ?_⟩
      · intro e he
        rw [entriesArray, List.mem_append]
        exact Or.inl (hsub e he)
      · intro hne e he hqe
        rw [entriesArray, List.mem_append] at he
        rcases he with he | he
        · exact hall hne e he hqe
        · exfalso
          have hx : isEmptyContainer x = false := by
            cases hx : isEmptyContainer x with
            | false => rfl
            | true =>
              rw [containersValue_emptyContainer hx hm, hx] at hne
              cases hne
          rw [hx] at he
          simp only [Bool.false_eq_true, if_false] at he
          obtain ⟨c2, y, hc2, _, _, hy⟩ := entriesArray_mem he
          have hne2 : arrItemkey c ≠ arrItemkey c2 := by
            intro h
            have := arrItemkey_injective h
            omega
          exact inBlock_disjoint (noSlash_arrItemkey c) (noSlash_arrItemkey c2) hne2
            (inBlock_of_isPrefix hq hqe) (entriesValue_inBlock hy)
    · obtain ⟨⟨c2, hc2, hq⟩, hsub, hall⟩ :=
        containersArray_entries rest _ pfx hv.2 hs.2 q N hm
      refine ⟨⟨c2, ?_, hq⟩, ?_, ?_⟩
      · split at hc2 <;> omega
      · intro e he
        rw [entriesArray, List.mem_append]
        exact Or.inr (hsub e he)
      · intro hne e he hqe
        rw [entriesArray, List.mem_append] at he
        rcases he with he | he
        · exfalso
          have hx : isEmptyContainer x = false := by
            cases hx : isEmptyContainer x with
            | false => rfl
            | true =>
              rw [entriesValue_emptyContainer hx] at he
              cases he
          rw [hx] at hc2
          simp only [Bool.false_eq_true, if_false] at hc2
          have hne2 : arrItemkey c2 ≠ arrItemkey c := by
            intro h
            have := arrItemkey_injective h
            omega
          exact inBlock_disjoint (noSlash_arrItemkey c2) (noSlash_arrItemkey c) hne2
            (inBlock_of_isPrefix hq hqe) (entriesValue_inBlock he)
        · exact hall hne e he hqe
theorem containersObject_entries :
    ∀ (ms : List (QString × QJsonValue)) (pfx : QString), membersAll nodeValid ms = true →
      membersAll nodeNoSlash ms = true → ascending (ms.map Prod.fst) = true →
      (∀ m ∈ ms, noSlash m.1 = true) →
      ∀ q N, (q, N) ∈ containersObject ms pfx →
        (∃ m ∈ ms, (pfx ++ m.1 ++ ['/']) <+: q) ∧
        (∀ e ∈ entriesNode q N, e ∈ entriesObject ms pfx) ∧
        (isEmptyContainer N = false → ∀ e ∈ entriesObject ms pfx, q <+: e.1 →
          e ∈ entriesNode q N)
  | [], _, _, _, _, _, _, _, hm => by simp [containersObject] at hm
  | (k, v) :: rest, pfx, hv, hs, hasc, hns, q, N, hm => by
    rw [membersAll_cons, Bool.and_eq_true] at hv hs
    rw [List.map_cons, ascending_cons] at hasc
    have hk : noSlash k = true := hns (k, v) (List.mem_cons_self _ _)
    have hrest : ∀ m ∈ rest, noSlash m.1 = true := fun m hm => hns m (List.mem_cons_of_mem _ hm)
    have hdist : ∀ m ∈ rest, k ≠ m.1 := by
      intro m hm h
      have := hasc.1 m.1 (List.mem_map_of_mem _ hm)
      rw [← h, qstrLt_irrefl] at this
      cases this
    rw [containersObject, List.mem_append] at hm
    rcases hm with hm | hm
    · obtain ⟨hq, hsub, hall⟩ := containersValue_entries k v pfx hv.1 hs.1 q N hm
      refine ⟨⟨(k, v), List.mem_cons_self _ _, hq⟩, ?_, ?_⟩
      · intro e he
        rw [entriesObject, List.mem_append]
        exact Or.inl (hsub e he)
      · intro hne e he hqe
        rw [entriesObject, List.mem_append] at he
        rcases he with he | he
        · exact hall hne e he hqe
        · exfalso
          obtain ⟨m, hm2, hy⟩ := entriesObject_mem he
          exact inBlock_disjoint hk (hrest m hm2) (hdist m hm2)
            (inBlock_of_isPrefix hq hqe) (entriesValue_inBlock hy)
    · obtain ⟨⟨m, hm2, hq⟩, hsub, hall⟩ :=
        containersObject_entries rest pfx hv.2 hs.2 hasc.2 hrest q N hm
      refine ⟨⟨m, List.mem_cons_of_mem _ hm2, hq⟩, ?_, ?_⟩
      · intro e he
        rw [entriesObject, List.mem_append]
        exact Or.inr (hsub e he)
      · intro hne e he hqe
        rw [entriesObject, List.mem_append] at he
        rcases he with he | he
        · exfalso
          exact inBlock_disjoint (hrest m hm2) hk (fun h => hdist m hm2 h.symm)
            (inBlock_of_isPrefix hq hqe) (entriesValue_inBlock he)
        · exact hall hne e he hqe
end

theorem entriesNode_pfx {q : QString} {N : QJsonValue} {e : QString × QVariant}
    (h : e ∈ entriesNode q N) : q <+: e.1 := by
  cases N with
  | object ms => exact entriesObject_pfx ms q e h
  | array xs => exact entriesArray_pfx xs 0 q e h
  | null => simp [entriesNode] at h
  | bool b => simp [entriesNode] at h
  | double d => simp [entriesNode] at h
  | string s => simp [entriesNode] at h
  | undefined => simp [entriesNode] at h

theorem encodeNode_eq (q : QString) (N : QJsonValue) :
    encodeNode q N = insertAll (entriesNode q N) [] := by
  cases N with
  | object ms => simp [encodeNode, entriesNode, parseJsonObject_eq]
  | array xs => simp [encodeNode, entriesNode, parseJsonArray_eq]
  | null => rfl
  | bool b => rfl
  | double d => rfl
  | string s => rfl
  | undefined => rfl

theorem encodeNode_emptyContainer {q : QString} {N : QJsonValue}
    (h : isEmptyContainer N = true) : encodeNode q N = [] := by
  rw [encodeNode_eq]
  cases N with
  | object ms =>
    cases ms with
    | nil => rfl
    | cons m rest => simp [isEmptyContainer] at h
  | array xs =>
    cases xs with
    | nil => rfl
    | cons m rest => simp [isEmptyContainer] at h
  | null => rfl
  | bool b => rfl
  | double d => rfl
  | string s => rfl
  | undefined => rfl

/-- The container nodes of a document, with what they insert: a part of the
document's insertions, and for a non-empty node all those whose key starts
with the node's prefix. -/
theorem containerNodes_entries {t : QJsonValue} (hv : validTree t = true)
    (hs : namesNoSlash t = true) {q : QString} {N : QJsonValue}
    (hm : (q, N) ∈ containerNodes t) :
    validTree N = true ∧ namesNoSlash N = true ∧
    (∀ e ∈ entriesNode q N, e ∈ entriesNode [] t) ∧
    (isEmptyContainer N = false → ∀ e ∈ entriesNode [] t, q <+: e.1 → e ∈ entriesNode q N) := by
  cases t with
  | object ms =>
    rw [containerNodes, List.mem_cons] at hm
    rcases hm with hm | hm
    · obtain ⟨h1, h2⟩ := Prod.mk.inj hm
      subst h1 h2
      exact ⟨hv, hs, fun e he => he, fun _ e he _ => he⟩
    · obtain ⟨h1, h2⟩ := validTree_object hv
      obtain ⟨h3, h4⟩ := namesNoSlash_object hs
      obtain ⟨_, hsub, hall⟩ := containersObject_entries ms _ h2 h4 h1 h3 q N hm
      exact ⟨containersObject_treeAll _ ms _ h2 q N hm,
        containersObject_treeAll _ ms _ h4 q N hm, hsub, hall⟩
  | array xs =>
    rw [containerNodes, List.mem_cons] at hm
    rcases hm with hm | hm
    · obtain ⟨h1, h2⟩ := Prod.mk.inj hm
      subst h1 h2
      exact ⟨hv, hs, fun e he => he, fun _ e he _ => he⟩
    · have h2 := validTree_array hv
      have h4 := namesNoSlash_array hs
      obtain ⟨_, hsub, hall⟩ := containersArray_entries xs 0 _ h2 h4 q N hm
      exact ⟨containersArray_treeAll _ xs 0 _ h2 q N hm,
        containersArray_treeAll _ xs 0 _ h4 q N hm, hsub, hall⟩
  | null => simp [containerNodes] at hm
  | bool b => simp [containerNodes] at hm
  | double d => simp [containerNodes] at hm
  | string s => simp [containerNodes] at hm
  | undefined => simp [containerNodes] at hm

theorem isContainer_of_containerNodes {t : QJsonValue} {x : QString × QJsonValue}
    (hm : x ∈ containerNodes t) : t.isContainer = true := by
  cases t with
  | object ms => rfl
  | array xs => rfl
  | null => simp [containerNodes] at hm
  | bool b => simp [containerNodes] at hm
  | double d => simp [containerNodes] at hm
  | string s => simp [containerNodes] at hm
  | undefined => simp [containerNodes] at hm

/-- The flat map of a non-empty container node is the part of the document's
flat map whose keys start with the node's prefix. -/
theorem encodeNode_eq_filter {t : QJsonValue} (hv : validTree t = true)
    (hs : namesNoSlash t = true) {q : QString} {N : QJsonValue}
    (hm : (q, N) ∈ containerNodes t) (hne : isEmptyContainer N = false) :
    encodeNode q N = (encodeTree t).filter (fun e => q.isPrefixOf e.1) := by
  obtain ⟨hvN, hsN, hsub, hall⟩ := containerNodes_entries hv hs hm
  rw [encodeNode_eq, encodeTree_eq_entriesNode (isContainer_of_containerNodes hm)]
  apply keySorted_ext (flat_sorted _)
  · have := flat_sorted (entriesNode [] t)
    unfold KeySorted at this ⊢
    exact this.sublist (List.filter_sublist _)
  · intro e
    rw [mem_flat (entriesNode_nodup q hvN hsN), List.mem_filter,
      mem_flat (entriesNode_nodup [] hv hs), List.isPrefixOf_iff_prefix]
    exact ⟨fun h => ⟨hsub e h, entriesNode_pfx h⟩, fun h => hall hne e h.1 h.2⟩

/-! ## A value stored at a group prefix -/

theorem qstrLt_append_cons (p : QString) (c : Char) (r : QString) :
    qstrLt p (p ++ c :: r) = true := by
  have h := qstrLt_append_left p [] (c :: r)
  rw [List.append_nil] at h
  rw [h]
  rfl

theorem jsonOfVariant_not_undefined (v : QVariant) : (jsonOfVariant v).isUndefined = false := by
  cases v <;> rfl

theorem insertMember_nil {key : QString} {v : QJsonValue} (h : v.isUndefined = false) :
    insertMember key v [] = [(key, v)] := by
  simp [insertMember, h]

theorem insertMember_same {key : QString} {v w : QJsonValue} (h : v.isUndefined = false)
    (rest : List (QString × QJsonValue)) :
    insertMember key v ((key, w) :: rest) = (key, v) :: rest := by
  simp [insertMember, qstrLt_irrefl, h]

/-- Decoding `{k -> v1, k/m -> v2}`: the member `k` is first set to `v1` and
then replaced by the Object built from `k/m`. -/
theorem decodeSettings_shadowMap (k m : QString) (v1 v2 : QVariant) (n : Nat)
    (hk : noSlash k = true) (hm : noSlash m = true)
    (hik : (getArrayIndex k).2 = false) (him : (getArrayIndex m).2 = false) :
    decodeSettings (n + 8) (shadowMap k m v1 v2) =
      .ok (.object [(k, .object [(m, jsonOfVariant v2)])],
        stateAt (shadowMap k m v1 v2) [] []) := by
  have hne : k ≠ k ++ '/' :: m := by
    intro h
    have := congrArg List.length h
    simp at this
  have hs2 : split (k ++ '/' :: m) = [k, m] := by
    rw [split_append_slash hk, split_noSlash hm]
  have hv1 : mapValue (shadowMap k m v1 v2) k = v1 := by
    simp [mapValue, shadowMap]
  have hv2 : mapValue (shadowMap k m v1 v2) (k ++ '/' :: m) = v2 := by
    simp [mapValue, shadowMap, List.find?, hne]
  have hkeys : mapKeys (shadowMap k m v1 v2) = [k, k ++ '/' :: m] := rfl
  have hmem : ∀ x ∈ [k ++ '/' :: m], x ∈ mapKeys (shadowMap k m v1 v2) := by
    intro x hx
    rw [hkeys]
    exact List.mem_cons_of_mem _ hx
  -- the states the decoder goes through
  have hsec0 : (stateAt (shadowMap k m v1 v2) [k, k ++ '/' :: m] []).sections = [k] := by
    simp [stateAt, split_noSlash hk]
  have hsec1 : (stateAt (shadowMap k m v1 v2) [k ++ '/' :: m] []).sections = [k, m] := by
    simp [stateAt, hs2]
  have hne0 : (stateAt (shadowMap k m v1 v2) [k, k ++ '/' :: m] []).keysWL.isEmpty = false := rfl
  have hne1 : (stateAt (shadowMap k m v1 v2) [k ++ '/' :: m] []).keysWL.isEmpty = false := rfl
  have leaf2 : restoreJsonValue (n + 1) 2 (stateAt (shadowMap k m v1 v2) [k ++ '/' :: m] [])
      = .ok (jsonOfVariant v2, stateAt (shadowMap k m v1 v2) [] []) := by
    rw [restoreJsonValue_leaf (by rw [hsec1]; simp),
      restoreJsonSimpleValue_stateAt _ _ _ _ (by simp), hv2]
  have inner : restoreJsonObjectLoop (n + 2) [k] 1 []
      (stateAt (shadowMap k m v1 v2) [k ++ '/' :: m] [])
      = .ok ([(m, jsonOfVariant v2)], stateAt (shadowMap k m v1 v2) [] []) := by
    rw [restoreJsonObjectLoop_step hne1 (by rw [hsec1]; rfl) leaf2]
    simp [stateAt, insertMember_nil (jsonOfVariant_not_undefined v2)]
  have val2 : restoreJsonValue (n + 4) 1 (stateAt (shadowMap k m v1 v2) [k ++ '/' :: m] [])
      = .ok (.object [(m, jsonOfVariant v2)], stateAt (shadowMap k m v1 v2) [] []) := by
    refine restoreJsonValue_object (by rw [hsec1]; rfl) him ?_
    rw [hsec1]
    exact inner
  have leaf1 : restoreJsonValue (n + 5) 1 (stateAt (shadowMap k m v1 v2) [k, k ++ '/' :: m] [])
      = .ok (jsonOfVariant v1, stateAt (shadowMap k m v1 v2) [k ++ '/' :: m] []) := by
    rw [restoreJsonValue_leaf (by rw [hsec0]; simp),
      restoreJsonSimpleValue_stateAt _ _ _ _ hmem, hv1]
  have second : restoreJsonObjectLoop (n + 5) [] 0 [(k, jsonOfVariant v1)]
      (stateAt (shadowMap k m v1 v2) [k ++ '/' :: m] [])
      = .ok ([(k, .object [(m, jsonOfVariant v2)])], stateAt (shadowMap k m v1 v2) [] []) := by
    rw [restoreJsonObjectLoop_step hne1 (by rw [hsec1]; rfl) val2]
    have hrep : insertMember k (QJsonValue.object [(m, jsonOfVariant v2)]) [(k, jsonOfVariant v1)]
        = [(k, QJsonValue.object [(m, jsonOfVariant v2)])] :=
      insertMember_same (by rfl) []
    simp [stateAt, hrep]
  have outer : restoreJsonObjectLoop (n + 6) [] 0 []
      (stateAt (shadowMap k m v1 v2) [k, k ++ '/' :: m] [])
      = .ok ([(k, .object [(m, jsonOfVariant v2)])], stateAt (shadowMap k m v1 v2) [] []) := by
    rw [restoreJsonObjectLoop_step hne0 (by rw [hsec0]; rfl) leaf1]
    have hcont : ((stateAt (shadowMap k m v1 v2) [k ++ '/' :: m] []).keysWL.isEmpty
        || decide (([] : List QString).length
            > (stateAt (shadowMap k m v1 v2) [k ++ '/' :: m] []).sections.length)
        || decide (([] : List QString)
            ≠ (stateAt (shadowMap k m v1 v2) [k ++ '/' :: m] []).sections.take 0)) = false := by
      simp [stateAt]
    rw [hcont]
    simp only [Bool.false_eq_true, if_false, insertMember_nil (jsonOfVariant_not_undefined v1)]
    exact second
  have hdec : decodeSettings (n + 8) (shadowMap k m v1 v2)
      = restoreJsonValue (n + 8) 0 (stateAt (shadowMap k m v1 v2) [k, k ++ '/' :: m] []) := by
    rw [decodeSettings_cons (by simp [shadowMap])]
    rfl
  rw [hdec]
  refine restoreJsonValue_object (by rw [hsec0]; rfl) hik ?_
  rw [hsec0]
  exact outer

/-! ## Progress of the decoder's cursor -/

theorem mapValue_mapInsert (m : SettingsMap) (k : QString) (v : QVariant)
    (h : m.find? (fun e => e.1 = k) = none) : mapValue (mapInsert k v m) k = v := by
  induction m with
  | nil => simp [mapInsert, mapValue]
  | cons e rest ih =>
    obtain ⟨k2, v2⟩ := e
    have hne : ¬ k2 = k := by
      intro he
      simp [List.find?, he] at h
    have hrest : rest.find? (fun e => e.1 = k) = none := by
      simpa [List.find?, hne] using h
    rw [mapInsert]
    by_cases h1 : qstrLt k k2 = true
    · simp [h1, mapValue]
    · by_cases h2 : qstrLt k2 k = true
      · have := ih hrest
        unfold mapValue at this ⊢
        simp only [h1, h2, if_true, if_false, Bool.false_eq_true]
        rw [List.find?_cons_of_neg _ (by simpa using hne)]
        exact this
      · simp [h1, h2, mapValue]

theorem mapValue_mapIndex (m : SettingsMap) (k : QString) :
    mapValue (mapIndex m k).2 k = (mapIndex m k).1 := by
  unfold mapIndex
  cases hf : m.find? (fun e => e.1 = k) with
  | some e => simp [mapValue, hf]
  | none => exact mapValue_mapInsert m k _ hf

theorem mapIndex_snd_of_mem {m : SettingsMap} {k : QString} (h : k ∈ mapKeys m) :
    (mapIndex m k).2 = m := by
  rw [mapIndex_of_mem h]

/-- The leaf rule on a non-empty cursor. -/
theorem restoreJsonSimpleValue_cons (st : DecState) (k : QString) (keys : List QString)
    (hk : st.keysWL = k :: keys) :
    restoreJsonSimpleValue st =
      .ok (jsonOfVariant st.value, stateAt (mapAtNext st.map keys) keys st.log) := by
  obtain ⟨map, keysWL, sections, value, log⟩ := st
  simp only at hk
  subst hk
  cases keys with
  | nil => rfl
  | cons k2 rest =>
    simp only [restoreJsonSimpleValue, stateAt, jsonOfVariant, mapAtNext, mapValue_mapIndex]

theorem synced_stateAt (m : SettingsMap) (keys : List QString) (log : List Diagnostic) :
    Synced (stateAt m keys log) := rfl

theorem restoreJsonSimpleValue_advances {st : DecState} {r : QJsonValue × DecState}
    (hne : st.keysWL ≠ []) (h : restoreJsonSimpleValue st = .ok r) : Advances st r.2 := by
  cases hk : st.keysWL with
  | nil => exact absurd hk hne
  | cons k keys =>
    rw [restoreJsonSimpleValue_cons st k keys hk] at h
    rw [← Except.ok.inj h]
    refine ⟨⟨[k], by simp, ?_⟩, synced_stateAt _ _ _, ?_, ?_⟩
    · simp [stateAt, hk]
    · intro hmem
      cases keys with
      | nil => rfl
      | cons k2 rest =>
        exact mapIndex_snd_of_mem (hmem k2 (by rw [hk]; simp))
    · intro d hd
      exact Or.inl hd

theorem advances_trans {a b c : DecState} (h1 : Advances a b) (h2 : Advances b c) :
    Advances a c := by
  obtain ⟨⟨c1, hc1, e1⟩, _, m1, l1⟩ := h1
  obtain ⟨⟨c2, _, e2⟩, s2, m2, l2⟩ := h2
  refine ⟨⟨c1 ++ c2, by simp [hc1], by rw [e1, e2, List.append_assoc]⟩, s2, ?_, ?_⟩
  · intro hmem
    have hab := m1 hmem
    rw [← hab]
    apply m2
    intro k hk
    rw [hab]
    exact hmem k (by rw [e1]; exact List.mem_append_right _ hk)
  · intro d hd
    rcases l2 d hd with h | h
    · exact l1 d h
    · exact Or.inr h

theorem advances_of_warning {st st1 : DecState} (s : QString)
    (h : Advances { st with log := st.log ++ [Diagnostic.arrayIndexExpected s] } st1) :
    Advances st st1 := by
  obtain ⟨hc, hs, hm, hl⟩ := h
  refine ⟨hc, hs, hm, ?_⟩
  intro d hd
  rcases hl d hd with h | h
  · rcases List.mem_append.1 h with h | h
    · exact Or.inl h
    · exact Or.inr ⟨s, by simpa using h⟩
  · exact Or.inr h

/-- Every returning call of the decoder that starts on a non-empty cursor
advances it. -/
theorem restore_advances (fuel : Nat) :
    (∀ lvl st r, st.keysWL ≠ [] → restoreJsonValue fuel lvl st = .ok r → Advances st r.2) ∧
    (∀ lvl st r, st.keysWL ≠ [] → restoreJsonObject fuel lvl st = .ok r → Advances st r.2) ∧
    (∀ path lvl acc st r, st.keysWL ≠ [] →
        restoreJsonObjectLoop fuel path lvl acc st = .ok r → Advances st r.2) ∧
    (∀ lvl st r, st.keysWL ≠ [] → lvl < st.sections.length →
        restoreJsonArray fuel lvl st = .ok r → Advances st r.2) ∧
    (∀ path lvl acc st r, st.keysWL ≠ [] →
        restoreJsonArrayLoop fuel path lvl acc st = .ok r → Advances st r.2) := by
  induction fuel with
  | zero =>
    refine ⟨?_, ?_, ?_, ?_, ?_⟩ <;> intros <;> simp_all [restoreJsonValue, restoreJsonObject,
      restoreJsonObjectLoop, restoreJsonArray, restoreJsonArrayLoop]
  | succ n ih =>
    obtain ⟨ihV, ihO, ihOL, ihA, ihAL⟩ := ih
    refine ⟨?_, ?_, ?_, ?_, ?_⟩
    · intro lvl st r hne h
      rw [restoreJsonValue] at h
      split at h
      · exact restoreJsonSimpleValue_advances hne h
      · rename_i hlen
        cases hs : st.sections[lvl]? with
        | none => simp [hs] at h
        | some sec =>
          simp only [hs] at h
          split at h
          · cases ha : restoreJsonArray n lvl st with
            | error e => simp [ha] at h
            | ok p =>
              simp only [ha] at h
              rw [← Except.ok.inj h]
              exact ihA _ _ _ hne (by omega) ha
          · cases ho : restoreJsonObject n lvl st with
            | error e => simp [ho] at h
            | ok p =>
              simp only [ho] at h
              rw [← Except.ok.inj h]
              exact ihO _ _ _ hne ho
    · intro lvl st r hne h
      rw [restoreJsonObject] at h
      exact ihOL _ _ _ _ _ hne h
    · intro path lvl acc st r hne h
      rw [restoreJsonObjectLoop] at h
      split at h
      · rename_i hk
        exact absurd (List.isEmpty_iff.1 hk) hne
      · cases hs : st.sections[lvl]? with
        | none => simp [hs] at h
        | some sec =>
          simp only [hs] at h
          cases hv : restoreJsonValue n (lvl + 1) st with
          | error e => simp [hv] at h
          | ok p =>
            have h1 := ihV _ _ _ hne hv
            simp only [hv] at h
            split at h
            · rw [← Except.ok.inj h]
              exact h1
            · rename_i hc
              have hne1 : p.2.keysWL ≠ [] := by
                intro he
                simp [he] at hc
              exact advances_trans h1 (ihOL _ _ _ _ _ hne1 h)
    · intro lvl st r hne hlt h
      rw [restoreJsonArray] at h
      split at h
      · rename_i hc
        omega
      · exact ihAL _ _ _ _ _ hne h
    · intro path lvl acc st r hne h
      rw [restoreJsonArrayLoop] at h
      split at h
      · rename_i hk
        exact absurd (List.isEmpty_iff.1 hk) hne
      · cases hs : st.sections[lvl]? with
        | none => simp [hs] at h
        | some sec =>
          simp only [hs] at h
          split at h
          · cases hv : restoreJsonValue n (lvl + 1) st with
            | error e => simp [hv] at h
            | ok p =>
              have h1 := ihV _ _ _ hne hv
              simp only [hv] at h
              split at h
              · rw [← Except.ok.inj h]
                exact h1
              · rename_i hc
                have hne1 : p.2.keysWL ≠ [] := by
                  intro he
                  simp [he] at hc
                exact advances_trans h1 (ihAL _ _ _ _ _ hne1 h)
          · exact advances_of_warning sec (ihAL _ _ _ _ _ hne h)

theorem advances_keys {st st1 : DecState} (h : Advances st st1)
    (hk : ∀ k ∈ st.keysWL, k ∈ mapKeys st.map) :
    st1.map = st.map ∧ ∀ k ∈ st1.keysWL, k ∈ mapKeys st1.map := by
  obtain ⟨⟨c, _, he⟩, _, hm, _⟩ := h
  have hmap := hm hk
  refine ⟨hmap, ?_⟩
  intro k hin
  rw [hmap]
  exact hk k (by rw [he]; exact List.mem_append_right _ hin)

/-! ## Containers built by the decoder -/

theorem jsonOfVariant_nonEmpty {v : QVariant} (h : noEmptyContainer (fromVariant v) = true) :
    treeAll nodeNonEmpty (jsonOfVariant v) = true := by
  unfold jsonOfVariant
  split
  · rfl
  · exact h

theorem scalarVariant_nonEmpty {v : QVariant} (h : scalarVariant v = true) :
    noEmptyContainer (fromVariant v) = true := by
  cases v with
  | list items => cases h
  | map entries => cases h
  | invalid => rfl
  | nullptr => rfl
  | bool b => rfl
  | double d => rfl
  | string s => rfl

theorem mem_mapInsert {key : QString} {value : QVariant} {m : SettingsMap}
    {e : QString × QVariant} (h : e ∈ mapInsert key value m) : e = (key, value) ∨ e ∈ m := by
  induction m with
  | nil =>
    simp only [mapInsert, List.mem_singleton] at h
    exact Or.inl h
  | cons x rest ih =>
    obtain ⟨k, v⟩ := x
    rw [mapInsert] at h
    split at h
    · rcases List.mem_cons.1 h with h | h
      · exact Or.inl h
      · exact Or.inr h
    · split at h
      · rcases List.mem_cons.1 h with h | h
        · exact Or.inr (h ▸ List.mem_cons_self _ _)
        · rcases ih h with h | h
          · exact Or.inl h
          · exact Or.inr (List.mem_cons_of_mem _ h)
      · rcases List.mem_cons.1 h with h | h
        · exact Or.inl h
        · exact Or.inr (List.mem_cons_of_mem _ h)

theorem mapValue_clean {m : SettingsMap}
    (hm : ∀ e ∈ m, noEmptyContainer (fromVariant e.2) = true) (k : QString) :
    noEmptyContainer (fromVariant (mapValue m k)) = true := by
  unfold mapValue
  cases hf : m.find? (fun e => e.1 = k) with
  | none => rfl
  | some e => exact hm e (List.mem_of_find?_eq_some hf)

theorem mapAtNext_clean {m : SettingsMap}
    (hm : ∀ e ∈ m, noEmptyContainer (fromVariant e.2) = true) (keys : List QString) :
    ∀ e ∈ mapAtNext m keys, noEmptyContainer (fromVariant e.2) = true := by
  cases keys with
  | nil => exact hm
  | cons k rest =>
    intro e he
    have he2 : e ∈ (mapIndex m k).2 := he
    unfold mapIndex at he2
    cases hf : m.find? (fun e => e.1 = k) with
    | some x =>
      rw [hf] at he2
      exact hm e he2
    | none =>
      rw [hf] at he2
      rcases mem_mapInsert he2 with h | h
      · rw [h]
        rfl
      · exact hm e h

theorem cleanValues_stateAt {m : SettingsMap}
    (hm : ∀ e ∈ m, noEmptyContainer (fromVariant e.2) = true) (keys : List QString)
    (log : List Diagnostic) : CleanValues (stateAt m keys log) := by
  refine ⟨?_, hm⟩
  cases keys with
  | nil => rfl
  | cons k rest => exact mapValue_clean hm k

theorem insertMember_ne_nil {key : QString} {v : QJsonValue} (h : v.isUndefined = false)
    (acc : List (QString × QJsonValue)) : insertMember key v acc ≠ [] := by
  induction acc with
  | nil => simp [insertMember, h]
  | cons m rest ih =>
    obtain ⟨k, w⟩ := m
    rw [insertMember]
    simp only [h, Bool.false_eq_true, if_false]
    split
    · simp
    · split <;> simp

theorem insertMember_all (p : QJsonValue → Bool) {key : QString} {v : QJsonValue}
    (hv : treeAll p v = true) :
    ∀ acc : List (QString × QJsonValue), membersAll p acc = true →
      membersAll p (insertMember key v acc) = true := by
  intro acc
  induction acc with
  | nil =>
    intro _
    rw [insertMember]
    split
    · rfl
    · rw [membersAll_cons, hv]
      rfl
  | cons m rest ih =>
    obtain ⟨k, w⟩ := m
    intro hacc
    have hacc2 := hacc
    rw [membersAll_cons, Bool.and_eq_true] at hacc2
    rw [insertMember]
    split
    · split
      · exact hacc
      · rw [membersAll_cons, hv, hacc]
        rfl
    · split
      · rw [membersAll_cons, hacc2.1, ih hacc2.2]
        rfl
      · split
        · exact hacc2.2
        · rw [membersAll_cons, hv, hacc2.2]
          rfl

theorem appendItem_all (p : QJsonValue → Bool) {v : QJsonValue} (hv : treeAll p v = true)
    (hu : v.isUndefined = false) {acc : List QJsonValue} (hacc : itemsAll p acc = true) :
    itemsAll p (appendItem acc v) = true := by
  rw [itemsAll_iff] at hacc ⊢
  intro x hx
  simp only [appendItem, hu, Bool.false_eq_true, if_false, List.mem_append,
    List.mem_singleton] at hx
  rcases hx with hx | rfl
  · exact hacc x hx
  · exact hv

theorem appendItem_ne_nil (acc : List QJsonValue) (v : QJsonValue) : appendItem acc v ≠ [] := by
  simp [appendItem]

/-- Every container a returning call of the decoder builds on a non-empty
cursor has a member or an item, when no value it reads converts to a JSON
value with an empty Object or Array. -/
theorem restore_nonEmpty (fuel : Nat) :
    (∀ lvl st r, st.keysWL ≠ [] → CleanValues st → restoreJsonValue fuel lvl st = .ok r →
        (treeAll nodeNonEmpty r.1 = true ∧ r.1.isUndefined = false) ∧ CleanValues r.2) ∧
    (∀ lvl st r, st.keysWL ≠ [] → CleanValues st → restoreJsonObject fuel lvl st = .ok r →
        (r.1 ≠ [] ∧ membersAll nodeNonEmpty r.1 = true) ∧ CleanValues r.2) ∧
    (∀ path lvl acc st r, st.keysWL ≠ [] → CleanValues st →
        membersAll nodeNonEmpty acc = true →
        restoreJsonObjectLoop fuel path lvl acc st = .ok r →
        (r.1 ≠ [] ∧ membersAll nodeNonEmpty r.1 = true) ∧ CleanValues r.2) ∧
    (∀ lvl st r sec, st.keysWL ≠ [] → CleanValues st → st.sections[lvl]? = some sec →
        (getArrayIndex sec).2 = true → restoreJsonArray fuel lvl st = .ok r →
        (r.1 ≠ [] ∧ itemsAll nodeNonEmpty r.1 = true) ∧ CleanValues r.2) ∧
    (∀ path lvl acc st r, st.keysWL ≠ [] → CleanValues st →
        itemsAll nodeNonEmpty acc = true →
        (acc ≠ [] ∨ ∃ sec, st.sections[lvl]? = some sec ∧ (getArrayIndex sec).2 = true) →
        restoreJsonArrayLoop fuel path lvl acc st = .ok r →
        (r.1 ≠ [] ∧ itemsAll nodeNonEmpty r.1 = true) ∧ CleanValues r.2) := by
  induction fuel with
  | zero =>
    refine ⟨?_, ?_, ?_, ?_, ?_⟩ <;> intros <;> simp_all [restoreJsonValue, restoreJsonObject,
      restoreJsonObjectLoop, restoreJsonArray, restoreJsonArrayLoop]
  | succ n ih =>
    obtain ⟨ihV, ihO, ihOL, ihA, ihAL⟩ := ih
    refine ⟨?_, ?_, ?_, ?_, ?_⟩
    · intro lvl st r hne hcl h
      rw [restoreJsonValue] at h
      split at h
      · cases hk : st.keysWL with
        | nil => exact absurd hk hne
        | cons k keys =>
          rw [restoreJsonSimpleValue_cons st k keys hk] at h
          rw [← Except.ok.inj h]
          exact ⟨⟨jsonOfVariant_nonEmpty hcl.1, jsonOfVariant_not_undefined _⟩,
            cleanValues_stateAt (mapAtNext_clean hcl.2 keys) keys st.log⟩
      · cases hs : st.sections[lvl]? with
        | none => simp [hs] at h
        | some sec =>
          simp only [hs] at h
          split at h
          · rename_i hidx
            cases ha : restoreJsonArray n lvl st with
            | error e => simp [ha] at h
            | ok p =>
              simp only [ha] at h
              rw [← Except.ok.inj h]
              obtain ⟨⟨h1, h2⟩, h3⟩ := ihA _ _ _ _ hne hcl hs hidx ha
              refine ⟨⟨?_, rfl⟩, h3⟩
              rw [treeAll_array, h2, Bool.and_true]
              cases hp : p.1 with
              | nil => exact absurd hp h1
              | cons x xs => rfl
          · cases ho : restoreJsonObject n lvl st with
            | error e => simp [ho] at h
            | ok p =>
              simp only [ho] at h
              rw [← Except.ok.inj h]
              obtain ⟨⟨h1, h2⟩, h3⟩ := ihO _ _ _ hne hcl ho
              refine ⟨⟨?_, rfl⟩, h3⟩
              rw [treeAll_object, h2, Bool.and_true]
              cases hp : p.1 with
              | nil => exact absurd hp h1
              | cons x xs => rfl
    · intro lvl st r hne hcl h
      rw [restoreJsonObject] at h
      exact ihOL _ _ [] _ _ hne hcl (by rfl) h
    · intro path lvl acc st r hne hcl hacc h
      rw [restoreJsonObjectLoop] at h
      split at h
      · rename_i hk
        exact absurd (List.isEmpty_iff.1 hk) hne
      · cases hs : st.sections[lvl]? with
        | none => simp [hs] at h
        | some sec =>
          simp only [hs] at h
          cases hv : restoreJsonValue n (lvl + 1) st with
          | error e => simp [hv] at h
          | ok p =>
            obtain ⟨⟨h1, h2⟩, h3⟩ := ihV _ _ _ hne hcl hv
            simp only [hv] at h
            split at h
            · rw [← Except.ok.inj h]
              exact ⟨⟨insertMember_ne_nil h2 acc, insertMember_all _ h1 acc hacc⟩, h3⟩
            · rename_i hc
              have hne1 : p.2.keysWL ≠ [] := by
                intro he
                simp [he] at hc
              exact ihOL _ _ _ _ _ hne1 h3 (insertMember_all _ h1 acc hacc) h
    · intro lvl st r sec hne hcl hs hidx h
      rw [restoreJsonArray] at h
      split at h
      · rename_i hc
        have : st.sections[lvl]? = none := List.getElem?_eq_none hc
        rw [this] at hs
        cases hs
      · exact ihAL _ _ [] _ _ hne hcl (by rfl) (Or.inr ⟨sec, hs, hidx⟩) h
    · intro path lvl acc st r hne hcl hacc hfirst h
      rw [restoreJsonArrayLoop] at h
      split at h
      · rename_i hk
        exact absurd (List.isEmpty_iff.1 hk) hne
      · cases hs : st.sections[lvl]? with
        | none => simp [hs] at h
        | some sec =>
          simp only [hs] at h
          split at h
          · cases hv : restoreJsonValue n (lvl + 1) st with
            | error e => simp [hv] at h
            | ok p =>
              obtain ⟨⟨h1, h2⟩, h3⟩ := ihV _ _ _ hne hcl hv
              simp only [hv] at h
              split at h
              · rw [← Except.ok.inj h]
                exact ⟨⟨appendItem_ne_nil _ _, appendItem_all _ h1 h2 hacc⟩, h3⟩
              · rename_i hc
                have hne1 : p.2.keysWL ≠ [] := by
                  intro he
                  simp [he] at hc
                exact ihAL _ _ _ _ _ hne1 h3 (appendItem_all _ h1 h2 hacc)
                  (Or.inl (appendItem_ne_nil _ _)) h
          · rename_i hidx
            refine ihAL _ _ _ _ _ (by exact hne) (by exact hcl) hacc ?_ h
            rcases hfirst with hacc2 | ⟨sec2, hs2, hi2⟩
            · exact Or.inl hacc2
            · rw [hs] at hs2
              rw [← Option.some.inj hs2] at hi2
              exact absurd hi2 hidx

/-! ## Claims -/

/-- C1, as stated, fails: the document `{"a/b": 1}` is a well-formed tree without
empty containers, yet decoding its flat map never returns it (the decoder
returns `{"a": {"b": 1}}`). -/
theorem roundtrip_fails_on_slash_name :
    slashNameDoc.isContainer = true ∧ validTree slashNameDoc = true ∧
    noEmptyContainer slashNameDoc = true ∧
    ¬ ∃ fuel st, decodeSettings fuel (encodeTree slashNameDoc) = .ok (slashNameDoc, st) := by
  refine ⟨rfl, rfl, rfl, ?_⟩
  rintro ⟨fuel, st, h⟩
  have h1 := decodeSettings_fuel_le (le_max_left fuel 8) h
  have h2 : decodeSettings 8 (encodeTree slashNameDoc) =
      .ok (.object [("a".toList, .object [("b".toList, .double 1)])],
        stateAt (encodeTree slashNameDoc) [] []) := rfl
  have h3 := decodeSettings_fuel_le (le_max_right fuel 8) h2
  rw [h1] at h3
  simp only [Except.ok.injEq, Prod.mk.injEq] at h3
  have h4 := h3.1
  simp only [slashNameDoc, QJsonValue.object.injEq, List.cons.injEq, Prod.mk.injEq] at h4
  exact absurd h4.1.1 (by decide)

/-- C1, amended: for every well-formed tree (top level an Object or an Array) without
empty Object or Array node, whose member names contain no `'/'` and are not
accepted by `getArrayIndex`, and whose arrays have at most 100000 items,
decoding the flat map produced by encoding the tree returns the tree, and no
warning is written. -/
theorem roundtrip_wellformed (t : QJsonValue) (hc : t.isContainer = true)
    (hv : validTree t = true) (hne : noEmptyContainer t = true)
    (hs : namesNoSlash t = true) (hi : namesNotIndex t = true)
    (hb : arraysBounded t = true) :
    ∃ fuel st, decodeSettings fuel (encodeTree t) = .ok (t, st) ∧ st.log = [] ∧
      st.keysWL = [] := by
  obtain ⟨fuel, h⟩ := decode_encodeTree hc hv hs hi hb (pruneValue_noEmpty t hne)
  exact ⟨fuel, _, h, rfl, rfl⟩

/-- Witness for C1: the round trip of `{"a": {"b": 1, "c": [1, 2]}}`. -/
theorem roundtrip_wellformed_witness :
    ∃ fuel st, decodeSettings fuel (encodeTree mixedDoc) = .ok (mixedDoc, st) ∧ st.log = [] ∧
      st.keysWL = [] :=
  roundtrip_wellformed mixedDoc (by rfl) (by rfl) (by rfl) (by rfl) (by rfl) (by rfl)

theorem arrayLoop_stuck (fuel : Nat) : ∀ (acc : List QJsonValue) (log : List Diagnostic),
    restoreJsonArrayLoop fuel [] 0 acc
      { map := stuckMap, keysWL := ["a".toList], sections := ["a".toList],
        value := QVariant.double 2, log := log } = .error .outOfFuel := by
  induction fuel with
  | zero => intro acc log; rfl
  | succ n ih =>
    intro acc log
    rw [restoreJsonArrayLoop]
    exact ih _ _

/-- C2 fails on the code: on the flat map `{"#00000" -> 1, "a" -> 2}` (keys
unique and ascending) the decode started by `writeSettingsJson` exhausts every
amount of fuel: after the first item the loop of `restoreJsonArray` sees the
section `a`, writes a warning and repeats without consuming a key. -/
theorem decodeSettings_diverges :
    ascending (mapKeys stuckMap) = true ∧
    (∀ fuel, decodeSettings fuel stuckMap = .error .outOfFuel) ∧
    ∀ fuel, writeSettingsJson fuel stuckMap = .error .outOfFuel := by
  have key : ∀ fuel, decodeSettings fuel stuckMap = .error .outOfFuel := by
    intro fuel
    rcases fuel with _ | _ | _ | _ | n
    · rfl
    · rfl
    · rfl
    · rfl
    · have e : decodeSettings (n + 1 + 1 + 1 + 1) stuckMap =
          (match restoreJsonArrayLoop (n + 1) [] 0 [QJsonValue.double 1]
              { map := stuckMap, keysWL := ["a".toList], sections := ["a".toList],
                value := QVariant.double 2, log := [] } with
            | .error e => .error e
            | .ok (xs, st1) => .ok (QJsonValue.array xs, st1)) := rfl
      rw [e, arrayLoop_stuck]
  refine ⟨by decide, key, ?_⟩
  intro fuel
  simp only [writeSettingsJson, key]

/-- C3, as stated, fails: decoding `{"arr/#00000" -> 1, "arr/#00002" -> 3}` writes
no warning and the decoded array contains 3. -/
theorem gap_entry_is_kept :
    ∃ fuel st, decodeSettings fuel (gapMap (.double 1) (.double 3)) =
        .ok (.object [("arr".toList, .array [.double 1, .double 3])], st) ∧
      st.log = [] :=
  ⟨8, stateAt (gapMap (.double 1) (.double 3)) [] [], rfl, rfl⟩

/-- C3, amended: the index written in an array-index segment is not compared with
the position: decoding `{"arr/#00000" -> v1, "arr/#00002" -> v2}` writes no
warning and keeps both entries, in key order, as `{"arr": [v1, v2]}`. -/
theorem gap_is_not_detected (v1 v2 : QVariant) (n : Nat) :
    decodeSettings (n + 8) (gapMap v1 v2) =
      .ok (.object [("arr".toList, .array [jsonOfVariant v1, jsonOfVariant v2])],
        stateAt (gapMap v1 v2) [] []) := by
  cases v1 <;> cases v2 <;> rfl

/-- C4, as stated, fails: `getArrayIndex` accepts the segment `#1`, which is not
`'#'` followed by exactly five decimal digits. -/
theorem getArrayIndex_accepts_short_index :
    (getArrayIndex "#1".toList).2 = true ∧ specIndexGrammar "#1".toList = false := by
  decide

/-- C4, amended: `getArrayIndex` accepts every segment that is `'#'` followed by
exactly five decimal digits (the converse fails: it accepts whatever `toInt`
parses after the `'#'`), and `restoreJsonValue` treats a segment as an array
index exactly when `getArrayIndex` accepts it, every other segment as an
object-member name. -/
theorem getArrayIndex_grammar :
    (∀ s : QString, specIndexGrammar s = true → (getArrayIndex s).2 = true) ∧
    (∀ (fuel lvl : Nat) (st : DecState) (sec : QString), st.sections[lvl]? = some sec →
      (getArrayIndex sec).2 = true →
      restoreJsonValue (fuel + 1) lvl st =
        (restoreJsonArray fuel lvl st).map (fun r => (QJsonValue.array r.1, r.2))) ∧
    (∀ (fuel lvl : Nat) (st : DecState) (sec : QString), st.sections[lvl]? = some sec →
      (getArrayIndex sec).2 = false →
      restoreJsonValue (fuel + 1) lvl st =
        (restoreJsonObject fuel lvl st).map (fun r => (QJsonValue.object r.1, r.2))) := by
  refine ⟨?_, ?_, ?_⟩
  · intro s h
    cases s with
    | nil => simp [specIndexGrammar] at h
    | cons c ds =>
      by_cases hc : c = '#'
      · subst hc
        simp only [specIndexGrammar, Bool.and_eq_true, beq_iff_eq] at h
        apply getArrayIndex_digits
        · intro e
          rw [e] at h
          simp at h
        · omega
        · exact h.2
      · unfold specIndexGrammar at h
        split at h
        · rename_i heq
          simp only [List.cons.injEq] at heq
          exact absurd heq.1 hc
        · cases h
  · intro fuel lvl st sec hs hi
    have hlen : ¬ st.sections.length ≤ lvl := by
      intro hle
      rw [List.getElem?_eq_none hle] at hs
      cases hs
    rw [restoreJsonValue, if_neg hlen]
    simp only [hs, hi, if_true]
    cases restoreJsonArray fuel lvl st with
    | error e => rfl
    | ok r => rfl
  · intro fuel lvl st sec hs hi
    have hlen : ¬ st.sections.length ≤ lvl := by
      intro hle
      rw [List.getElem?_eq_none hle] at hs
      cases hs
    rw [restoreJsonValue, if_neg hlen]
    simp only [hs, hi, Bool.false_eq_true, if_false]
    cases restoreJsonObject fuel lvl st with
    | error e => rfl
    | ok r => rfl

/-- Witness for C4: the segment `#00012` matches the grammar and is accepted. -/
theorem getArrayIndex_grammar_witness :
    specIndexGrammar "#00012".toList = true ∧ (getArrayIndex "#00012".toList).2 = true :=
  ⟨by decide, getArrayIndex_grammar.1 "#00012".toList (by decide)⟩

/-- C10: `readSettingsJson` returns false exactly when the JSON parser reports an
error, and then leaves the map (and the log) as passed in; whenever parsing
succeeds it returns true, also for documents that are or contain an empty
Object or Array. -/
theorem readSettingsJson_result (parsed : ParseResult) (st : EncState) :
    ((readSettingsJson parsed st).1 = false ↔ ∃ err, parsed = .error err) ∧
    ((∃ err, parsed = .error err) → (readSettingsJson parsed st).2 = st) ∧
    (∀ doc, parsed = .ok doc → (readSettingsJson parsed st).1 = true) := by
  cases parsed with
  | error err =>
    refine ⟨⟨fun _ => ⟨err, rfl⟩, fun _ => rfl⟩, fun _ => rfl, ?_⟩
    intro doc h
    cases h
  | ok doc =>
    refine ⟨⟨?_, ?_⟩, ?_, ?_⟩
    · intro h
      cases doc <;> simp [readSettingsJson] at h
    · rintro ⟨err, h⟩
      cases h
    · rintro ⟨err, h⟩
      cases h
    · intro d _
      cases doc <;> rfl

/-- Witness for C10: a parse error returns false and leaves the state, an empty
top-level Object returns true. -/
theorem readSettingsJson_result_witness :
    readSettingsJson (.error ()) { map := stuckMap, log := [] }
        = (false, { map := stuckMap, log := [] }) ∧
    (readSettingsJson (.ok (.object [])) { map := stuckMap, log := [] }).1 = true :=
  ⟨Prod.ext
      (((readSettingsJson_result (.error ()) { map := stuckMap, log := [] }).1).2 ⟨(), rfl⟩)
      ((readSettingsJson_result (.error ()) { map := stuckMap, log := [] }).2.1 ⟨(), rfl⟩),
    (readSettingsJson_result (.ok (.object [])) { map := stuckMap, log := [] }).2.2 _ rfl⟩

/-- C5, as stated, fails: in the array `[{}, 1]` the item at position 0 contributes
no key and the item at position 1 contributes the key `#00000`, which does not
start with `#00001`. -/
theorem item_key_ignores_position :
    mapKeys (parseJsonArray [QJsonValue.object []] [] { map := [], log := [] }).2.map = [] ∧
    mapKeys (parseJsonArray skippedItemArray [] { map := [], log := [] }).2.map
      = ["#00000".toList] ∧
    ¬ (([] : QString) ++ arrItemkey 1) <+: "#00000".toList := by
  decide

/-- C5, amended: every key an array item contributes starts with the prefix, `#`
and the counter `arr_ctr` zero-padded to 5 digits, where `arr_ctr` is the number
of preceding items that are no empty Object or Array (the loop of
`parseJsonArray` reaches the item with that counter, and every key of the map
after the item's `parseJsonValue` call was in the map before or starts with
`prefix + arrItemkey arr_ctr`). -/
theorem item_keys_carry_counter (pre : List QJsonValue) (x : QJsonValue)
    (post : List QJsonValue) (pfx : QString) (st : EncState) :
    parseJsonArrayLoop (pre ++ x :: post) 0 pfx st =
      parseJsonArrayLoop post
        (if (parseJsonValue (arrItemkey (keptItems pre)) x pfx
            (parseJsonArrayLoop pre 0 pfx st)).1 then keptItems pre + 1 else keptItems pre)
        pfx
        (parseJsonValue (arrItemkey (keptItems pre)) x pfx (parseJsonArrayLoop pre 0 pfx st)).2 ∧
    ∀ k ∈ mapKeys (parseJsonValue (arrItemkey (keptItems pre)) x pfx
        (parseJsonArrayLoop pre 0 pfx st)).2.map,
      k ∈ mapKeys (parseJsonArrayLoop pre 0 pfx st).map ∨
        (pfx ++ arrItemkey (keptItems pre)) <+: k := by
  constructor
  · rw [parseJsonArrayLoop_append, parseJsonArrayLoop]
    simp only [Nat.zero_add]
  · intro k hk
    rw [parseJsonValue_eq] at hk
    rcases keys_insertAll _ _ _ hk with h | h
    · exact Or.inr (inBlock_pfx (keys_entriesValue_inBlock h))
    · exact Or.inl h

/-- Witness for C5: in `[{}, 1]` the item at position 1 is reached with the
counter 0, and the key it contributes starts with `#00000`. -/
theorem item_keys_carry_counter_witness :
    keptItems [QJsonValue.object []] = 0 ∧
    ∀ k ∈ mapKeys (parseJsonValue (arrItemkey (keptItems [QJsonValue.object []])) (.double 1) []
        (parseJsonArrayLoop [QJsonValue.object []] 0 [] { map := [], log := [] })).2.map,
      k ∈ mapKeys (parseJsonArrayLoop [QJsonValue.object []] 0 [] { map := [], log := [] }).map ∨
        (([] : QString) ++ arrItemkey (keptItems [QJsonValue.object []])) <+: k :=
  ⟨rfl, (item_keys_carry_counter [QJsonValue.object []] (.double 1) [] []
    { map := [], log := [] }).2⟩

/-- C7: `parseJsonObject` / `parseJsonArray` on an empty Object / Array leave the
map unchanged, return false and write exactly one warning; adding a member
with a fresh name and value `{}` or `[]` to an Object does not change the flat
map; `{"x": {}, "y": 1}` encodes to `{y -> 1}`, which decodes to `{"y": 1}`. -/
theorem empty_containers_produce_no_keys :
    (∀ (pfx : QString) (st : EncState), parseJsonObject [] pfx st =
      (false, { map := st.map, log := st.log ++ [Diagnostic.emptyJsonObject pfx] })) ∧
    (∀ (pfx : QString) (st : EncState), parseJsonArray [] pfx st =
      (false, { map := st.map, log := st.log ++ [Diagnostic.emptyJsonArray pfx] })) ∧
    (∀ (obj : List (QString × QJsonValue)) (x : QString) (e : QJsonValue) (pfx : QString)
        (st : EncState), (e = .object [] ∨ e = .array []) → (∀ m ∈ obj, m.1 ≠ x) →
      (parseJsonObject (insertMember x e obj) pfx st).2.map
        = (parseJsonObject obj pfx st).2.map) ∧
    encodeTree emptyMemberDoc = [("y".toList, QVariant.double 1)] ∧
    ∃ fuel st, decodeSettings fuel (encodeTree emptyMemberDoc)
      = .ok (.object [("y".toList, .double 1)], st) := by
  refine ⟨fun _ _ => rfl, fun _ _ => rfl, ?_, rfl, ⟨4, _, rfl⟩⟩
  intro obj x e pfx st he hx
  have hemp : isEmptyContainer e = true := by
    rcases he with rfl | rfl <;> rfl
  rw [parseJsonObject_eq, parseJsonObject_eq]
  simp only [entriesObject_insert_empty x e hemp obj hx]

/-- Witness for C7: adding the member `x: {}` to `{"y": 1}`. -/
theorem empty_containers_produce_no_keys_witness :
    (parseJsonObject (insertMember "x".toList (.object []) [("y".toList, .double 1)]) []
        { map := [], log := [] }).2.map
      = (parseJsonObject [("y".toList, .double 1)] [] { map := [], log := [] }).2.map :=
  empty_containers_produce_no_keys.2.2.1 [("y".toList, .double 1)] "x".toList (.object []) []
    { map := [], log := [] } (Or.inl rfl) (by decide)

/-- C8: for every well-formed tree (top level Object or Array) without empty
Object or Array node whose member names contain no `'/'`, the flat map made by
encoding it into an empty map consists of exactly the entries of the leaf-path
listing, one per scalar leaf (its keys are pairwise different): the joined
path as key and the leaf's scalar as value. -/
theorem encoder_matches_leaf_paths (t : QJsonValue) (hc : t.isContainer = true)
    (hv : validTree t = true) (hne : noEmptyContainer t = true)
    (hs : namesNoSlash t = true) :
    (encodeTree t).Perm (specLeaves t []) ∧ ((specLeaves t []).map Prod.fst).Nodup ∧
      (encodeTree t).length = (specLeaves t []).length := by
  have hnd := entriesNode_nodup [] hv hs
  rw [encodeTree_eq_entriesNode hc, ← entriesNode_eq_specLeaves hc hne]
  exact ⟨flat_perm hnd, hnd, (flat_perm hnd).length_eq⟩

/-- Witness for C8: `{"a": {"b": 1, "c": [1, 2]}}` gives `a/b -> 1`,
`a/c/#00000 -> 1`, `a/c/#00001 -> 2`. -/
theorem encoder_matches_leaf_paths_witness :
    encodeTree mixedDoc = [("a/b".toList, QVariant.double 1),
      ("a/c/#00000".toList, QVariant.double 1), ("a/c/#00001".toList, QVariant.double 2)] ∧
    specLeaves mixedDoc [] = [("a/b".toList, QVariant.double 1),
      ("a/c/#00000".toList, QVariant.double 1), ("a/c/#00001".toList, QVariant.double 2)] ∧
    (encodeTree mixedDoc).Perm (specLeaves mixedDoc []) :=
  ⟨rfl, rfl, (encoder_matches_leaf_paths mixedDoc (by rfl) (by rfl) (by rfl) (by rfl)).1⟩

/-! ## C6: arrays of scalars -/

/-- C9, as stated, fails for a member name containing the separator: in
`{"a": {"b": 1, "d": 3}, "a/c": 2}` the Object under `a` is a container node
whose keys `a/b`, `a/d` are separated in the flat map by the key `a/c` of a
leaf outside it. -/
theorem contiguity_fails_on_slash_name :
    validTree interleavedDoc = true ∧
    ("a/".toList, QJsonValue.object [("b".toList, .double 1), ("d".toList, .double 3)])
      ∈ containerNodes interleavedDoc ∧
    mapKeys (encodeTree interleavedDoc) = ["a/b".toList, "a/c".toList, "a/d".toList] ∧
    mapKeys (encodeNode "a/".toList
      (.object [("b".toList, .double 1), ("d".toList, .double 3)]))
        = ["a/b".toList, "a/d".toList] ∧
    ¬ (mapKeys (encodeNode "a/".toList
        (.object [("b".toList, .double 1), ("d".toList, .double 3)]))
      <:+: mapKeys (encodeTree interleavedDoc)) :=
  ⟨by decide, List.mem_cons_of_mem _ (List.mem_cons_self _ _), by decide, by decide, by decide⟩

/-- C9, amended: for every tree whose Objects have distinct member names
without `'/'`, and every container node of it, what the encoder inserts for
the node is part of the tree's flat map, and the node's keys form one
contiguous run of the flat map's keys. -/
theorem encoder_output_contiguous (t : QJsonValue) (hv : validTree t = true)
    (hs : namesNoSlash t = true) (q : QString) (N : QJsonValue)
    (hm : (q, N) ∈ containerNodes t) :
    (∀ e ∈ encodeNode q N, e ∈ encodeTree t) ∧
    mapKeys (encodeNode q N) <:+: mapKeys (encodeTree t) := by
  have hsorted : KeySorted (encodeTree t) := by
    rw [encodeTree_eq_entriesNode (isContainer_of_containerNodes hm)]
    exact flat_sorted _
  cases hne : isEmptyContainer N with
  | true =>
    rw [encodeNode_emptyContainer hne]
    exact ⟨fun e he => absurd he (List.not_mem_nil e), List.nil_infix⟩
  | false =>
    rw [encodeNode_eq_filter hv hs hm hne]
    refine ⟨fun e he => (List.mem_filter.1 he).1, ?_⟩
    exact (filter_isInfix_of_sorted (fun k => q.isPrefixOf k) (isPrefixOf_convex q)
      (encodeTree t) hsorted).map Prod.fst

/-- Witness for C9: in `{"a": {"b": 1, "c": [1, 2]}}` the keys of the Array
under `a/c` are a contiguous run of the flat map's keys. -/
theorem encoder_output_contiguous_witness :
    (∀ e ∈ encodeNode "a/c/".toList (.array [.double 1, .double 2]), e ∈ encodeTree mixedDoc) ∧
    mapKeys (encodeNode "a/c/".toList (.array [.double 1, .double 2]))
      <:+: mapKeys (encodeTree mixedDoc) :=
  encoder_output_contiguous mixedDoc (by decide) (by decide) "a/c/".toList
    (.array [.double 1, .double 2])
    (List.mem_cons_of_mem _ (List.mem_cons_of_mem _ (List.mem_cons_self _ _)))

/-! ## The root built by `writeSettingsJson` -/

theorem decodeSettings_stuckMap (fuel : Nat) :
    decodeSettings fuel stuckMap = .error .outOfFuel := by
  rcases fuel with _ | _ | _ | _ | n
  · rfl
  · rfl
  · rfl
  · rfl
  · have e : decodeSettings (n + 1 + 1 + 1 + 1) stuckMap =
        (match restoreJsonArrayLoop (n + 1) [] 0 [QJsonValue.double 1]
            { map := stuckMap, keysWL := ["a".toList], sections := ["a".toList],
              value := QVariant.double 2, log := [] } with
          | .error e => .error e
          | .ok (xs, st1) => .ok (QJsonValue.array xs, st1)) := rfl
    rw [e, arrayLoop_stuck]

theorem split_head (k : QString) : ∃ s rest, split k = s :: rest := by
  cases h : split k with
  | nil => exact absurd h (split_ne_nil k)
  | cons s rest => exact ⟨s, rest, rfl⟩

/-- The root of a decode that returns is the container the first segment of
the first key announces. -/
theorem decodeSettings_root {fuel : Nat} {m : SettingsMap} {first : QString}
    {keys : List QString} {s : QString} {segs : List QString} {v : QJsonValue} {st : DecState}
    (hk : mapKeys m = first :: keys) (hs : split first = s :: segs)
    (h : decodeSettings fuel m = .ok (v, st)) :
    ((getArrayIndex s).2 = true → ∃ xs, v = .array xs) ∧
    ((getArrayIndex s).2 = false → ∃ ms, v = .object ms) := by
  unfold decodeSettings at h
  simp only [hk] at h
  cases fuel with
  | zero => simp [restoreJsonValue] at h
  | succ n =>
    rw [restoreJsonValue] at h
    simp only [hs, List.length_cons, Nat.le_zero_eq, Nat.add_one_ne_zero, if_false,
      List.getElem?_cons_zero] at h
    split at h
    · rename_i hidx
      cases ha : restoreJsonArray n 0
        { map := m, keysWL := first :: keys, sections := s :: segs,
          value := mapValue m first, log := [] } with
      | error e => simp [ha] at h
      | ok p =>
        simp only [ha] at h
        simp only [Except.ok.injEq, Prod.mk.injEq] at h
        exact ⟨fun _ => ⟨_, h.1.symm⟩, fun hf => by rw [hf] at hidx; cases hidx⟩
    · rename_i hidx
      cases ho : restoreJsonObject n 0
        { map := m, keysWL := first :: keys, sections := s :: segs,
          value := mapValue m first, log := [] } with
      | error e => simp [ho] at h
      | ok p =>
        simp only [ho] at h
        simp only [Except.ok.injEq, Prod.mk.injEq] at h
        exact ⟨fun ht => absurd ht hidx, fun _ => ⟨_, h.1.symm⟩⟩

/-! ## Section accesses of the decoder -/

theorem split_cons_cases : ∀ (k s : QString) (ss : List QString), split k = s :: ss →
    (ss = [] ∧ k = s) ∨ ∃ k2, k = s ++ '/' :: k2 ∧ split k2 = ss
  | [], s, ss, h => by
    simp only [split, List.cons.injEq] at h
    exact Or.inl ⟨h.2.symm, h.1⟩
  | c :: cs, s, ss, h => by
    rw [split] at h
    split at h
    · rename_i hc
      simp only [List.cons.injEq] at h
      refine Or.inr ⟨cs, ?_, h.2⟩
      rw [← h.1, hc]
      rfl
    · obtain ⟨s2, ss2, hs2⟩ := split_head cs
      rw [hs2] at h
      simp only [List.cons.injEq] at h
      obtain ⟨h1, h2⟩ := h
      subst h1 h2
      rcases split_cons_cases cs s2 ss2 hs2 with ⟨he, hk⟩ | ⟨k2, hk, hsp⟩
      · exact Or.inl ⟨he, by rw [hk]⟩
      · exact Or.inr ⟨k2, by rw [hk]; rfl, hsp⟩

/-- A key whose sections are a proper initial part of the sections of another
key is a proper initial part of that key. -/
theorem split_take_append : ∀ (lvl : Nat) (k k1 : QString), lvl < (split k).length →
    split k1 = (split k).take lvl → ∃ c r, k = k1 ++ c :: r
  | 0, k, k1, _, h => by
    rw [List.take_zero] at h
    exact absurd h (split_ne_nil k1)
  | lvl + 1, k, k1, hlt, h => by
    obtain ⟨s, ss, hs⟩ := split_head k
    rw [hs] at h hlt
    rw [List.take_succ_cons] at h
    simp only [List.length_cons, Nat.add_lt_add_iff_right] at hlt
    rcases split_cons_cases k s ss hs with ⟨he, _⟩ | ⟨k2, hk, hsp⟩
    · rw [he] at hlt
      simp at hlt
    · rcases split_cons_cases k1 s _ h with ⟨_, hk1⟩ | ⟨k3, hk1, hsp1⟩
      · exact ⟨'/', k2, by rw [hk, hk1]⟩
      · rw [← hsp] at hsp1 hlt
        obtain ⟨c, r, hr⟩ := split_take_append lvl k2 k3 hlt hsp1
        exact ⟨c, r, by rw [hk, hk1, hr]; simp⟩

theorem split_take_lt {lvl : Nat} {k k1 : QString} (hlt : lvl < (split k).length)
    (h : split k1 = (split k).take lvl) : qstrLt k1 k = true := by
  obtain ⟨c, r, hr⟩ := split_take_append lvl k k1 hlt h
  rw [hr]
  exact qstrLt_append_cons k1 c r

theorem synced_sections {st : DecState} (h : Synced st) {k : QString} {keys : List QString}
    (hk : st.keysWL = k :: keys) : st.sections = split k := by
  unfold Synced at h
  rw [h]
  simp only [stateAt, hk]

theorem synced_warning {st : DecState} (d : Diagnostic) (h : Synced st) :
    Synced { st with log := st.log ++ [d] } := by
  unfold Synced at h ⊢
  obtain ⟨map, keysWL, sections, value, log⟩ := st
  simp only [stateAt, DecState.mk.injEq] at h ⊢
  exact ⟨trivial, trivial, h.2.2.1, h.2.2.2.1, trivial⟩

/-- The state after a returning call, when the object loop goes on: its
cursor is non-empty and ascending, and the level is still a valid index. -/
theorem objectLoop_continue {st st1 : DecState} {lvl : Nat} {path : List QString}
    (hsync : Synced st) (hsort : st.keysWL.Pairwise (fun a b => qstrLt a b = true))
    (hne : st.keysWL ≠ []) (hlt : lvl < st.sections.length)
    (hpath : path = st.sections.take lvl) (hadv : Advances st st1)
    (hcont : ¬ (st1.keysWL.isEmpty || decide (path.length > st1.sections.length)
        || decide (path ≠ st1.sections.take lvl)) = true) :
    Synced st1 ∧ st1.keysWL ≠ [] ∧ st1.keysWL.Pairwise (fun a b => qstrLt a b = true) ∧
      lvl < st1.sections.length ∧ path = st1.sections.take lvl := by
  obtain ⟨⟨c, hc, he⟩, hs1, _, _⟩ := hadv
  simp only [Bool.or_eq_true, decide_eq_true_eq, not_or, not_lt, ne_eq, not_not,
    List.isEmpty_iff] at hcont
  obtain ⟨⟨hne1, hlen⟩, hp1⟩ := hcont
  have hsort1 : st1.keysWL.Pairwise (fun a b => qstrLt a b = true) := by
    rw [he] at hsort
    exact (List.pairwise_append.1 hsort).2.1
  refine ⟨hs1, hne1, hsort1, ?_, hp1⟩
  by_contra hge
  have hpl : path.length = lvl := by
    rw [hpath, List.length_take]
    omega
  have hlen1 : st1.sections.length = lvl := by omega
  cases hk : st.keysWL with
  | nil => exact hne hk
  | cons k keys =>
    cases hk1 : st1.keysWL with
    | nil => exact hne1 hk1
    | cons k1 keys1 =>
      have hsec := synced_sections hsync hk
      have hsec1 := synced_sections hs1 hk1
      have htake : split k1 = (split k).take lvl := by
        rw [← hsec, ← hsec1, ← hpath, hp1, List.take_of_length_le (le_of_eq hlen1)]
      have h1 : qstrLt k1 k = true := split_take_lt (by rw [← hsec]; exact hlt) htake
      have h2 : qstrLt k k1 = true := by
        rw [he, hk1] at hsort
        have hkc : k ∈ c := by
          cases c with
          | nil => exact absurd rfl hc
          | cons x xs =>
            rw [hk1] at he
            rw [he] at hk
            simp only [List.cons_append, List.cons.injEq] at hk
            rw [hk.1]
            exact List.mem_cons_self _ _
        exact (List.pairwise_append.1 hsort).2.2 k hkc k1 (List.mem_cons_self _ _)
      rw [qstrLt_asymm h1] at h2
      cases h2

theorem arrayLoop_continue {st st1 : DecState} {lvl : Nat} {path : List QString}
    (hsort : st.keysWL.Pairwise (fun a b => qstrLt a b = true))
    (hpl : path.length = lvl) (hadv : Advances st st1)
    (hcont : ¬ (st1.keysWL.isEmpty || decide (path.length ≥ st1.sections.length)
        || decide (path ≠ st1.sections.take lvl)) = true) :
    Synced st1 ∧ st1.keysWL ≠ [] ∧ st1.keysWL.Pairwise (fun a b => qstrLt a b = true) ∧
      lvl < st1.sections.length := by
  obtain ⟨⟨c, hc, he⟩, hs1, _, _⟩ := hadv
  simp only [Bool.or_eq_true, decide_eq_true_eq, not_or, ge_iff_le, not_le, ne_eq, not_not,
    List.isEmpty_iff] at hcont
  obtain ⟨⟨hne1, hlen⟩, _⟩ := hcont
  have hsort1 : st1.keysWL.Pairwise (fun a b => qstrLt a b = true) := by
    rw [he] at hsort
    exact (List.pairwise_append.1 hsort).2.1
  exact ⟨hs1, hne1, hsort1, by omega⟩

/-- On an ascending cursor no call of the decoder reads `sections` outside its
bounds. -/
theorem restore_in_bounds (fuel : Nat) :
    (∀ lvl st, Synced st → st.keysWL ≠ [] →
        st.keysWL.Pairwise (fun a b => qstrLt a b = true) →
        restoreJsonValue fuel lvl st ≠ .error .indexOutOfRange) ∧
    (∀ lvl st, Synced st → st.keysWL ≠ [] →
        st.keysWL.Pairwise (fun a b => qstrLt a b = true) → lvl < st.sections.length →
        restoreJsonObject fuel lvl st ≠ .error .indexOutOfRange) ∧
    (∀ path lvl acc st, Synced st → st.keysWL ≠ [] →
        st.keysWL.Pairwise (fun a b => qstrLt a b = true) → lvl < st.sections.length →
        path = st.sections.take lvl →
        restoreJsonObjectLoop fuel path lvl acc st ≠ .error .indexOutOfRange) ∧
    (∀ lvl st, Synced st → st.keysWL ≠ [] →
        st.keysWL.Pairwise (fun a b => qstrLt a b = true) → lvl < st.sections.length →
        restoreJsonArray fuel lvl st ≠ .error .indexOutOfRange) ∧
    (∀ path lvl acc st, Synced st → st.keysWL ≠ [] →
        st.keysWL.Pairwise (fun a b => qstrLt a b = true) → lvl < st.sections.length →
        path.length = lvl →
        restoreJsonArrayLoop fuel path lvl acc st ≠ .error .indexOutOfRange) := by
  induction fuel with
  | zero =>
    refine ⟨?_, ?_, ?_, ?_, ?_⟩ <;> intros <;> simp [restoreJsonValue, restoreJsonObject,
      restoreJsonObjectLoop, restoreJsonArray, restoreJsonArrayLoop]
  | succ n ih =>
    obtain ⟨ihV, ihO, ihOL, ihA, ihAL⟩ := ih
    refine ⟨?_, ?_, ?_, ?_, ?_⟩
    · intro lvl st hsync hne hsort h
      rw [restoreJsonValue] at h
      split at h
      · cases hk : st.keysWL with
        | nil => exact hne hk
        | cons k keys =>
          rw [restoreJsonSimpleValue_cons st k keys hk] at h
          cases h
      · rename_i hlen
        have hlt : lvl < st.sections.length := by omega
        cases hs : st.sections[lvl]? with
        | none =>
          rw [List.getElem?_eq_none_iff] at hs
          omega
        | some sec =>
          simp only [hs] at h
          split at h
          · cases ha : restoreJsonArray n lvl st with
            | error e =>
              simp only [ha, Except.error.injEq] at h
              rw [h] at ha
              exact ihA _ _ hsync hne hsort hlt ha
            | ok p => simp [ha] at h
          · cases ho : restoreJsonObject n lvl st with
            | error e =>
              simp only [ho, Except.error.injEq] at h
              rw [h] at ho
              exact ihO _ _ hsync hne hsort hlt ho
            | ok p => simp [ho] at h
    · intro lvl st hsync hne hsort hlt h
      rw [restoreJsonObject] at h
      exact ihOL _ _ _ _ hsync hne hsort hlt rfl h
    · intro path lvl acc st hsync hne hsort hlt hpath h
      rw [restoreJsonObjectLoop] at h
      split at h
      · cases h
      · cases hs : st.sections[lvl]? with
        | none =>
          rw [List.getElem?_eq_none_iff] at hs
          omega
        | some sec =>
          simp only [hs] at h
          cases hv : restoreJsonValue n (lvl + 1) st with
          | error e =>
            simp only [hv, Except.error.injEq] at h
            rw [h] at hv
            exact ihV _ _ hsync hne hsort hv
          | ok p =>
            simp only [hv] at h
            have hadv := (restore_advances n).1 _ _ _ hne hv
            split at h
            · cases h
            · rename_i hc
              obtain ⟨h1, h2, h3, h4, h5⟩ :=
                objectLoop_continue hsync hsort hne hlt hpath hadv hc
              exact ihOL _ _ _ _ h1 h2 h3 h4 h5 h
    · intro lvl st hsync hne hsort hlt h
      rw [restoreJsonArray] at h
      split at h
      · cases h
      · refine ihAL _ _ _ _ hsync hne hsort hlt ?_ h
        rw [List.length_take]
        omega
    · intro path lvl acc st hsync hne hsort hlt hpl h
      rw [restoreJsonArrayLoop] at h
      split at h
      · cases h
      · cases hs : st.sections[lvl]? with
        | none =>
          rw [List.getElem?_eq_none_iff] at hs
          omega
        | some sec =>
          simp only [hs] at h
          split at h
          · cases hv : restoreJsonValue n (lvl + 1) st with
            | error e =>
              simp only [hv, Except.error.injEq] at h
              rw [h] at hv
              exact ihV _ _ hsync hne hsort hv
            | ok p =>
              simp only [hv] at h
              have hadv := (restore_advances n).1 _ _ _ hne hv
              split at h
              · cases h
              · rename_i hc
                obtain ⟨h1, h2, h3, h4⟩ := arrayLoop_continue hsort hpl hadv hc
                exact ihAL _ _ _ _ h1 h2 h3 h4 hpl h
          · exact ihAL _ _ _ _ (synced_warning _ hsync) hne hsort hlt hpl h

/-! ## Claims C11 to C18 -/

/-- C13: for every well-formed tree (top level Object or Array) whose member
names contain no `'/'` and are not accepted by `getArrayIndex`, and whose
arrays have at most 100000 items: when pruning leaves a tree, decoding the
flat map of the tree returns the pruned tree and consumes all keys; when
pruning leaves nothing, the flat map is empty and `writeSettingsJson` builds
no tree; a tree without empty Object or Array is returned unchanged. -/
theorem roundtrip_pruned (t : QJsonValue) (hc : t.isContainer = true)
    (hv : validTree t = true) (hs : namesNoSlash t = true) (hi : namesNotIndex t = true)
    (hb : arraysBounded t = true) :
    (∀ w, pruneValue t = some w →
      ∃ fuel st, decodeSettings fuel (encodeTree t) = .ok (w, st) ∧ st.keysWL = [] ∧
        st.log = []) ∧
    (pruneValue t = none →
      encodeTree t = [] ∧ ∀ fuel, writeSettingsJson fuel (encodeTree t) = .ok (true, none, [])) ∧
    (noEmptyContainer t = true →
      ∃ fuel st, decodeSettings fuel (encodeTree t) = .ok (t, st)) := by
  refine ⟨?_, ?_, ?_⟩
  · intro w hp
    obtain ⟨fuel, h⟩ := decode_encodeTree hc hv hs hi hb hp
    exact ⟨fuel, _, h, rfl, rfl⟩
  · intro hp
    have hnil := encodeTree_eq_nil hc hp
    refine ⟨hnil, ?_⟩
    intro fuel
    rw [hnil]
    rfl
  · intro hne
    obtain ⟨fuel, h⟩ := decode_encodeTree hc hv hs hi hb (pruneValue_noEmpty t hne)
    exact ⟨fuel, _, h⟩

/-- Witness for C13: `{"x": {}, "y": 1}` decodes to `{"y": 1}`. -/
theorem roundtrip_pruned_witness :
    ∃ fuel st, decodeSettings fuel (encodeTree emptyMemberDoc)
      = .ok (.object [("y".toList, .double 1)], st) ∧ st.keysWL = [] ∧ st.log = [] :=
  (roundtrip_pruned emptyMemberDoc (by rfl) (by rfl) (by rfl) (by rfl) (by rfl)).1
    (.object [("y".toList, .double 1)]) (by rfl)

/-- C16: for all scalars `v1`, `v2` and all segment names `k`, `m` without `'/'`
that `getArrayIndex` does not accept, `{k -> v1, k/m -> v2}` is a flat map in
ascending key order, and decoding it with enough fuel returns the Object
`{k: {m: v2}}`, whatever `v1` is, having consumed all keys and written no
warning; `writeSettingsJson` writes that Object. -/
theorem shadowed_value_is_lost (k m : QString) (v1 v2 : QVariant)
    (hk : noSlash k = true) (hm : noSlash m = true)
    (hik : (getArrayIndex k).2 = false) (him : (getArrayIndex m).2 = false) :
    KeySorted (shadowMap k m v1 v2) ∧
    (∀ n, decodeSettings (n + 8) (shadowMap k m v1 v2) =
      .ok (.object [(k, .object [(m, jsonOfVariant v2)])],
        stateAt (shadowMap k m v1 v2) [] [])) ∧
    ∀ n, writeSettingsJson (n + 8) (shadowMap k m v1 v2) =
      .ok (true, some (.object [(k, .object [(m, jsonOfVariant v2)])]), []) := by
  have hdec := fun n => decodeSettings_shadowMap k m v1 v2 n hk hm hik him
  refine ⟨?_, hdec, ?_⟩
  · unfold KeySorted shadowMap
    simp [qstrLt_append_cons]
  · intro n
    rw [writeSettingsJson, hdec n]
    rfl

/-- Witness for C16: `{"test1" -> "a", "test1/test1.1" -> "b"}` decodes to
`{"test1": {"test1.1": "b"}}`. -/
theorem shadowed_value_is_lost_witness :
    decodeSettings 8 (shadowMap "test1".toList "test1.1".toList
        (.string "a".toList) (.string "b".toList)) =
      .ok (.object [("test1".toList, .object [("test1.1".toList, .string "b".toList)])],
        stateAt (shadowMap "test1".toList "test1.1".toList
          (.string "a".toList) (.string "b".toList)) [] []) :=
  (shadowed_value_is_lost "test1".toList "test1.1".toList (.string "a".toList)
    (.string "b".toList) (by decide) (by decide) (by decide) (by decide)).2.1 0

/-- C14: every call of `restoreJsonValue` made with a non-empty cursor that
returns has removed a non-empty run of keys from the front of the cursor (what
is left is a proper suffix: no key is re-inserted or reordered); the cursor of
a decode holds keys of the map only, `writeSettingsJson` starting it with
`map.keys()`, and then the call has left the map unchanged and the cursor left
holds keys of the map only. -/
theorem restoreJsonValue_consumes (fuel lvl : Nat) (st : DecState) (r : QJsonValue × DecState)
    (hne : st.keysWL ≠ []) (h : restoreJsonValue fuel lvl st = .ok r) :
    (∃ consumed, consumed ≠ [] ∧ st.keysWL = consumed ++ r.2.keysWL) ∧
    r.2.keysWL.length < st.keysWL.length ∧
    ((∀ k ∈ st.keysWL, k ∈ mapKeys st.map) →
      r.2.map = st.map ∧ ∀ k ∈ r.2.keysWL, k ∈ mapKeys r.2.map) ∧
    ∀ (m : SettingsMap), ∀ k ∈ (stateAt m (mapKeys m) []).keysWL,
      k ∈ mapKeys (stateAt m (mapKeys m) []).map := by
  have hadv := (restore_advances fuel).1 lvl st r hne h
  obtain ⟨c, hc, he⟩ := hadv.1
  refine ⟨⟨c, hc, he⟩, ?_, advances_keys hadv, fun m k hk => hk⟩
  rw [he, List.length_append]
  have : 0 < c.length := List.length_pos.2 hc
  omega

/-- Witness for C14: decoding the flat map of `{"a": {"b": 1, "c": [1, 2]}}`
consumes its three keys. -/
theorem restoreJsonValue_consumes_witness :
    (∃ consumed, consumed ≠ [] ∧
      (stateAt (encodeTree mixedDoc) (mapKeys (encodeTree mixedDoc)) []).keysWL
        = consumed ++ (stateAt (encodeTree mixedDoc) [] []).keysWL) ∧
    (stateAt (encodeTree mixedDoc) [] []).map = encodeTree mixedDoc :=
  ⟨(restoreJsonValue_consumes 12 0 (stateAt (encodeTree mixedDoc) (mapKeys (encodeTree mixedDoc)) [])
      (mixedDoc, stateAt (encodeTree mixedDoc) [] []) (by decide) (by rfl)).1,
    ((restoreJsonValue_consumes 12 0 (stateAt (encodeTree mixedDoc) (mapKeys (encodeTree mixedDoc)) [])
      (mixedDoc, stateAt (encodeTree mixedDoc) [] []) (by decide) (by rfl)).2.2.1
      (by decide)).1⟩

/-- C18: called with a non-empty cursor, `restoreJsonSimpleValue` returns the JSON
value of `value` (JSON null when it is null), removes exactly the first key of
the cursor, writes no warning, and re-synchronises `sections` and `value` with
the new first key (empty and invalid when none remains); it leaves the map
unchanged, the new first key being a key of the map as it is throughout a
decode.  The carried variables are synchronised when `writeSettingsJson`
starts the decode, stay so when a warning is written, and are so after every
returning call of the decoder's functions on a non-empty cursor, which leaves
the map unchanged and the cursor within the keys of the map. -/
theorem leaf_rule_resyncs :
    (∀ (st : DecState) (k : QString) (keys : List QString), st.keysWL = k :: keys →
      restoreJsonSimpleValue st =
        .ok (jsonOfVariant st.value, stateAt (mapAtNext st.map keys) keys st.log) ∧
      (st.value.isNull = true → jsonOfVariant st.value = .null) ∧
      (st.value.isNull = false → jsonOfVariant st.value = fromVariant st.value) ∧
      ((∀ k2, keys.head? = some k2 → k2 ∈ mapKeys st.map) → mapAtNext st.map keys = st.map)) ∧
    (∀ (m : SettingsMap) (keys : List QString) (log : List Diagnostic),
      (∀ k rest, keys = k :: rest →
        (stateAt m keys log).sections = split k ∧ (stateAt m keys log).value = mapValue m k) ∧
      (keys = [] →
        (stateAt m keys log).sections = [] ∧ (stateAt m keys log).value = QVariant.invalid)) ∧
    (∀ (fuel : Nat) (m : SettingsMap), m ≠ [] →
      decodeSettings fuel m = restoreJsonValue fuel 0 (stateAt m (mapKeys m) [])) ∧
    (∀ (st : DecState) (d : Diagnostic), Synced st → Synced { st with log := st.log ++ [d] }) ∧
    (∀ (fuel : Nat),
      (∀ lvl st r, st.keysWL ≠ [] → restoreJsonValue fuel lvl st = .ok r →
        Synced r.2 ∧ ((∀ k ∈ st.keysWL, k ∈ mapKeys st.map) →
          r.2.map = st.map ∧ ∀ k ∈ r.2.keysWL, k ∈ mapKeys r.2.map)) ∧
      (∀ path lvl acc st r, st.keysWL ≠ [] →
        restoreJsonObjectLoop fuel path lvl acc st = .ok r →
        Synced r.2 ∧ ((∀ k ∈ st.keysWL, k ∈ mapKeys st.map) →
          r.2.map = st.map ∧ ∀ k ∈ r.2.keysWL, k ∈ mapKeys r.2.map)) ∧
      (∀ path lvl acc st r, st.keysWL ≠ [] →
        restoreJsonArrayLoop fuel path lvl acc st = .ok r →
        Synced r.2 ∧ ((∀ k ∈ st.keysWL, k ∈ mapKeys st.map) →
          r.2.map = st.map ∧ ∀ k ∈ r.2.keysWL, k ∈ mapKeys r.2.map))) := by
  refine ⟨?_, ?_, ?_, ?_, ?_⟩
  · intro st k keys hk
    refine ⟨restoreJsonSimpleValue_cons st k keys hk, ?_, ?_, ?_⟩
    · intro h
      simp [jsonOfVariant, h]
    · intro h
      simp [jsonOfVariant, h]
    · intro h
      cases keys with
      | nil => rfl
      | cons k2 rest => exact mapIndex_snd_of_mem (h k2 rfl)
  · intro m keys log
    constructor
    · rintro k rest rfl
      exact ⟨rfl, rfl⟩
    · rintro rfl
      exact ⟨rfl, rfl⟩
  · intro fuel m hm
    rw [decodeSettings_cons hm, List.append_nil]
  · intro st d h
    unfold Synced at h ⊢
    obtain ⟨map, keysWL, sections, value, log⟩ := st
    simp only [stateAt, DecState.mk.injEq] at h ⊢
    exact ⟨trivial, trivial, h.2.2.1, h.2.2.2.1, trivial⟩
  · intro fuel
    obtain ⟨hV, _, hOL, _, hAL⟩ := restore_advances fuel
    refine ⟨?_, ?_, ?_⟩
    · intro lvl st r hne h
      exact ⟨(hV lvl st r hne h).2.1, advances_keys (hV lvl st r hne h)⟩
    · intro path lvl acc st r hne h
      exact ⟨(hOL path lvl acc st r hne h).2.1, advances_keys (hOL path lvl acc st r hne h)⟩
    · intro path lvl acc st r hne h
      exact ⟨(hAL path lvl acc st r hne h).2.1, advances_keys (hAL path lvl acc st r hne h)⟩

/-- Witness for C18: the leaf rule on the first key of the flat map of
`{"a": {"b": 1, "c": [1, 2]}}`. -/
theorem leaf_rule_resyncs_witness :
    restoreJsonSimpleValue (stateAt (encodeTree mixedDoc) (mapKeys (encodeTree mixedDoc)) []) =
      .ok (.double 1,
        stateAt (encodeTree mixedDoc) ["a/c/#00000".toList, "a/c/#00001".toList] []) :=
  (leaf_rule_resyncs.1 (stateAt (encodeTree mixedDoc) (mapKeys (encodeTree mixedDoc)) [])
    "a/b".toList ["a/c/#00000".toList, "a/c/#00001".toList] rfl).1

/-- C11 fails on the code where it says that `writeSettingsJson` returns true in
all cases: on the flat map `{"#00000" -> 1, "a" -> 2}` no amount of fuel makes
it return.  The rest holds: for the empty map it writes the empty document and
returns true; for a non-empty map on which the decode returns, the root is an
Array when `getArrayIndex` accepts the first segment of the first key and an
Object otherwise, that container is the document written and the result is
true; and whenever it returns, the result is true and the document is the
empty one exactly when the map is empty. -/
theorem writeSettingsJson_root :
    (∀ fuel, writeSettingsJson fuel stuckMap = .error .outOfFuel) ∧
    (∀ fuel, writeSettingsJson fuel [] = .ok (true, none, [])) ∧
    (∀ fuel (m : SettingsMap) first keys s segs v st, mapKeys m = first :: keys →
      split first = s :: segs → decodeSettings fuel m = .ok (v, st) →
      ((getArrayIndex s).2 = true → ∃ xs, v = .array xs) ∧
      ((getArrayIndex s).2 = false → ∃ ms, v = .object ms) ∧
      writeSettingsJson fuel m = .ok (true, some v, st.log)) ∧
    (∀ fuel (m : SettingsMap) r, writeSettingsJson fuel m = .ok r →
      r.1 = true ∧ (r.2.1 = none ↔ m = [])) := by
  have hroot : ∀ fuel (m : SettingsMap) first keys s segs v st, mapKeys m = first :: keys →
      split first = s :: segs → decodeSettings fuel m = .ok (v, st) →
      ((getArrayIndex s).2 = true → ∃ xs, v = .array xs) ∧
      ((getArrayIndex s).2 = false → ∃ ms, v = .object ms) ∧
      writeSettingsJson fuel m = .ok (true, some v, st.log) := by
    intro fuel m first keys s segs v st hk hs h
    obtain ⟨h1, h2⟩ := decodeSettings_root hk hs h
    refine ⟨h1, h2, ?_⟩
    rw [writeSettingsJson, h]
    cases hi : (getArrayIndex s).2 with
    | true =>
      obtain ⟨xs, rfl⟩ := h1 hi
      rfl
    | false =>
      obtain ⟨ms, rfl⟩ := h2 hi
      rfl
  refine ⟨?_, fun _ => rfl, hroot, ?_⟩
  · intro fuel
    simp only [writeSettingsJson, decodeSettings_stuckMap]
  · intro fuel m r h
    cases m with
    | nil =>
      have : writeSettingsJson fuel [] = .ok (true, none, []) := rfl
      rw [this] at h
      rw [← Except.ok.inj h]
      simp
    | cons e rest =>
      cases hd : decodeSettings fuel (e :: rest) with
      | error err => simp [writeSettingsJson, hd] at h
      | ok p =>
        obtain ⟨v, st⟩ := p
        obtain ⟨s, segs, hs⟩ := split_head e.1
        have hw := (hroot fuel (e :: rest) e.1 (mapKeys rest) s segs v st rfl hs hd).2.2
        rw [hw] at h
        rw [← Except.ok.inj h]
        simp

/-- Witness for C11: the flat map of `{"a": {"b": 1, "c": [1, 2]}}` is written
as that Object. -/
theorem writeSettingsJson_root_witness :
    writeSettingsJson 12 (encodeTree mixedDoc) = .ok (true, some mixedDoc, []) :=
  (writeSettingsJson_root.2.2.1 12 (encodeTree mixedDoc) "a/b".toList
    ["a/c/#00000".toList, "a/c/#00001".toList] "a".toList ["b".toList] mixedDoc
    (stateAt (encodeTree mixedDoc) [] []) rfl rfl rfl).2.2

/-- C17, as stated, fails: the flat map `{"k" -> QStringList()}` is not empty and
its decode returns `{"k": []}`, a tree with an empty Array. -/
theorem empty_list_value_gives_empty_array :
    emptyListMap ≠ [] ∧
    decodeSettings 4 emptyListMap =
      .ok (.object [("k".toList, .array [])], stateAt emptyListMap [] []) ∧
    noEmptyContainer (.object [("k".toList, .array [])]) = false :=
  ⟨by decide, rfl, rfl⟩

/-- C17, amended: for every non-empty flat map none of whose values converts to a
JSON value with an empty Object or Array (as is the case when every value is a
scalar), and on which the decode returns, every Object node of the returned
tree has a member and every Array node has an item. -/
theorem decoder_builds_no_empty_container (fuel : Nat) (m : SettingsMap)
    (r : QJsonValue × DecState) (hm : m ≠ [])
    (hvals : ∀ e ∈ m, noEmptyContainer (fromVariant e.2) = true)
    (h : decodeSettings fuel m = .ok r) :
    noEmptyContainer r.1 = true ∧
    ∀ v : QVariant, scalarVariant v = true → noEmptyContainer (fromVariant v) = true := by
  rw [decodeSettings_cons hm] at h
  refine ⟨((restore_nonEmpty fuel).1 0 _ r ?_ (cleanValues_stateAt hvals _ _) h).1.1,
    fun v hv => scalarVariant_nonEmpty hv⟩
  cases m with
  | nil => exact absurd rfl hm
  | cons e rest => simp [stateAt, mapKeys]

/-- Witness for C17: the tree decoded from `{"arr/#00000" -> 1, "arr/#00002" -> 3}`. -/
theorem decoder_builds_no_empty_container_witness :
    noEmptyContainer (.object [("arr".toList, .array [.double 1, .double 3])]) = true :=
  (decoder_builds_no_empty_container 8 (gapMap (.double 1) (.double 3))
    (.object [("arr".toList, .array [.double 1, .double 3])],
      stateAt (gapMap (.double 1) (.double 3)) [] [])
    (by decide) (by decide) rfl).1

/-- C15: for every flat map with its keys in ascending order, no amount of fuel
makes the decode started by `writeSettingsJson` stop at an access to
`sections` outside its bounds, and a decode that returns has not written the
`Structural error.` warning; `restoreJsonValue` takes the leaf rule whenever
the level is no index of `sections`, so that `restoreJsonArray`, entered with
a level that is an index, goes to its loop without the early return. -/
theorem decoder_sections_in_bounds (m : SettingsMap) (hm : KeySorted m) :
    (∀ fuel, decodeSettings fuel m ≠ .error .indexOutOfRange) ∧
    (∀ fuel, writeSettingsJson fuel m ≠ .error .indexOutOfRange) ∧
    (∀ fuel r, decodeSettings fuel m = .ok r → Diagnostic.structuralError ∉ r.2.log) ∧
    (∀ fuel lvl st, st.sections.length ≤ lvl →
      restoreJsonValue (fuel + 1) lvl st = restoreJsonSimpleValue st) ∧
    (∀ fuel lvl st, lvl < st.sections.length →
      restoreJsonArray (fuel + 1) lvl st =
        restoreJsonArrayLoop fuel (st.sections.take lvl) lvl [] st) := by
  have hdec : ∀ fuel, decodeSettings fuel m ≠ .error .indexOutOfRange := by
    intro fuel
    cases m with
    | nil =>
      intro h
      cases h
    | cons e rest =>
      rw [decodeSettings_cons (List.cons_ne_nil _ _), List.append_nil]
      refine (restore_in_bounds fuel).1 0 _ (synced_stateAt _ _ _) (by simp [stateAt, mapKeys]) ?_
      unfold KeySorted at hm
      simp only [stateAt, mapKeys]
      rw [List.pairwise_map]
      exact hm
  refine ⟨hdec, ?_, ?_, ?_, ?_⟩
  · intro fuel h
    unfold writeSettingsJson at h
    cases hd : decodeSettings fuel m with
    | error e =>
      simp only [hd, Except.error.injEq] at h
      rw [h] at hd
      exact hdec fuel hd
    | ok p => simp [hd] at h
  · intro fuel r h
    cases m with
    | nil =>
      have : decodeSettings fuel [] = .ok (QJsonValue.null, stateAt [] [] []) := rfl
      rw [this] at h
      rw [← Except.ok.inj h]
      simp [stateAt]
    | cons e rest =>
      rw [decodeSettings_cons (List.cons_ne_nil _ _), List.append_nil] at h
      have hadv := (restore_advances fuel).1 0 _ r (by simp [stateAt, mapKeys]) h
      intro hmem
      rcases hadv.2.2.2 _ hmem with h1 | ⟨s, h1⟩
      · simp [stateAt] at h1
      · cases h1
  · intro fuel lvl st hle
    exact restoreJsonValue_leaf hle
  · intro fuel lvl st hlt
    rw [restoreJsonArray, if_neg (by omega)]

/-- Witness for C15: the decode of `{"arr/#00000" -> 1, "arr/#00002" -> 3}`. -/
theorem decoder_sections_in_bounds_witness :
    decodeSettings 8 (gapMap (.double 1) (.double 3)) ≠ .error .indexOutOfRange :=
  (decoder_sections_in_bounds (gapMap (.double 1) (.double 3)) (by decide)).1 8

end QSettingsJson
